import Mathlib

/-!
Verification of the ID-format record codec of the `xmltransform` repository
(`src/isisinterface.py`, `src/encoding.py`).

Python strings are modelled as `List Char` (`Str`).  Python's dynamic
str-or-list-or-dict values are modelled by the inductive type `Py`.
All stdlib operations the codec uses (`str.split`, `str.strip`,
`str.replace`, `str.zfill`, `sorted`, `html.unescape` on numeric character
references, `str.encode("iso-8859-1", ...)`) are modelled explicitly below.
-/

abbrev Str := List Char

def strL (s : String) : Str := s.data

/-- Python's whitespace set used by `str.split()` / `str.strip()`:
codepoints 9-13, 28-31, 32, 0x85, 0xA0, 0x1680, 0x2000-0x200A,
0x2028, 0x2029, 0x202F, 0x205F, 0x3000. -/
def pyIsSpace (c : Char) : Bool :=
  (9 ≤ c.val ∧ c.val ≤ 13) ∨ (28 ≤ c.val ∧ c.val ≤ 32) ∨
  c.val = 0x85 ∨ c.val = 0xA0 ∨ c.val = 0x1680 ∨
  (0x2000 ≤ c.val ∧ c.val ≤ 0x200A) ∨
  c.val = 0x2028 ∨ c.val = 0x2029 ∨ c.val = 0x202F ∨
  c.val = 0x205F ∨ c.val = 0x3000

/-- `s.split()` (no separator): split on runs of whitespace, no empty parts. -/
def splitWs : Str → List Str
  | [] => []
  | c :: rest =>
    if pyIsSpace c then splitWs rest
    else
      match splitWs rest with
      | [] => [[c]]
      | w :: ws =>
        match rest with
        | [] => [[c]]
        | d :: _ => if pyIsSpace d then [c] :: w :: ws else (c :: w) :: ws

/-- `sep.join(parts)`. -/
def joinSepL (sep : Str) : List Str → Str
  | [] => []
  | [p] => p
  | p :: ps => p ++ sep ++ joinSepL sep ps

/-- `"".join(parts)`. -/
def joinL (parts : List Str) : Str := parts.foldr (· ++ ·) []

/-- `s.strip()` with Python's default whitespace. -/
def stripWs (s : Str) : Str :=
  ((s.dropWhile pyIsSpace).reverse.dropWhile pyIsSpace).reverse

/-- If `p` is a prefix of `l`, return the remainder. -/
def dropPrefixQ : Str → Str → Option Str
  | [], l => some l
  | _ :: _, [] => none
  | a :: as, b :: bs => if a = b then dropPrefixQ as bs else none

def isPrefixL (p l : Str) : Bool := (dropPrefixQ p l).isSome

theorem dropPrefixQ_length_lt {p0 : Char} {ps l t : Str}
    (h : dropPrefixQ (p0 :: ps) l = some t) : t.length < l.length := by
  induction ps generalizing p0 l t with
  | nil =>
    match l with
    | [] => simp [dropPrefixQ] at h
    | b :: bs =>
      simp only [dropPrefixQ] at h
      split at h
      · cases h; simp
      · cases h
  | cons q qs ih =>
    match l with
    | [] => simp [dropPrefixQ] at h
    | b :: bs =>
      simp only [dropPrefixQ] at h
      split at h
      · have := ih h
        simp only [List.length_cons]
        omega
      · cases h

/-- Python `s.split(sep)` for a non-empty separator `p0 :: ps`:
leftmost, non-overlapping occurrences. -/
def splitOnL (p0 : Char) (ps : Str) : Str → List Str
  | [] => [[]]
  | c :: rest =>
    match h : dropPrefixQ (p0 :: ps) (c :: rest) with
    | some t => [] :: splitOnL p0 ps t
    | none =>
      match splitOnL p0 ps rest with
      | [] => [[c]]
      | w :: ws => (c :: w) :: ws
termination_by l => l.length
decreasing_by
  · exact dropPrefixQ_length_lt h
  · simp

/-- Python `s.replace(pat, rep)` for a non-empty pattern `p0 :: ps`:
leftmost, non-overlapping occurrences. -/
def replaceL (p0 : Char) (ps : Str) (rep : Str) : Str → Str
  | [] => []
  | c :: rest =>
    match h : dropPrefixQ (p0 :: ps) (c :: rest) with
    | some t => rep ++ replaceL p0 ps rep t
    | none => c :: replaceL p0 ps rep rest
termination_by l => l.length
decreasing_by
  · exact dropPrefixQ_length_lt h
  · simp

/-- `sep` occurs somewhere in `l` (as a contiguous sublist). -/
def occursIn (p0 : Char) (ps : Str) : Str → Bool
  | [] => false
  | c :: rest => isPrefixL (p0 :: ps) (c :: rest) || occursIn p0 ps rest

/-- Lexicographic `≤` on Python strings (by code point). -/
def lexLe : Str → Str → Bool
  | [], _ => true
  | _ :: _, [] => false
  | a :: as, b :: bs =>
    if a = b then lexLe as bs else decide (a.val.toNat < b.val.toNat)

/-- Stable insertion used by `insSort` (a model of Python's stable `sorted`). -/
def ordInsert (le : Str → Str → Bool) (a : Str) : List Str → List Str
  | [] => [a]
  | b :: bs => if le a b then a :: b :: bs else b :: ordInsert le a bs

/-- Stable sort (insertion sort); models Python `sorted` on strings. -/
def insSort (le : Str → Str → Bool) (l : List Str) : List Str :=
  l.foldr (ordInsert le) []

def natLeB (a b : Nat) : Bool := a ≤ b

def ordInsertN (a : Nat) : List Nat → List Nat
  | [] => [a]
  | b :: bs => if natLeB a b then a :: b :: bs else b :: ordInsertN a bs

/-- Models Python `sorted` on a list of ints. -/
def insSortN (l : List Nat) : List Nat := l.foldr ordInsertN []

def digitChar (n : Nat) : Char := Char.ofNat (48 + n)

def isDigitC (c : Char) : Bool := 48 ≤ c.val ∧ c.val ≤ 57

/-- Decimal rendering of `n`, fuelled (fuel `n+1` always suffices): `str(n)`. -/
def natToStrAux : Nat → Nat → Str
  | 0, _ => []
  | fuel + 1, n =>
    if n < 10 then [digitChar n]
    else natToStrAux fuel (n / 10) ++ [digitChar (n % 10)]

/-- `str(n)` for a natural number. -/
def natToStr (n : Nat) : Str := natToStrAux (n + 1) n

/-- `s.zfill(width)` for a digit string. -/
def zfill (width : Nat) (s : Str) : Str :=
  List.replicate (width - s.length) '0' ++ s

def digitsToNat (s : Str) : Nat :=
  s.foldl (fun acc c => acc * 10 + (c.val.toNat - 48)) 0

/-- `int(s)` restricted to non-empty all-digit strings (the only shape the
codec ever feeds to `int`); anything else is a `ValueError` (`none`). -/
def parseNatDigits (s : Str) : Option Nat :=
  if s ≠ [] ∧ s.all isDigitC then some (digitsToNat s) else none

/-! ## The dynamic value model

Python values flowing through the codec: strings, lists, dicts. -/

inductive Py where
  | s (v : Str)
  | l (vs : List Py)
  | d (kvs : List (Str × Py))
deriving Repr

/-- Python truthiness for the shapes above (`bool(x)`). -/
def truthy : Py → Bool
  | .s v => !v.isEmpty
  | .l vs => !vs.isEmpty
  | .d kvs => !kvs.isEmpty

/-- `dict.get(k)` on an insertion-ordered dict with (normally) unique keys. -/
def pyLookup (k : Str) : List (Str × Py) → Option Py
  | [] => none
  | (k', v) :: rest => if k' = k then some v else pyLookup k rest

mutual
/-- Python `==` on the value shapes above (dict comparison ignores
insertion order; faithful for dicts with unique keys, which is the only
kind the codec produces or consumes). -/
def pyEq : Py → Py → Bool
  | .s a, .s b => a == b
  | .l as, .l bs => pyListEq as bs
  | .d as, .d bs => (as.length == bs.length) && pyDictSub as bs
  | _, _ => false

def pyListEq : List Py → List Py → Bool
  | [], [] => true
  | a :: as, b :: bs => pyEq a b && pyListEq as bs
  | _, _ => false

def pyDictSub : List (Str × Py) → List (Str × Py) → Bool
  | [], _ => true
  | (k, v) :: rest, bs =>
    (match pyLookup k bs with
     | some w => pyEq v w
     | none => false) && pyDictSub rest bs
end

/-! ## `html.unescape`, numeric character references

Models CPython's `html.unescape` for decimal and hexadecimal character
references (`&#NNNN;`, `&#xHHHH;`, final semicolon optional), including the
Windows-1252 remapping table (`_invalid_charrefs`) and the dropped
code points (`_invalid_codepoints`).  Named character references are not
modelled: every string this development applies `htmlUnescape` to contains
`&` only as part of a numeric reference (or not at all), so the named
branch is never exercised; an unrecognized reference is left unchanged,
as CPython also does for names absent from its table. -/

/-- CPython `html._invalid_charrefs` (Windows-1252 remapping). -/
def invalidCharrefTable : List (Nat × Str) :=
  [(0x00, ['\uFFFD']), (0x0d, ['\r']), (0x80, ['\u20AC']), (0x81, ['\x81']),
   (0x82, ['\u201A']), (0x83, ['\u0192']), (0x84, ['\u201E']), (0x85, ['\u2026']),
   (0x86, ['\u2020']), (0x87, ['\u2021']), (0x88, ['\u02C6']), (0x89, ['\u2030']),
   (0x8a, ['\u0160']), (0x8b, ['\u2039']), (0x8c, ['\u0152']), (0x8d, ['\x8d']),
   (0x8e, ['\u017D']), (0x8f, ['\x8f']), (0x90, ['\x90']), (0x91, ['\u2018']),
   (0x92, ['\u2019']), (0x93, ['\u201C']), (0x94, ['\u201D']), (0x95, ['\u2022']),
   (0x96, ['\u2013']), (0x97, ['\u2014']), (0x98, ['\u02DC']), (0x99, ['\u2122']),
   (0x9a, ['\u0161']), (0x9b, ['\u203A']), (0x9c, ['\u0153']), (0x9d, ['\x9d']),
   (0x9e, ['\u017E']), (0x9f, ['\u0178'])]

def invalidCharref (n : Nat) : Option Str :=
  (invalidCharrefTable.find? (fun p => p.1 == n)).map (fun p => p.2)

/-- CPython `html._invalid_codepoints`. -/
def invalidCodepoint (n : Nat) : Bool :=
  (0x1 ≤ n ∧ n ≤ 0x8) ∨ (0xe ≤ n ∧ n ≤ 0x1f) ∨ (0x7f ≤ n ∧ n ≤ 0x9f) ∨
  (0xfdd0 ≤ n ∧ n ≤ 0xfdef) ∨
  (n % 0x10000 = 0xfffe ∨ n % 0x10000 = 0xffff) ∧ n ≤ 0x10ffff

/-- CPython `html._replace_charref` on a numeric reference value. -/
def charrefDec (num : Nat) : Str :=
  match invalidCharref num with
  | some r => r
  | none =>
    if (0xD800 ≤ num ∧ num ≤ 0xDFFF) ∨ 0x10FFFF < num then ['�']
    else if invalidCodepoint num then []
    else [Char.ofNat num]

def isHexDigitC (c : Char) : Bool :=
  (48 ≤ c.val ∧ c.val ≤ 57) ∨ (97 ≤ c.val ∧ c.val ≤ 102) ∨
  (65 ≤ c.val ∧ c.val ≤ 70)

def hexVal (c : Char) : Nat :=
  if c.val ≤ 57 then c.val.toNat - 48
  else if c.val ≤ 70 then c.val.toNat - 55
  else c.val.toNat - 87

def hexToNat (s : Str) : Nat :=
  s.foldl (fun acc c => acc * 16 + hexVal c) 0

/-- Drop one leading `;` if present (numeric references may end without it). -/
def refTail (r : Str) : Str := if r.head? = some ';' then r.tail else r

/-- Try to read a character reference right after a `&`; returns the
replacement text and the rest of the input. -/
def tryCharref : Str → Option (Str × Str)
  | [] => none
  | c :: rest =>
    if c = '#' then
      match rest with
      | [] => none
      | c2 :: r2 =>
        if c2 = 'x' ∨ c2 = 'X' then
          if r2.takeWhile isHexDigitC = [] then none
          else some (charrefDec (hexToNat (r2.takeWhile isHexDigitC)),
            refTail (r2.dropWhile isHexDigitC))
        else
          if (c2 :: r2).takeWhile isDigitC = [] then none
          else some (charrefDec (digitsToNat ((c2 :: r2).takeWhile isDigitC)),
            refTail ((c2 :: r2).dropWhile isDigitC))
    else none

theorem length_tail_le' (l : Str) : l.tail.length ≤ l.length := by
  cases l <;> simp

theorem length_dropWhile_le' (p : Char → Bool) (l : Str) :
    (l.dropWhile p).length ≤ l.length := by
  induction l with
  | nil => simp
  | cons c r ih =>
    simp only [List.dropWhile]
    split
    · simp only [List.length_cons]; omega
    · simp

theorem refTail_length_le (r : Str) : (refTail r).length ≤ r.length := by
  unfold refTail
  split
  · exact length_tail_le' r
  · exact Nat.le_refl _

theorem tryCharref_rest_le {s rep rest : Str}
    (h : tryCharref s = some (rep, rest)) : rest.length ≤ s.length := by
  match s with
  | [] => cases h
  | c :: r =>
    simp only [tryCharref] at h
    split at h
    · split at h
      · cases h
      · rename_i c2 r2
        split at h
        · split at h
          · cases h
          · injection h with h1
            injection h1 with h2 h3
            subst h3
            have h4 := length_dropWhile_le' isHexDigitC r2
            have h5 := refTail_length_le (r2.dropWhile isHexDigitC)
            simp only [List.length_cons]
            omega
        · split at h
          · cases h
          · injection h with h1
            injection h1 with h2 h3
            subst h3
            have h4 := length_dropWhile_le' isDigitC (c2 :: r2)
            have h5 := refTail_length_le ((c2 :: r2).dropWhile isDigitC)
            simp only [List.length_cons] at h4 ⊢
            omega
    · cases h

/-- CPython `html.unescape`, restricted as described above. -/
def htmlUnescape : Str → Str
  | [] => []
  | c :: rest =>
    if c = '&' then
      match h : tryCharref rest with
      | some (rep, rest') => rep ++ htmlUnescape rest'
      | none => '&' :: htmlUnescape rest
    else c :: htmlUnescape rest
termination_by l => l.length
decreasing_by
  all_goals simp only [List.length_cons]
  · have := tryCharref_rest_le h
    omega
  · omega
  · omega

/-! ## `encoding.py`

`encode(content, "iso-8859-1")` on a `str` first tries a strict encode and,
on failure, re-encodes with `errors="xmlcharrefreplace"`; the strict encode
succeeds exactly when every code point is ≤ 255, in which case both paths
produce the same bytes.  `decode(bytes, "iso-8859-1")` maps each byte to the
code point of the same value.  -/

/-- `content.encode("iso-8859-1", "xmlcharrefreplace")` (bytes as `List Nat`);
equal to `encoding.encode(content, "iso-8859-1")` for every `str` input. -/
def encodeIso (s : Str) : List Nat :=
  s.flatMap (fun c =>
    if c.val.toNat ≤ 255 then [c.val.toNat]
    else (strL "&#" ++ natToStr c.val.toNat ++ [';']).map (fun d => d.val.toNat))

/-- `bytes.decode("iso-8859-1")`: every byte value maps to the same
code point; total. -/
def decodeIso (bs : List Nat) : Str := bs.map Char.ofNat

/-- The write-side round trip `decode(encode(content))` through iso-8859-1:
characters above 255 come back as decimal numeric character references. -/
def isoDetour (s : Str) : Str := decodeIso (encodeIso s)

/-! ## The ID-file serializer (`IDFile` write path)

Errors raised by the Python code are modelled with `Except`:
`IndexError` from `_format_id`, `ValueError` from `int()` / `_tag_content`,
`TypeError` from `_tag_occ` / `", ".join`, `KeyError` from `record[tag]`,
`AttributeError` from `.keys()` on a non-dict.  `content_formatter` is
`None` throughout (the default used by `UCISIS`). -/

inductive SerErr where
  | indexErr (i : Nat)
  | valueErr
  | typeErr
  | keyErr
  | attrErr
deriving Repr, DecidableEq

def PRESERVECIRC : Str := strL "[PRESERVECIRC]"

/-- `remove_break_lines_characters`: `" ".join(content.split())`. -/
def remove_break_lines_characters (content : Str) : Str :=
  joinSepL [' '] (splitWs content)

/-- The string pipeline inside `format_value`:
`remove_break_lines_characters(content).strip().replace("^", PRESERVECIRC)`. -/
def fmtStr (content : Str) : Str :=
  replaceL '^' [] PRESERVECIRC (stripWs (remove_break_lines_characters content))

/-- All elements are `str`; otherwise `", ".join` raises `TypeError`. -/
def asStrs : List Py → Option (List Str)
  | [] => some []
  | .s v :: rest => (asStrs rest).map (v :: ·)
  | _ => none

/-- `format_value`: a `str` stays, anything else goes through `", ".join`
(a dict joins its keys); then whitespace-collapse, strip and `^`-protect. -/
def format_value : Py → Except SerErr Str
  | .s v => .ok (fmtStr v)
  | .l vs =>
    match asStrs vs with
    | some ss => .ok (fmtStr (joinSepL (strL ", ") ss))
    | none => .error .typeErr
  | .d kvs => .ok (fmtStr (joinSepL (strL ", ") (kvs.map (·.1))))

def CODES : Str := strL "abcdefghijklmnopqrstuvwxyz123456789"

/-- Python's `needle in hay` on strings (substring containment). -/
def isSubstrOf (needle hay : Str) : Bool :=
  match needle with
  | [] => true
  | n0 :: ns => occursIn n0 ns hay

/-- `IDFile._format_subfield`. -/
def format_subfield (subf : Str) (subf_value : Py) : Except SerErr Str :=
  if truthy subf_value && isSubstrOf subf CODES then
    (format_value subf_value).map (fun fv => '^' :: (subf ++ fv))
  else .ok []

/-- `IDFile._format_subfields`: main value (`_`, `or ""`), then every
rendered subfield, sorted as strings and concatenated. -/
def format_subfields (kvs : List (Str × Py)) : Except SerErr Str :=
  match format_value (match pyLookup (strL "_") kvs with
    | some v => if truthy v then v else .s []
    | none => .s []) with
  | .error e => .error e
  | .ok first =>
    match kvs.mapM (fun kv => format_subfield kv.1 kv.2) with
    | .error e => .error e
    | .ok values => .ok (first ++ joinL (insSort lexLe values))

/-- `IDFile._tag_content`: range-check the tag, drop empty content,
otherwise emit `!v` + zero-padded tag + `!` + content + newline. -/
def tag_content (tag : Str) (value : Str) : Except SerErr Str :=
  match parseNatDigits tag with
  | none => .error .valueErr
  | some t =>
    if 0 < t ∧ t ≤ 999 then
      if value = [] then .ok []
      else .ok (strL "!v" ++ zfill 3 tag ++ ['!'] ++ value ++ ['\n'])
    else .error .valueErr

/-- `IDFile._tag_occ`: empty data renders as `""`; a `str` becomes
`{"_": data}`; a dict is rendered via `_format_subfields`; anything else
raises `TypeError`. -/
def tag_occ (tag : Str) (data : Py) : Except SerErr Str :=
  if truthy data then
    match data with
    | .s v =>
      (match format_subfields [(strL "_", .s v)] with
       | .error e => .error e
       | .ok subf => tag_content tag subf)
    | .d kvs =>
      (match format_subfields kvs with
       | .error e => .error e
       | .ok subf => tag_content tag subf)
    | .l _ => .error .typeErr
  else .ok []

/-- `IDFile._tag_data`: falsy data yields no occurrences; a non-list is
wrapped into a one-element list; each element is rendered by `_tag_occ`. -/
def tag_data (tag : Str) (data : Py) : Except SerErr (List Str) :=
  if truthy data then
    (match data with | .l vs => vs | x => [x]).mapM (tag_occ tag)
  else .ok []

/-- `IDFile._format_record` (with `content_formatter = None`):
iterate the tags in ascending `int` order, look each key back up as
`str(int(key))`, and concatenate all rendered occurrences. -/
def format_record (record : Py) : Except SerErr Str :=
  if truthy record then
    match record with
    | .d kvs =>
      (match kvs.mapM (fun kv =>
        match parseNatDigits kv.1 with
        | some n => Except.ok n
        | none => Except.error SerErr.valueErr) with
      | .error e => .error e
      | .ok ints =>
        match (insSortN ints).mapM (fun t =>
          match pyLookup (natToStr t) kvs with
          | some v => tag_data (natToStr t) v
          | none => Except.error SerErr.keyErr) with
        | .error e => .error e
        | .ok items => .ok (joinL items.flatten))
    | _ => .error .attrErr
  else .ok []

/-- `IDFile._format_id`: valid indices are `range(1, 10**6)`. -/
def format_id (index : Nat) : Except SerErr Str :=
  if 1 ≤ index ∧ index < 1000000 then
    .ok (strL "!ID " ++ zfill 6 (natToStr index) ++ ['\n'])
  else .error (.indexErr index)

/-- `IDFile._format_file`: 1-based enumeration; for each record the ID
line (built first, so its `IndexError` wins) followed by the record body. -/
def formatFileAux : Nat → List Py → Except SerErr (List Str)
  | _, [] => .ok []
  | i, r :: rs =>
    match format_id i with
    | .error e => .error e
    | .ok idp =>
      match format_record r with
      | .error e => .error e
      | .ok rp =>
        match formatFileAux (i + 1) rs with
        | .error e => .error e
        | .ok rest => .ok ((idp ++ rp) :: rest)

def format_file (records : List Py) : Except SerErr Str :=
  (formatFileAux 1 records).map joinL

/-- `IDFile.write` minus the file I/O: assemble, `html.unescape`, turn the
placeholder into the two-character escape `\^`, then the
encode/decode detour through iso-8859-1.  The result is the exact text
written to the file (all code points ≤ 255). -/
def write_content (records : List Py) : Except SerErr Str :=
  match format_file records with
  | .error e => .error e
  | .ok content =>
    .ok (isoDetour (replaceL '[' (strL "PRESERVECIRC]") (strL "\\^")
      (htmlUnescape content)))

/-! ## The ID-file parser (`IDFile` read path)

`read_file(filename, "iso-8859-1")` + `encoding.decode` yield the file's
text (on a `str`, `decode` is the identity); parsing failures
(`IndexError` on `subf[0]`, `ValueError` from `int`) are modelled as
`none`. -/

/-- Python dict `update`: overwrite in place, or append a new key. -/
def pyDictUpdate (d : List (Str × Py)) (k : Str) (v : Py) : List (Str × Py) :=
  if d.any (fun p => p.1 == k) then
    d.map (fun p => if p.1 == k then (p.1, v) else p)
  else d ++ [(k, v)]

/-- `data[tag] = data.get(tag, []); data[tag].append(fd)`. -/
def dictAppendOcc (d : List (Str × List Py)) (tag : Str) (fd : Py) :
    List (Str × List Py) :=
  if d.any (fun p => p.1 == tag) then
    d.map (fun p => if p.1 == tag then (p.1, p.2 ++ [fd]) else p)
  else d ++ [(tag, [fd])]

/-- `IDFile._get_field_data`: split on `^`, restore the placeholder in each
segment; one segment is a plain string, otherwise build the subfield dict
(`subf[0]` on an empty segment raises `IndexError`). -/
def get_field_data (field_content : Str) : Option Py :=
  let subfields := (splitOnL '^' [] field_content).map
    (replaceL '[' (strL "PRESERVECIRC]") ['^'])
  match subfields with
  | [] => none
  | [single] => some (.s single)
  | first :: rest =>
    match rest.mapM (fun subf =>
      match subf with
      | [] => none
      | k :: v => some (([k] : Str), Py.s v)) with
    | none => none
    | some pairs =>
      some (.d (pairs.foldl (fun d kv => pyDictUpdate d kv.1 kv.2)
        (if first ≠ [] then [(strL "_", .s first)] else [])))

/-- Parse one field segment of `_get_record_data`: `str(int(field[:3]))`
as the tag and `_get_field_data(field[4:].strip())` as the value. -/
def parseField (field : Str) : Option (Str × Py) :=
  match parseNatDigits (field.take 3) with
  | none => none
  | some t =>
    match get_field_data (stripWs (field.drop 4)) with
    | none => none
    | some fd => some (natToStr t, fd)

/-- `IDFile._get_record_data`: split the record body on `\n!v`, drop the
index segment, parse each field, group occurrences per tag in encounter
order, and collapse single occurrences to scalars. -/
def get_record_data (record : Str) : Option Py :=
  match ((splitOnL '\n' (strL "!v") record).drop 1).mapM parseField with
  | none => none
  | some pairs =>
    some (Py.d ((pairs.foldl (fun d kv => dictAppendOcc d kv.1 kv.2) []).map
      (fun te => (te.1, match te.2 with | [o] => o | os => Py.l os))))

/-- `IDFile.read` minus the file I/O: unescape entity references, protect
`\^` with the placeholder, split on `!ID `, parse each record body. -/
def read_content (iso_content : Str) : Option (List Py) :=
  let utf8 := htmlUnescape iso_content
  let utf8 := replaceL '\\' ['^'] PRESERVECIRC utf8
  (splitOnL '!' (strL "ID ") utf8).drop 1 |>.mapM get_record_data

/-! ## Toolkit: prefixes, clean regions, split and replace -/

theorem dropPrefixQ_self_append (p r : Str) : dropPrefixQ p (p ++ r) = some r := by
  induction p with
  | nil => rfl
  | cons a as ih => simp [dropPrefixQ, ih]

theorem dropPrefixQ_eq_some {p l t : Str} (h : dropPrefixQ p l = some t) :
    l = p ++ t := by
  induction p generalizing l with
  | nil => simp [dropPrefixQ] at h; simp [h]
  | cons a as ih =>
    match l with
    | [] => simp [dropPrefixQ] at h
    | b :: bs =>
      simp only [dropPrefixQ] at h
      split at h
      · subst_vars; simp [ih h]
      · cases h

theorem isPrefixL_cons_ne {p0 c : Char} {ps r : Str} (h : c ≠ p0) :
    isPrefixL (p0 :: ps) (c :: r) = false := by
  simp only [isPrefixL, dropPrefixQ]
  split
  · subst_vars; simp at h
  · rfl

theorem isPrefixL_nil_right (p0 : Char) (ps : Str) :
    isPrefixL (p0 :: ps) [] = false := rfl

/-- No occurrence of the separator `p0 :: ps` starts strictly inside `x`
when `x` is followed by `t`. -/
def cleanBefore (p0 : Char) (ps : Str) (x t : Str) : Prop :=
  ∀ i, i < x.length → isPrefixL (p0 :: ps) ((x ++ t).drop i) = false

theorem cleanBefore_nil (p0 : Char) (ps t : Str) : cleanBefore p0 ps [] t := by
  intro i hi; simp at hi

theorem cleanBefore_append {p0 : Char} {ps x y t : Str}
    (h1 : cleanBefore p0 ps x (y ++ t)) (h2 : cleanBefore p0 ps y t) :
    cleanBefore p0 ps (x ++ y) t := by
  intro i hi
  by_cases hx : i < x.length
  · have := h1 i hx
    simpa [List.append_assoc] using this
  · have hj : i = x.length + (i - x.length) := by omega
    rw [List.append_assoc, hj, List.drop_append]
    refine h2 (i - x.length) ?_
    simp at hi
    omega

theorem cleanBefore_of_head_notin {p0 : Char} {ps x : Str}
    (h : ∀ c ∈ x, c ≠ p0) (t : Str) : cleanBefore p0 ps x t := by
  induction x with
  | nil => exact cleanBefore_nil _ _ _
  | cons c r ih =>
    intro i hi
    match i with
    | 0 =>
      simp only [List.cons_append, List.drop_zero]
      exact isPrefixL_cons_ne (h c (by simp))
    | j + 1 =>
      simp only [List.cons_append, List.drop_succ_cons]
      refine ih (fun d hd => h d (by simp [hd])) j ?_
      simp at hi
      omega

/-- A full separator match that does not reach the character `c` following
`x` must already be a prefix of `x`. -/
theorem isPrefixL_confine {p0 c : Char} {ps x t : Str}
    (hne : c ∉ p0 :: ps)
    (h : isPrefixL (p0 :: ps) (x ++ c :: t) = true) :
    isPrefixL (p0 :: ps) x = true := by
  induction x generalizing p0 ps with
  | nil =>
    simp only [List.nil_append] at h
    have : c = p0 := by
      by_contra hcp
      rw [isPrefixL_cons_ne hcp] at h
      exact absurd h (by simp)
    exact absurd (this ▸ List.mem_cons_self p0 ps) hne
  | cons a x' ih =>
    simp only [List.cons_append] at h
    simp only [isPrefixL, dropPrefixQ] at h ⊢
    split at h
    · subst_vars
      match ps, h with
      | [], _ => simp [dropPrefixQ]
      | q :: qs, h =>
        split
        · exact ih (fun hc => hne (List.mem_cons_of_mem _ hc)) h
        · simp_all
    · simp_all

/-- If the separator does not occur inside `x` and the text after `x`
starts with a character outside the separator (or is empty), then no
match starts inside `x`. -/
theorem cleanBefore_of_occursIn_false {p0 : Char} {ps x t : Str}
    (hx : occursIn p0 ps x = false)
    (ht : t = [] ∨ ∃ c t', t = c :: t' ∧ c ∉ p0 :: ps) :
    cleanBefore p0 ps x t := by
  induction x with
  | nil => exact cleanBefore_nil _ _ _
  | cons a x' ih =>
    simp only [occursIn, Bool.or_eq_false_iff] at hx
    intro i hi
    match i with
    | 0 =>
      simp only [List.cons_append, List.drop_zero]
      rcases ht with h0 | ⟨c, t', h0, hc⟩
      · subst h0; simpa using hx.1
      · subst h0
        by_contra hcon
        have hp : isPrefixL (p0 :: ps) ((a :: x') ++ c :: t') = true := by
          simpa using Bool.of_not_eq_false hcon
        have := isPrefixL_confine hc hp
        rw [this] at hx
        exact absurd hx.1 (by simp)
    | j + 1 =>
      simp only [List.cons_append, List.drop_succ_cons]
      refine ih hx.2 j ?_
      simp at hi
      omega

theorem splitOnL_nil (p0 : Char) (ps : Str) : splitOnL p0 ps [] = [[]] := by
  rw [splitOnL.eq_def]

theorem splitOnL_cons_match {p0 : Char} {ps : Str} {c : Char} {rest t : Str}
    (h : dropPrefixQ (p0 :: ps) (c :: rest) = some t) :
    splitOnL p0 ps (c :: rest) = [] :: splitOnL p0 ps t := by
  rw [splitOnL.eq_def]
  split
  · rename_i heq
    exact absurd heq (by simp)
  · rename_i c' rest' heq
    injection heq with h1 h2
    subst h1
    subst h2
    split
    · rename_i t' heq2
      rw [h] at heq2
      injection heq2 with h3
      rw [h3]
    · rename_i heq2
      rw [h] at heq2
      cases heq2

theorem splitOnL_cons_nomatch {p0 : Char} {ps : Str} {c : Char} {rest w : Str}
    {ws : List Str} (h : dropPrefixQ (p0 :: ps) (c :: rest) = none)
    (hr : splitOnL p0 ps rest = w :: ws) :
    splitOnL p0 ps (c :: rest) = (c :: w) :: ws := by
  rw [splitOnL.eq_def]
  split
  · rename_i heq
    exact absurd heq (by simp)
  · rename_i c' rest' heq
    injection heq with h1 h2
    subst h1
    subst h2
    split
    · rename_i t' heq2
      rw [h] at heq2
      cases heq2
    · rw [hr]

theorem splitOnL_ne_nil (p0 : Char) (ps l : Str) : splitOnL p0 ps l ≠ [] := by
  rw [splitOnL.eq_def]
  match l with
  | [] => simp
  | c :: rest =>
    simp only
    split
    · simp
    · split <;> simp

theorem splitOnL_match_self (p0 : Char) (ps b : Str) :
    splitOnL p0 ps ((p0 :: ps) ++ b) = [] :: splitOnL p0 ps b := by
  have h : dropPrefixQ (p0 :: ps) ((p0 :: ps) ++ b) = some b :=
    dropPrefixQ_self_append _ _
  simp only [List.cons_append] at h ⊢
  exact splitOnL_cons_match h

theorem splitOnL_eq_single {p0 : Char} {ps x : Str}
    (h : cleanBefore p0 ps x []) : splitOnL p0 ps x = [x] := by
  induction x with
  | nil => exact splitOnL_nil _ _
  | cons a x' ih =>
    have h0 := h 0 (by simp)
    simp only [List.drop_zero, List.append_nil] at h0
    have hstep : dropPrefixQ (p0 :: ps) (a :: x') = none := by
      cases hcase : dropPrefixQ (p0 :: ps) (a :: x') with
      | none => rfl
      | some t => rw [isPrefixL, hcase] at h0; cases h0
    have hih : splitOnL p0 ps x' = [x'] := by
      refine ih ?_
      intro i hi
      have := h (i + 1) (by simp only [List.length_cons]; omega)
      simpa using this
    rw [splitOnL_cons_nomatch hstep hih]

theorem splitOnL_append_general {p0 : Char} {ps x t b : Str}
    (ht : t = (p0 :: ps) ++ b) (h : cleanBefore p0 ps x t) :
    splitOnL p0 ps (x ++ t) = x :: splitOnL p0 ps b := by
  induction x with
  | nil =>
    subst ht
    simpa using splitOnL_match_self p0 ps b
  | cons a x' ih =>
    have h0 := h 0 (by simp)
    simp only [List.drop_zero, List.cons_append] at h0
    have hstep : dropPrefixQ (p0 :: ps) (a :: (x' ++ t)) = none := by
      cases hcase : dropPrefixQ (p0 :: ps) (a :: (x' ++ t)) with
      | none => rfl
      | some u =>
        exfalso
        have hpre : isPrefixL (p0 :: ps) (a :: (x' ++ t)) = true := by
          unfold isPrefixL
          rw [hcase]
          rfl
        rw [hpre] at h0
        cases h0
    have hih : splitOnL p0 ps (x' ++ t) = x' :: splitOnL p0 ps b := by
      refine ih ?_
      intro i hi
      have := h (i + 1) (by simp only [List.length_cons]; omega)
      simpa using this
    simp only [List.cons_append]
    rw [splitOnL_cons_nomatch hstep hih]

theorem splitOnL_append_of_clean {p0 : Char} {ps x b : Str}
    (h : cleanBefore p0 ps x ((p0 :: ps) ++ b)) :
    splitOnL p0 ps (x ++ (p0 :: ps) ++ b) = x :: splitOnL p0 ps b := by
  rw [List.append_assoc]
  exact splitOnL_append_general rfl h

/-! ## Toolkit: replace -/

theorem replaceL_nil (p0 : Char) (ps rep : Str) : replaceL p0 ps rep [] = [] := by
  rw [replaceL.eq_def]

theorem replaceL_cons_match {p0 : Char} {ps rep : Str} {c : Char} {rest t : Str}
    (h : dropPrefixQ (p0 :: ps) (c :: rest) = some t) :
    replaceL p0 ps rep (c :: rest) = rep ++ replaceL p0 ps rep t := by
  rw [replaceL.eq_def]
  split
  · rename_i heq
    exact absurd heq (by simp)
  · rename_i c' rest' heq
    injection heq with h1 h2
    subst h1
    subst h2
    split
    · rename_i t' heq2
      rw [h] at heq2
      injection heq2 with h3
      rw [h3]
    · rename_i heq2
      rw [h] at heq2
      cases heq2

theorem replaceL_cons_nomatch {p0 : Char} {ps rep : Str} {c : Char} {rest : Str}
    (h : dropPrefixQ (p0 :: ps) (c :: rest) = none) :
    replaceL p0 ps rep (c :: rest) = c :: replaceL p0 ps rep rest := by
  rw [replaceL.eq_def]
  split
  · rename_i heq
    exact absurd heq (by simp)
  · rename_i c' rest' heq
    injection heq with h1 h2
    subst h1
    subst h2
    split
    · rename_i t' heq2
      rw [h] at heq2
      cases heq2
    · rfl

theorem dropPrefixQ_cons_ne {p0 c : Char} {ps l : Str} (h : c ≠ p0) :
    dropPrefixQ (p0 :: ps) (c :: l) = none := by
  simp only [dropPrefixQ]
  split
  · subst_vars; simp at h
  · rfl

theorem replaceL_cons_ne {p0 : Char} {ps rep : Str} {c : Char} {rest : Str}
    (h : c ≠ p0) :
    replaceL p0 ps rep (c :: rest) = c :: replaceL p0 ps rep rest :=
  replaceL_cons_nomatch (dropPrefixQ_cons_ne h)

theorem replaceL_match_self (p0 : Char) (ps rep r : Str) :
    replaceL p0 ps rep ((p0 :: ps) ++ r) = rep ++ replaceL p0 ps rep r := by
  have h : dropPrefixQ (p0 :: ps) ((p0 :: ps) ++ r) = some r :=
    dropPrefixQ_self_append _ _
  simp only [List.cons_append] at h ⊢
  exact replaceL_cons_match h

theorem replaceL_append_notin {p0 : Char} {ps rep x : Str}
    (h : ∀ c ∈ x, c ≠ p0) (t : Str) :
    replaceL p0 ps rep (x ++ t) = x ++ replaceL p0 ps rep t := by
  induction x with
  | nil => simp
  | cons a x' ih =>
    simp only [List.cons_append]
    rw [replaceL_cons_ne (h a (by simp))]
    rw [ih (fun c hc => h c (by simp [hc]))]

/-! ## Toolkit: circumflex escaping

`escC v` is `v.replace("^", "[PRESERVECIRC]")`; `esc2 v` is the final
on-file form where the placeholder has become the two bytes `\^`. -/

def escC (v : Str) : Str :=
  v.flatMap (fun c => if c = '^' then PRESERVECIRC else [c])

def esc2 (v : Str) : Str :=
  v.flatMap (fun c => if c = '^' then strL "\\^" else [c])

/-- `replace` with a single-character pattern is character-wise substitution. -/
theorem replaceL_single_eq_flatMap (p : Char) (rep : Str) (s : Str) :
    replaceL p [] rep s = s.flatMap (fun c => if c = p then rep else [c]) := by
  induction s with
  | nil => simp [replaceL_nil]
  | cons c rest ih =>
    by_cases hc : c = p
    · subst hc
      have h : dropPrefixQ [c] (c :: rest) = some rest := by
        simp [dropPrefixQ]
      rw [replaceL_cons_match h]
      simp [ih]
    · rw [replaceL_cons_ne hc]
      simp [hc, ih]

theorem escC_spec (v : Str) : replaceL '^' [] PRESERVECIRC v = escC v :=
  replaceL_single_eq_flatMap _ _ _

/-- `unP`: the write-side `content.replace(PRESERVECIRC, "\\^")`. -/
def unP (s : Str) : Str := replaceL '[' (strL "PRESERVECIRC]") (strL "\\^") s

/-- `rd`: the read-side `content.replace("\\^", PRESERVECIRC)`. -/
def rd (s : Str) : Str := replaceL '\\' ['^'] PRESERVECIRC s

theorem PRESERVECIRC_eq : PRESERVECIRC = '[' :: strL "PRESERVECIRC]" := by decide

theorem unP_placeholder (r : Str) :
    unP (PRESERVECIRC ++ r) = strL "\\^" ++ unP r := by
  rw [PRESERVECIRC_eq]
  exact replaceL_match_self _ _ _ _

theorem unP_cons_ne {c : Char} (h : c ≠ '[') (r : Str) :
    unP (c :: r) = c :: unP r := replaceL_cons_ne h

theorem unP_append_notin {x : Str} (h : ∀ c ∈ x, c ≠ '[') (t : Str) :
    unP (x ++ t) = x ++ unP t := replaceL_append_notin h t

theorem unP_nil : unP [] = [] := replaceL_nil _ _ _

theorem rd_escape (r : Str) : rd (strL "\\^" ++ r) = PRESERVECIRC ++ rd r := by
  have : strL "\\^" = '\\' :: ['^'] := by decide
  rw [this]
  exact replaceL_match_self _ _ _ _

theorem rd_cons_ne {c : Char} (h : c ≠ '\\') (r : Str) :
    rd (c :: r) = c :: rd r := replaceL_cons_ne h

theorem rd_append_notin {x : Str} (h : ∀ c ∈ x, c ≠ '\\') (t : Str) :
    rd (x ++ t) = x ++ rd t := replaceL_append_notin h t

theorem rd_nil : rd [] = [] := replaceL_nil _ _ _

/-- Write side: turning the placeholder into `\^` maps an escaped value
`escC v` to its on-file form `esc2 v` (for values without `[`). -/
theorem unP_escC {v : Str} (h : ∀ c ∈ v, c ≠ '[') (t : Str) :
    unP (escC v ++ t) = esc2 v ++ unP t := by
  induction v with
  | nil => simp [escC, esc2]
  | cons c v' ih =>
    have ih' := ih (fun d hd => h d (by simp [hd]))
    by_cases hc : c = '^'
    · subst hc
      have hesc : escC ('^' :: v') = PRESERVECIRC ++ escC v' := by simp [escC]
      have hesc2 : esc2 ('^' :: v') = strL "\\^" ++ esc2 v' := by simp [esc2]
      rw [hesc, hesc2, List.append_assoc, unP_placeholder, ih', List.append_assoc]
    · have hesc : escC (c :: v') = c :: escC v' := by simp [escC, hc]
      have hesc2 : esc2 (c :: v') = c :: esc2 v' := by simp [esc2, hc]
      rw [hesc, hesc2, List.cons_append, unP_cons_ne (h c (by simp)), ih',
        List.cons_append]

/-- Read side: restoring the placeholder from `\^` maps the on-file form
back to `escC v` (for values without backslashes). -/
theorem rd_esc2 {v : Str} (h : ∀ c ∈ v, c ≠ '\\') (t : Str) :
    rd (esc2 v ++ t) = escC v ++ rd t := by
  induction v with
  | nil => simp [escC, esc2]
  | cons c v' ih =>
    have ih' := ih (fun d hd => h d (by simp [hd]))
    by_cases hc : c = '^'
    · subst hc
      have hesc : escC ('^' :: v') = PRESERVECIRC ++ escC v' := by simp [escC]
      have hesc2 : esc2 ('^' :: v') = strL "\\^" ++ esc2 v' := by simp [esc2]
      rw [hesc, hesc2, List.append_assoc, rd_escape, ih', List.append_assoc]
    · have hesc : escC (c :: v') = c :: escC v' := by simp [escC, hc]
      have hesc2 : esc2 (c :: v') = c :: esc2 v' := by simp [esc2, hc]
      rw [hesc, hesc2, List.cons_append, rd_cons_ne (h c (by simp)), ih',
        List.cons_append]

/-! ## Toolkit: `htmlUnescape` on reference-free text -/

theorem htmlUnescape_nil : htmlUnescape [] = [] := by
  rw [htmlUnescape.eq_def]

theorem htmlUnescape_cons_ne {c : Char} (h : c ≠ '&') (r : Str) :
    htmlUnescape (c :: r) = c :: htmlUnescape r := by
  rw [htmlUnescape.eq_def]
  split
  · rename_i heq
    exact absurd heq (by simp)
  · rename_i c' r' heq
    injection heq with h1 h2
    subst h1
    subst h2
    rw [if_neg h]

theorem htmlUnescape_amp_match {r rep rest : Str}
    (h : tryCharref r = some (rep, rest)) :
    htmlUnescape ('&' :: r) = rep ++ htmlUnescape rest := by
  rw [htmlUnescape.eq_def]
  split
  · rename_i heq
    exact absurd heq (by simp)
  · rename_i c' r' heq
    injection heq with h1 h2
    subst h1
    subst h2
    rw [if_pos rfl]
    split
    · rename_i rep' rest' heq2
      rw [h] at heq2
      injection heq2 with h3
      injection h3 with h4 h5
      rw [h4, h5]
    · rename_i heq2
      rw [h] at heq2
      cases heq2

theorem htmlUnescape_append_no_amp {x : Str} (h : ∀ c ∈ x, c ≠ '&') (t : Str) :
    htmlUnescape (x ++ t) = x ++ htmlUnescape t := by
  induction x with
  | nil => simp
  | cons c x' ih =>
    simp only [List.cons_append]
    rw [htmlUnescape_cons_ne (h c (by simp))]
    rw [ih (fun d hd => h d (by simp [hd]))]

theorem htmlUnescape_no_amp {x : Str} (h : ∀ c ∈ x, c ≠ '&') :
    htmlUnescape x = x := by
  have := htmlUnescape_append_no_amp h []
  simpa [htmlUnescape_nil] using this

/-! ## Toolkit: decimal digits -/

theorem digitChar_toNat {n : Nat} (h : n < 10) :
    (digitChar n).val.toNat = 48 + n := by
  interval_cases n <;> decide

theorem digitChar_isDigit {n : Nat} (h : n < 10) :
    isDigitC (digitChar n) = true := by
  interval_cases n <;> decide

theorem digitsToNat_append_singleton (xs : Str) (c : Char) :
    digitsToNat (xs ++ [c]) = digitsToNat xs * 10 + (c.val.toNat - 48) := by
  simp [digitsToNat, List.foldl_append]

theorem natToStrAux_spec :
    ∀ fuel n, n < fuel →
      natToStrAux fuel n ≠ [] ∧ (natToStrAux fuel n).all isDigitC = true ∧
      digitsToNat (natToStrAux fuel n) = n := by
  intro fuel
  induction fuel with
  | zero => intro n h; omega
  | succ f ih =>
    intro n h
    rw [natToStrAux]
    split
    · rename_i h10
      refine ⟨by simp, ?_, ?_⟩
      · simp [digitChar_isDigit h10]
      · simp [digitsToNat, digitChar_toNat h10]
    · rename_i h10
      have hge : 10 ≤ n := by omega
      have hdiv : n / 10 < f := by
        have h1 : n / 10 < n := Nat.div_lt_self (by omega) (by omega)
        omega
      obtain ⟨h1, h2, h3⟩ := ih (n / 10) hdiv
      have hmod : n % 10 < 10 := Nat.mod_lt _ (by omega)
      refine ⟨by simp, ?_, ?_⟩
      · simp only [List.all_append, h2, Bool.true_and, List.all_cons,
          List.all_nil, Bool.and_true]
        exact digitChar_isDigit hmod
      · rw [digitsToNat_append_singleton, h3, digitChar_toNat hmod]
        omega

theorem natToStr_ne_nil (n : Nat) : natToStr n ≠ [] :=
  (natToStrAux_spec (n + 1) n (by omega)).1

theorem natToStr_all_digits (n : Nat) : (natToStr n).all isDigitC = true :=
  (natToStrAux_spec (n + 1) n (by omega)).2.1

theorem digitsToNat_natToStr (n : Nat) : digitsToNat (natToStr n) = n :=
  (natToStrAux_spec (n + 1) n (by omega)).2.2

theorem parseNatDigits_natToStr (n : Nat) :
    parseNatDigits (natToStr n) = some n := by
  simp [parseNatDigits, natToStr_ne_nil, natToStr_all_digits,
    digitsToNat_natToStr]

theorem digitsToNat_zero_cons (s : Str) :
    digitsToNat ('0' :: s) = digitsToNat s := by
  simp only [digitsToNat, List.foldl_cons]
  congr 1

theorem digitsToNat_replicate_zero (k : Nat) (s : Str) :
    digitsToNat (List.replicate k '0' ++ s) = digitsToNat s := by
  induction k with
  | zero => simp
  | succ j ih =>
    rw [List.replicate_succ, List.cons_append, digitsToNat_zero_cons, ih]

theorem parseNatDigits_zfill {w : Nat} (n : Nat) :
    parseNatDigits (zfill w (natToStr n)) = some n := by
  have hd := natToStr_all_digits n
  have hne := natToStr_ne_nil n
  unfold zfill
  rw [parseNatDigits]
  rw [if_pos]
  · rw [digitsToNat_replicate_zero, digitsToNat_natToStr]
  · refine And.intro ?_ ?_
    · intro hcon
      exact hne (List.append_eq_nil.mp hcon).2
    · rw [List.all_append, Bool.and_eq_true]
      refine ⟨?_, hd⟩
      rw [List.all_eq_true]
      intro c hc
      rw [List.eq_of_mem_replicate hc]
      decide

theorem natToStrAux_length_le :
    ∀ fuel n k, n < fuel → n < 10 ^ k → 1 ≤ k →
      (natToStrAux fuel n).length ≤ k := by
  intro fuel
  induction fuel with
  | zero => intro n k h; omega
  | succ f ih =>
    intro n k h hk h1
    rw [natToStrAux]
    split
    · simpa using h1
    · rename_i h10
      have hge : 10 ≤ n := by omega
      have hk2 : 2 ≤ k := by
        by_contra hcon
        have : k = 1 := by omega
        subst this
        simp at hk
        omega
      have hdiv : n / 10 < f := by
        have h1 : n / 10 < n := Nat.div_lt_self (by omega) (by omega)
        omega
      have hpow : n / 10 < 10 ^ (k - 1) := by
        rw [Nat.div_lt_iff_lt_mul (by omega)]
        have : 10 ^ (k - 1) * 10 = 10 ^ k := by
          rw [← Nat.pow_succ]
          congr 1
          omega
        omega
      have := ih (n / 10) (k - 1) hdiv hpow (by omega)
      simp only [List.length_append, List.length_cons, List.length_nil]
      omega

theorem natToStr_length_le_three {n : Nat} (h : n ≤ 999) :
    (natToStr n).length ≤ 3 := by
  refine natToStrAux_length_le (n + 1) n 3 (by omega) (by norm_num; omega) (by omega)

theorem zfill_three_length {n : Nat} (h : n ≤ 999) :
    (zfill 3 (natToStr n)).length = 3 := by
  have h1 := natToStr_length_le_three h
  have h2 : (natToStr n).length ≠ 0 := by
    simpa using natToStr_ne_nil n
  simp only [zfill, List.length_append, List.length_replicate]
  omega


/-! ## Toolkit: the iso-8859-1 detour and its unescape inverse -/

theorem isoDetour_nil : isoDetour [] = [] := by
  simp [isoDetour, encodeIso, decodeIso]

theorem isoDetour_cons_small {c : Char} (h : c.val.toNat ≤ 255) (s : Str) :
    isoDetour (c :: s) = c :: isoDetour s := by
  simp only [isoDetour, encodeIso, decodeIso, List.flatMap_cons]
  rw [if_pos h]
  simp only [List.map_append, List.singleton_append, List.map_cons]
  congr 1
  exact Char.ofNat_toNat c

theorem map_ofNat_toNat (l : Str) :
    (l.map (fun d => d.val.toNat)).map Char.ofNat = l := by
  rw [List.map_map]
  have hfun : (Char.ofNat ∘ fun d : Char => d.val.toNat) = id := by
    funext c
    exact Char.ofNat_toNat c
  rw [hfun, List.map_id]

theorem isoDetour_cons_big {c : Char} (h : 255 < c.val.toNat) (s : Str) :
    isoDetour (c :: s) =
      strL "&#" ++ natToStr c.val.toNat ++ [';'] ++ isoDetour s := by
  simp only [isoDetour, encodeIso, decodeIso, List.flatMap_cons]
  rw [if_neg (by omega)]
  rw [List.map_append, map_ofNat_toNat]

theorem isoDetour_append (x y : Str) :
    isoDetour (x ++ y) = isoDetour x ++ isoDetour y := by
  simp [isoDetour, encodeIso, decodeIso]

theorem isoDetour_all_small {x : Str} (h : ∀ c ∈ x, c.val.toNat ≤ 255) :
    isoDetour x = x := by
  induction x with
  | nil => exact isoDetour_nil
  | cons c r ih =>
    rw [isoDetour_cons_small (h c (by simp))]
    rw [ih (fun d hd => h d (by simp [hd]))]

theorem takeWhile_digits_semi {xs : Str} (h : xs.all isDigitC = true) (r : Str) :
    (xs ++ ';' :: r).takeWhile isDigitC = xs ∧
    (xs ++ ';' :: r).dropWhile isDigitC = ';' :: r := by
  have hsemi : isDigitC ';' = false := by decide
  induction xs with
  | nil =>
    simp [List.takeWhile_cons, List.dropWhile_cons, hsemi]
  | cons d ds ih =>
    simp only [List.all_cons, Bool.and_eq_true] at h
    have hih := ih h.2
    simp only [List.cons_append, List.takeWhile_cons, List.dropWhile_cons, h.1]
    simp [hih.1, hih.2]

theorem digit_ne_xX {d : Char} (h : isDigitC d = true) : ¬(d = 'x' ∨ d = 'X') := by
  simp only [isDigitC, decide_eq_true_eq] at h
  rintro (rfl | rfl) <;> revert h <;> decide

theorem tryCharref_numeric (n : Nat) (r : Str) :
    tryCharref ('#' :: (natToStr n ++ ';' :: r)) = some (charrefDec n, r) := by
  obtain ⟨d, ds, hds⟩ := List.exists_cons_of_ne_nil (natToStr_ne_nil n)
  have hall := natToStr_all_digits n
  have hdd : isDigitC d = true := by
    rw [hds] at hall
    simp only [List.all_cons, Bool.and_eq_true] at hall
    exact hall.1
  have htk := takeWhile_digits_semi hall r
  rw [hds] at htk ⊢
  simp only [List.cons_append] at htk ⊢
  simp only [tryCharref, if_true]
  rw [if_neg (digit_ne_xX hdd)]
  rw [htk.1, htk.2]
  rw [if_neg (by simp)]
  have hsr : refTail (';' :: r) = r := by simp [refTail]
  rw [hsr]
  have hdn : digitsToNat (d :: ds) = n := by
    rw [← hds]
    exact digitsToNat_natToStr n
  rw [hdn]

theorem invalidCharref_big {n : Nat} (h : 255 < n) : invalidCharref n = none := by
  have hall : ∀ p ∈ invalidCharrefTable, p.1 ≤ 255 := by decide
  unfold invalidCharref
  rw [List.find?_eq_none.mpr]
  · rfl
  · intro p hp
    have := hall p hp
    simp only [beq_iff_eq]
    omega

theorem charrefDec_valid {n : Nat} (h255 : 255 < n)
    (hval : n < 55296 ∨ 57343 < n ∧ n < 1114112)
    (hinv : invalidCodepoint n = false) :
    charrefDec n = [Char.ofNat n] := by
  unfold charrefDec
  rw [invalidCharref_big h255]
  rw [if_neg (by omega)]
  rw [if_neg (by simp [hinv])]

/-- The write-side encode/decode detour composed with the read-side
`html.unescape` is the identity on `&`-free text whose non-Latin-1
characters are not HTML-invalid code points. -/
theorem htmlUnescape_isoDetour {s : Str}
    (h : ∀ c ∈ s, c ≠ '&' ∧
      (255 < c.val.toNat → invalidCodepoint c.val.toNat = false)) :
    htmlUnescape (isoDetour s) = s := by
  induction s with
  | nil => rw [isoDetour_nil, htmlUnescape_nil]
  | cons c r ih =>
    have hc := h c (by simp)
    have ihr := ih (fun d hd => h d (by simp [hd]))
    by_cases hbig : c.val.toNat ≤ 255
    · rw [isoDetour_cons_small hbig, htmlUnescape_cons_ne hc.1, ihr]
    · push_neg at hbig
      rw [isoDetour_cons_big hbig]
      have hamp : strL "&#" = ['&', '#'] := by decide
      have hshape : strL "&#" ++ natToStr c.val.toNat ++ [';'] ++ isoDetour r
          = '&' :: ('#' :: (natToStr c.val.toNat ++ ';' :: isoDetour r)) := by
        rw [hamp]
        simp
      rw [hshape]
      rw [htmlUnescape_amp_match (tryCharref_numeric _ _)]
      have hval : c.val.toNat < 55296 ∨ 57343 < c.val.toNat ∧ c.val.toNat < 1114112 :=
        c.valid
      rw [charrefDec_valid hbig hval (hc.2 hbig), ihr]
      have : Char.ofNat c.val.toNat = c := Char.ofNat_toNat c
      rw [this]
      rfl

/-! ## Toolkit: whitespace-normalized values -/

theorem splitWs_chars :
    ∀ s : Str, ∀ w ∈ splitWs s, ∀ c ∈ w, pyIsSpace c = false := by
  intro s
  induction s with
  | nil => intro w hw; simp [splitWs] at hw
  | cons c rest ih =>
    intro w hw d hd
    rw [splitWs] at hw
    by_cases hc : pyIsSpace c
    · rw [if_pos hc] at hw
      exact ih w hw d hd
    · rw [if_neg hc] at hw
      rcases hsp : splitWs rest with _ | ⟨w1, ws1⟩
      · rw [hsp] at hw
        simp only at hw
        simp at hw
        subst hw
        simp at hd
        subst hd
        simpa using hc
      · rw [hsp] at hw
        match rest, hw with
        | [], hw =>
          simp only at hw
          simp at hw
          subst hw
          simp at hd
          subst hd
          simpa using hc
        | e :: rest', hw =>
          by_cases he : pyIsSpace e
          · simp only [he, if_true] at hw
            simp at hw
            rcases hw with hw | hw
            · subst hw
              simp at hd
              subst hd
              simpa using hc
            · exact ih w (by rw [hsp]; simp [hw]) d hd
          · simp only [he, if_false] at hw
            simp at hw
            rcases hw with hw | hw
            · subst hw
              simp at hd
              rcases hd with hd | hd
              · subst hd; simpa using hc
              · exact ih w1 (by rw [hsp]; simp) d hd
            · exact ih w (by rw [hsp]; simp [hw]) d hd

theorem mem_joinSepL_space :
    ∀ (parts : List Str) (c : Char), c ∈ joinSepL [' '] parts →
      c = ' ' ∨ ∃ w ∈ parts, c ∈ w := by
  intro parts
  induction parts with
  | nil => intro c hc; simp [joinSepL] at hc
  | cons p ps ih =>
    intro c hc
    match ps, hc with
    | [], hc =>
      exact Or.inr ⟨p, by simp, hc⟩
    | q :: qs, hc =>
      have hju : joinSepL [' '] (p :: q :: qs) =
          p ++ [' '] ++ joinSepL [' '] (q :: qs) := rfl
      rw [hju] at hc
      simp at hc
      rcases hc with hc | hc | hc
      · exact Or.inr ⟨p, by simp, hc⟩
      · exact Or.inl hc
      · rcases ih c hc with h | ⟨w, hw, hcw⟩
        · exact Or.inl h
        · exact Or.inr ⟨w, by simp [hw], hcw⟩

theorem mem_stripWs {x : Str} {c : Char} (h : c ∈ stripWs x) : c ∈ x := by
  unfold stripWs at h
  rw [List.mem_reverse] at h
  have h1 := (List.dropWhile_sublist (l := (x.dropWhile pyIsSpace).reverse) pyIsSpace).mem h
  rw [List.mem_reverse] at h1
  exact (List.dropWhile_sublist pyIsSpace).mem h1

theorem dropWhile_head_false {p : Char → Bool} {l : Str} {c : Char} {r : Str}
    (h : l.dropWhile p = c :: r) : p c = false := by
  induction l with
  | nil => simp [List.dropWhile] at h
  | cons a as ih =>
    rw [List.dropWhile_cons] at h
    split at h
    · exact ih h
    · injection h with h1 h2
      subst h1
      simp_all

theorem stripWs_result_head {X : Str} {c : Char} {rest : Str}
    (h : stripWs X = c :: rest) : pyIsSpace c = false := by
  unfold stripWs at h
  set y := X.dropWhile pyIsSpace with hy
  set w := y.reverse.dropWhile pyIsSpace with hw
  have hwlast : w.getLast? = some c := by
    have : w = (c :: rest).reverse := by
      rw [← h]
      simp
    rw [this]
    rw [List.getLast?_reverse]
    rfl
  have hsuf := List.dropWhile_suffix (l := y.reverse) pyIsSpace
  obtain ⟨pre, hpre⟩ := hsuf
  have hylast : y.reverse.getLast? = some c := by
    rw [← hpre, List.getLast?_append, hwlast]
    rfl
  rw [List.getLast?_reverse] at hylast
  obtain ⟨d, ds, hds⟩ : ∃ d ds, y = d :: ds := by
    match hm : y, hylast with
    | d :: ds, _ => exact ⟨d, ds, rfl⟩
  rw [hds] at hylast
  simp at hylast
  subst hylast
  refine dropWhile_head_false (l := X) (p := pyIsSpace) (r := ds) ?_
  rw [← hy]
  exact hds

theorem stripWs_result_last {X : Str} {ys : Str} {c : Char}
    (h : stripWs X = ys ++ [c]) : pyIsSpace c = false := by
  unfold stripWs at h
  have hw : (X.dropWhile pyIsSpace).reverse.dropWhile pyIsSpace
      = c :: ys.reverse := by
    have := congrArg List.reverse h
    simpa using this
  exact dropWhile_head_false hw

theorem stripWs_eq_self {x : Str}
    (hh : ∀ c, x.head? = some c → pyIsSpace c = false)
    (hl : ∀ c, x.getLast? = some c → pyIsSpace c = false) :
    stripWs x = x := by
  match x with
  | [] => rfl
  | c :: r =>
    have hc := hh c rfl
    rcases List.eq_nil_or_concat (c :: r) with hcon | ⟨ys, d, hys⟩
    · cases hcon
    · rw [List.concat_eq_append] at hys
      have hd := hl d (by rw [hys]; exact List.getLast?_concat _)
      have e1 : List.dropWhile pyIsSpace (c :: r) = c :: r := by
        rw [List.dropWhile_cons, hc]
        simp
      have e3 : (c :: r).reverse = d :: ys.reverse := by
        rw [hys, List.reverse_append]
        rfl
      have e4 : List.dropWhile pyIsSpace ((c :: r).reverse) = (c :: r).reverse := by
        rw [e3, List.dropWhile_cons, hd]
        simp
      unfold stripWs
      rw [e1, e4]
      simp

theorem stripWs_append_newline {x : Str}
    (hh : ∀ c, x.head? = some c → pyIsSpace c = false)
    (hl : ∀ c, x.getLast? = some c → pyIsSpace c = false)
    (hne : x ≠ []) :
    stripWs (x ++ ['\n']) = x := by
  match x with
  | c :: r =>
    have hc := hh c rfl
    rcases List.eq_nil_or_concat (c :: r) with hcon | ⟨ys, d, hys⟩
    · cases hcon
    · rw [List.concat_eq_append] at hys
      have hd := hl d (by rw [hys]; exact List.getLast?_concat _)
      have e1 : List.dropWhile pyIsSpace ((c :: r) ++ ['\n'])
          = (c :: r) ++ ['\n'] := by
        rw [List.cons_append, List.dropWhile_cons, hc]
        simp
      have e2 : ((c :: r) ++ ['\n']).reverse = '\n' :: (c :: r).reverse := by
        rw [List.reverse_append]
        rfl
      have e3 : (c :: r).reverse = d :: ys.reverse := by
        rw [hys, List.reverse_append]
        rfl
      have e4 : List.dropWhile pyIsSpace ('\n' :: (c :: r).reverse)
          = d :: ys.reverse := by
        rw [List.dropWhile_cons]
        have hnl : pyIsSpace '\n' = true := by decide
        rw [hnl]
        simp only [if_true]
        rw [e3, List.dropWhile_cons, hd]
        simp
      unfold stripWs
      rw [e1, e2, e4, ← e3]
      simp

/-! ## Safe values

`valSafe` is the class of values for which the codec round-trips: non-empty,
already whitespace-normalized (so `format_value` only protects `^`), free of
`&` (no entity references), `\` (no escape collisions) and `[` (no
placeholder collisions), with non-Latin-1 characters outside HTML's invalid
code points, and not containing the record marker `!ID `.  `mainSafe` adds
the one condition specific to content that follows the `!` field separator:
it must not begin with `ID `. -/

def wsNormal (v : Str) : Bool := stripWs (remove_break_lines_characters v) == v

def charOkC (c : Char) : Bool :=
  c ≠ '&' && c ≠ '\\' && c ≠ '[' &&
  (c.val.toNat ≤ 255 || !invalidCodepoint c.val.toNat)

def valSafe (v : Str) : Bool :=
  !v.isEmpty && wsNormal v && v.all charOkC &&
  !occursIn '!' (strL "ID ") (escC v)

def mainSafe (v : Str) : Bool :=
  valSafe v && !isPrefixL (strL "ID ") (escC v)

theorem wsNormal_eq {v : Str} (H : wsNormal v = true) :
    stripWs (remove_break_lines_characters v) = v := by
  simpa [wsNormal] using H

theorem wsNormal_facts {v : Str} (H : wsNormal v = true) :
    (∀ c ∈ v, c = ' ' ∨ pyIsSpace c = false) ∧
    (∀ c, v.head? = some c → pyIsSpace c = false) ∧
    (∀ c, v.getLast? = some c → pyIsSpace c = false) := by
  have Heq := wsNormal_eq H
  refine ⟨?_, ?_, ?_⟩
  · intro c hc
    rw [← Heq] at hc
    have h2 := mem_stripWs hc
    unfold remove_break_lines_characters at h2
    rcases mem_joinSepL_space _ _ h2 with h | ⟨w, hw, hcw⟩
    · exact Or.inl h
    · exact Or.inr (splitWs_chars v w hw c hcw)
  · intro c hc
    match v, hc, Heq with
    | a :: r, hc, Heq =>
      simp at hc
      subst hc
      exact stripWs_result_head Heq
  · intro c hc
    obtain ⟨l', hl'⟩ := List.getLast?_eq_some_iff.mp hc
    subst hl'
    exact stripWs_result_last Heq

/-- Whitespace-normal values contain no whitespace other than spaces. -/
theorem wsNormal_no_ws {v : Str} (H : wsNormal v = true) {c : Char}
    (hc : c ∈ v) (hne : c ≠ ' ') : pyIsSpace c = false := by
  rcases (wsNormal_facts H).1 c hc with h | h
  · exact absurd h hne
  · exact h

theorem mem_PRESERVECIRC_facts :
    ∀ c ∈ PRESERVECIRC, c ≠ '^' ∧ c ≠ '\n' ∧ c ≠ '&' ∧ c ≠ '\\' ∧
      pyIsSpace c = false ∧ c.val.toNat ≤ 255 := by
  decide

theorem mem_escC {v : Str} {c : Char} (h : c ∈ escC v) :
    c ∈ v ∨ c ∈ PRESERVECIRC := by
  unfold escC at h
  rw [List.mem_flatMap] at h
  obtain ⟨a, ha, hc⟩ := h
  by_cases hcirc : a = '^'
  · rw [if_pos hcirc] at hc
    exact Or.inr hc
  · rw [if_neg hcirc] at hc
    simp at hc
    subst hc
    exact Or.inl ha

theorem mem_esc2 {v : Str} {c : Char} (h : c ∈ esc2 v) :
    c ∈ v ∨ c = '\\' ∨ c = '^' := by
  unfold esc2 at h
  rw [List.mem_flatMap] at h
  obtain ⟨a, ha, hc⟩ := h
  by_cases hcirc : a = '^'
  · rw [if_pos hcirc] at hc
    have : strL "\\^" = ['\\', '^'] := by decide
    rw [this] at hc
    simp at hc
    rcases hc with hc | hc
    · exact Or.inr (Or.inl hc)
    · exact Or.inr (Or.inr hc)
  · rw [if_neg hcirc] at hc
    simp at hc
    subst hc
    exact Or.inl ha

theorem escC_no_circ {v : Str} : ∀ c ∈ escC v, c ≠ '^' := by
  intro c hc
  rcases mem_escC hc with h | h
  · intro hcon
    subst hcon
    unfold escC at hc
    rw [List.mem_flatMap] at hc
    obtain ⟨a, _, hmem⟩ := hc
    by_cases ha : a = '^'
    · rw [if_pos ha] at hmem
      exact absurd rfl (mem_PRESERVECIRC_facts _ hmem).1
    · rw [if_neg ha] at hmem
      simp at hmem
      exact ha hmem.symm
  · exact (mem_PRESERVECIRC_facts _ h).1

theorem escC_nil : escC [] = [] := rfl

theorem escC_ne_nil {v : Str} (h : v ≠ []) : escC v ≠ [] := by
  match v with
  | c :: r =>
    unfold escC
    simp only [List.flatMap_cons]
    by_cases hc : c = '^'
    · rw [if_pos hc]
      simp [PRESERVECIRC, strL]
    · rw [if_neg hc]
      simp

theorem escC_append (x y : Str) : escC (x ++ y) = escC x ++ escC y := by
  simp [escC]

theorem esc2_append (x y : Str) : esc2 (x ++ y) = esc2 x ++ esc2 y := by
  simp [esc2]

theorem escC_head_not_ws {v : Str} (H : wsNormal v = true) :
    ∀ c, (escC v).head? = some c → pyIsSpace c = false := by
  match v, H with
  | [], H => intro c hc; simp [escC] at hc
  | a :: r, H =>
    intro c hc
    have hgoal : escC (a :: r) = (if a = '^' then PRESERVECIRC else [a]) ++ escC r := by
      simp [escC]
    rw [hgoal] at hc
    by_cases ha : a = '^'
    · rw [if_pos ha] at hc
      rw [show PRESERVECIRC = '[' :: strL "PRESERVECIRC]" from by decide] at hc
      simp only [List.cons_append, List.head?_cons] at hc
      injection hc with h1
      subst h1
      decide
    · rw [if_neg ha] at hc
      simp only [List.singleton_append, List.head?_cons] at hc
      injection hc with h1
      subst h1
      exact (wsNormal_facts H).2.1 a rfl

theorem escC_getLast_not_ws {v : Str} (H : wsNormal v = true) :
    ∀ c, (escC v).getLast? = some c → pyIsSpace c = false := by
  intro c hc
  rcases List.eq_nil_or_concat v with hnil | ⟨ys, d, hys⟩
  · subst hnil
    simp [escC] at hc
  · rw [List.concat_eq_append] at hys
    subst hys
    rw [escC_append] at hc
    rw [List.getLast?_append] at hc
    have hlast := (wsNormal_facts H).2.2 d (List.getLast?_concat _)
    by_cases hd : d = '^'
    · subst hd
      have hP : escC ['^'] = strL "[PRESERVECIRC" ++ [']'] := by decide
      rw [hP, List.getLast?_concat] at hc
      simp at hc
      subst hc
      decide
    · have hone : escC [d] = [d] := by
        unfold escC
        simp [hd]
      rw [hone] at hc
      simp at hc
      subst hc
      exact hlast

/-- On an already-normalized value, `format_value`'s string pipeline only
protects circumflexes. -/
theorem fmtStr_eq_escC {v : Str} (H : wsNormal v = true) : fmtStr v = escC v := by
  unfold fmtStr
  rw [wsNormal_eq H, escC_spec]

/-! ## Toolkit: the stable sort -/

theorem uint32_toNat_inj {x y : Char} (h : x.val.toNat = y.val.toNat) : x = y := by
  apply Char.ext
  exact UInt32.ext h

theorem lexLe_total : ∀ a b : Str, lexLe a b = true ∨ lexLe b a = true := by
  intro a
  induction a with
  | nil => intro b; left; rfl
  | cons x xs ih =>
    intro b
    match b with
    | [] => right; rfl
    | y :: ys =>
      by_cases hxy : x = y
      · subst hxy
        rcases ih ys with h | h
        · left; simpa [lexLe] using h
        · right; simpa [lexLe] using h
      · have hval : x.val.toNat ≠ y.val.toNat := fun hcon => hxy (uint32_toNat_inj hcon)
        have hyx : ¬(y = x) := fun hcon => hxy hcon.symm
        rcases Nat.lt_or_ge x.val.toNat y.val.toNat with h | h
        · left
          simp [lexLe, hxy, h]
        · right
          simp only [lexLe, if_neg hyx, decide_eq_true_eq]
          omega

theorem lexLe_antisymm : ∀ {a b : Str},
    lexLe a b = true → lexLe b a = true → a = b := by
  intro a
  induction a with
  | nil =>
    intro b _ hba
    match b with
    | [] => rfl
    | y :: ys => simp [lexLe] at hba
  | cons x xs ih =>
    intro b hab hba
    match b with
    | [] => simp [lexLe] at hab
    | y :: ys =>
      by_cases hxy : x = y
      · subst hxy
        simp only [lexLe, if_pos rfl] at hab hba
        rw [ih hab hba]
      · have hyx : ¬(y = x) := fun hcon => hxy hcon.symm
        simp only [lexLe, if_neg hxy, decide_eq_true_eq] at hab
        simp only [lexLe, if_neg hyx, decide_eq_true_eq] at hba
        omega

theorem lexLe_trans :
    ∀ a b c : Str, lexLe a b = true → lexLe b c = true → lexLe a c = true := by
  intro a
  induction a with
  | nil => intro b c _ _; rfl
  | cons x xs ih =>
    intro b c hab hbc
    match b, c with
    | [], _ => simp [lexLe] at hab
    | y :: ys, [] => simp [lexLe] at hbc
    | y :: ys, z :: zs =>
      by_cases hxy : x = y <;> by_cases hyz : y = z
      · subst hxy
        subst hyz
        simp only [lexLe, if_pos rfl] at hab hbc ⊢
        exact ih ys zs hab hbc
      · subst hxy
        simp only [lexLe, if_pos rfl] at hab
        simp only [lexLe, if_neg hyz] at hbc ⊢
        exact hbc
      · subst hyz
        simp only [lexLe, if_neg hxy] at hab ⊢
        exact hab
      · simp only [lexLe, if_neg hxy, decide_eq_true_eq] at hab
        simp only [lexLe, if_neg hyz, decide_eq_true_eq] at hbc
        have hxz : ¬(x = z) := by
          intro hcon
          subst hcon
          omega
        simp only [lexLe, if_neg hxz, decide_eq_true_eq]
        omega

theorem ordInsert_perm (le : Str → Str → Bool) (a : Str) :
    ∀ l : List Str, (ordInsert le a l).Perm (a :: l) := by
  intro l
  induction l with
  | nil => exact List.Perm.refl _
  | cons b bs ih =>
    unfold ordInsert
    split
    · exact List.Perm.refl _
    · exact (List.Perm.cons b ih).trans (List.Perm.swap a b bs)

theorem insSort_perm (le : Str → Str → Bool) (l : List Str) :
    (insSort le l).Perm l := by
  induction l with
  | nil => exact List.Perm.refl _
  | cons a as ih =>
    unfold insSort at ih ⊢
    simp only [List.foldr_cons]
    exact (ordInsert_perm le a _).trans (List.Perm.cons a ih)

theorem ordInsert_sorted {a : Str} {l : List Str}
    (h : l.Pairwise (fun x y => lexLe x y = true)) :
    (ordInsert lexLe a l).Pairwise (fun x y => lexLe x y = true) := by
  induction l with
  | nil => simp [ordInsert]
  | cons b bs ih =>
    rcases List.pairwise_cons.mp h with ⟨hb, htl⟩
    unfold ordInsert
    split
    · rename_i hab
      refine List.Pairwise.cons ?_ h
      intro z hz
      simp only [List.mem_cons] at hz
      rcases hz with hz | hz
      · subst hz
        exact hab
      · exact lexLe_trans a b z hab (hb z hz)
    · rename_i hab
      refine List.Pairwise.cons ?_ (ih htl)
      intro z hz
      have hz' := (ordInsert_perm lexLe a bs).mem_iff.mp hz
      simp only [List.mem_cons] at hz'
      rcases hz' with hz' | hz'
      · rcases lexLe_total a b with h2 | h2
        · exact absurd h2 (by simpa using hab)
        · rw [hz']
          exact h2
      · exact hb z hz'

theorem insSort_sorted (l : List Str) :
    (insSort lexLe l).Pairwise (fun x y => lexLe x y = true) := by
  induction l with
  | nil => simp [insSort]
  | cons a as ih =>
    unfold insSort at ih ⊢
    simp only [List.foldr_cons]
    exact ordInsert_sorted ih

/-- Python's `sorted` is insertion-order independent: permuted inputs sort
to the same list. -/
theorem insSort_eq_of_perm {l l' : List Str} (h : l.Perm l') :
    insSort lexLe l = insSort lexLe l' := by
  refine List.Perm.eq_of_sorted ?_ (insSort_sorted l) (insSort_sorted l') ?_
  · intro a b _ _ hab hba
    exact lexLe_antisymm hab hba
  · exact ((insSort_perm lexLe l).trans h).trans (insSort_perm lexLe l').symm

theorem ordInsertN_perm (a : Nat) :
    ∀ l : List Nat, (ordInsertN a l).Perm (a :: l) := by
  intro l
  induction l with
  | nil => exact List.Perm.refl _
  | cons b bs ih =>
    unfold ordInsertN
    split
    · exact List.Perm.refl _
    · exact (List.Perm.cons b ih).trans (List.Perm.swap a b bs)

theorem insSortN_perm (l : List Nat) : (insSortN l).Perm l := by
  induction l with
  | nil => exact List.Perm.refl _
  | cons a as ih =>
    unfold insSortN at ih ⊢
    simp only [List.foldr_cons]
    exact (ordInsertN_perm a _).trans (List.Perm.cons a ih)

/-! ## Safe records and the rendered shape of the serializer output -/

/-- A key that the serializer accepts as a subfield code: one character
from `a`-`z` / `1`-`9` (for single-character keys, Python's substring test
`subf in CODES` is exactly this membership test). -/
def validCode (k : Str) : Bool :=
  match k with
  | [c] => CODES.contains c
  | _ => false

/-- A safe occurrence: a safe plain string, or a dict of safe string values
with unique keys, at least one genuine subfield (a key other than `_`), and
every key either `_` (main value, which follows the `!` separator) or a
valid one-character code. -/
def occSafe : Py → Prop
  | .s v => mainSafe v = true
  | .d kvs =>
    (kvs.map (fun kv => kv.1)).Nodup ∧
    (∃ kv ∈ kvs, kv.1 ≠ strL "_") ∧
    (∀ kv ∈ kvs,
      (kv.1 = strL "_" ∧ ∃ v, kv.2 = Py.s v ∧ mainSafe v = true) ∨
      (validCode kv.1 = true ∧ kv.1 ≠ strL "_" ∧
        ∃ v, kv.2 = Py.s v ∧ valSafe v = true))
  | .l _ => False

/-- A safe field value: a safe occurrence or a non-empty list of them. -/
def fieldSafe : Py → Prop
  | .l os => os ≠ [] ∧ ∀ o ∈ os, occSafe o
  | o => occSafe o

/-- A safe record: a dict with unique keys, each the canonical decimal
string of a tag in `1..999`, each value a safe field. -/
def recSafe (r : Py) : Prop :=
  ∃ kvs, r = Py.d kvs ∧
    (kvs.map (fun kv => kv.1)).Nodup ∧
    ∀ kv ∈ kvs, (∃ t : Nat, 1 ≤ t ∧ t ≤ 999 ∧ kv.1 = natToStr t) ∧
      fieldSafe kv.2

/-- A safe input to `write`: at most 999999 safe records. -/
def inputSafe (records : List Py) : Prop :=
  records.length ≤ 999999 ∧ ∀ r ∈ records, recSafe r

/-- The occurrences of a field value, as `_tag_data` enumerates them. -/
def fieldOccs : Py → List Py
  | .l os => os
  | o => [o]

/-- The rendered subfield token of one dict entry (`""` for the `_` entry,
`^` + code + escaped value otherwise). -/
def subfTok (kv : Str × Py) : Str :=
  match kv.2 with
  | .s v => if validCode kv.1 = true ∧ v ≠ [] then '^' :: (kv.1 ++ escC v) else []
  | _ => []

/-- The main (`_`) part of a subfield dict, escaped. -/
def mainOf (kvs : List (Str × Py)) : Str :=
  match pyLookup (strL "_") kvs with
  | some (.s v) => escC v
  | _ => []

/-- The rendered content of one occurrence, in placeholder form. -/
def occContent : Py → Str
  | .s v => escC v
  | .d kvs => mainOf kvs ++ joinL (insSort lexLe (kvs.map subfTok))
  | .l _ => []

/-- One `!v` line (placeholder form). -/
def occLineFor (k : Str) (o : Py) : Str :=
  strL "!v" ++ zfill 3 k ++ '!' :: (occContent o ++ ['\n'])

/-- All `!v` lines of one record entry (placeholder form). -/
def entryLines (kv : Str × Py) : Str :=
  joinL ((fieldOccs kv.2).map (occLineFor kv.1))

theorem isSubstrOf_underscore : isSubstrOf (strL "_") CODES = false := by decide

theorem validCode_isSubstr {k : Str} (h : validCode k = true) :
    isSubstrOf k CODES = true := by
  match k with
  | [c] =>
    simp only [validCode] at h
    have hmem : c ∈ CODES := List.mem_of_elem_eq_true h
    have hgen : ∀ l : Str, c ∈ l → occursIn c [] l = true := by
      intro l
      induction l with
      | nil => intro hc; simp at hc
      | cons d ds ih =>
        intro hc
        simp only [List.mem_cons] at hc
        unfold occursIn
        rcases hc with hc | hc
        · subst hc
          simp [isPrefixL, dropPrefixQ]
        · rw [ih hc]
          simp
    unfold isSubstrOf
    exact hgen CODES hmem
  | [] => simp [validCode] at h
  | a :: b :: r => simp [validCode] at h

theorem mapM_ok_of {α β : Type} {f : α → Except SerErr β} {g : α → β} :
    ∀ {l : List α}, (∀ x ∈ l, f x = .ok (g x)) → l.mapM f = .ok (l.map g) := by
  intro l
  induction l with
  | nil => intro _; rfl
  | cons a as ih =>
    intro h
    rw [List.mapM_cons, h a (by simp), ih (fun x hx => h x (by simp [hx]))]
    rfl

theorem joinL_nil : joinL [] = [] := rfl

theorem joinL_cons (x : Str) (xs : List Str) : joinL (x :: xs) = x ++ joinL xs := rfl

theorem joinL_eq_nil_iff {l : List Str} : joinL l = [] ↔ ∀ x ∈ l, x = [] := by
  induction l with
  | nil => simp [joinL]
  | cons a as ih =>
    rw [joinL_cons]
    simp [ih]

theorem joinL_append (xs ys : List Str) :
    joinL (xs ++ ys) = joinL xs ++ joinL ys := by
  induction xs with
  | nil => simp [joinL]
  | cons a as ih =>
    simp only [List.cons_append, joinL_cons, ih, List.append_assoc]

/-! ## Serializer shape lemmas -/

theorem fmtStr_nil : fmtStr [] = [] := by
  unfold fmtStr remove_break_lines_characters
  rw [show splitWs [] = [] from rfl]
  rw [show joinSepL [' '] [] = [] from rfl]
  rw [show stripWs [] = [] from rfl]
  exact replaceL_nil _ _ _

theorem pyLookup_mem {k : Str} {kvs : List (Str × Py)} {x : Py}
    (h : pyLookup k kvs = some x) : (k, x) ∈ kvs := by
  induction kvs with
  | nil => cases h
  | cons kv rest ih =>
    match kv, h with
    | (k', v), h =>
      rw [pyLookup] at h
      split at h
      · rename_i heq
        injection h with h1
        subst heq
        subst h1
        simp
      · simp [ih h]

theorem pyLookup_of_mem_nodup {kvs : List (Str × Py)} {k : Str} {v : Py}
    (hmem : (k, v) ∈ kvs) (hnd : (kvs.map (fun kv => kv.1)).Nodup) :
    pyLookup k kvs = some v := by
  induction kvs with
  | nil => simp at hmem
  | cons kv rest ih =>
    simp only [List.map_cons, List.nodup_cons] at hnd
    simp only [List.mem_cons] at hmem
    rcases hmem with hmem | hmem
    · subst hmem
      simp [pyLookup]
    · rw [pyLookup]
      split
      · rename_i heq
        exfalso
        apply hnd.1
        rw [heq]
        exact List.mem_map_of_mem (fun kv => kv.1) hmem
      · exact ih hmem hnd.2

theorem validCode_underscore : validCode (strL "_") = false := by decide

theorem truthy_s_of_ne {v : Str} (h : v ≠ []) : truthy (.s v) = true := by
  simp [truthy, h]

theorem format_subfield_spec {kv : Str × Py}
    (h : (kv.1 = strL "_" ∧ ∃ v, kv.2 = Py.s v ∧ mainSafe v = true) ∨
      (validCode kv.1 = true ∧ kv.1 ≠ strL "_" ∧
        ∃ v, kv.2 = Py.s v ∧ valSafe v = true)) :
    format_subfield kv.1 kv.2 = .ok (subfTok kv) := by
  obtain ⟨k1, k2⟩ := kv
  simp only at h
  rcases h with ⟨hk, v, hv, hsafe⟩ | ⟨hcode, hne, v, hv, hsafe⟩
  · subst hv
    subst hk
    unfold format_subfield
    rw [show isSubstrOf (strL "_") CODES = false from by decide]
    simp only [Bool.and_false, Bool.false_eq_true, if_false]
    unfold subfTok
    simp only [validCode_underscore]
    simp
  · subst hv
    have hvne : v ≠ [] := by
      unfold valSafe at hsafe
      simp only [Bool.and_eq_true] at hsafe
      simpa using hsafe.1.1.1
    have hws : wsNormal v = true := by
      unfold valSafe at hsafe
      simp only [Bool.and_eq_true] at hsafe
      exact hsafe.1.1.2
    unfold format_subfield
    rw [validCode_isSubstr hcode, truthy_s_of_ne hvne]
    simp only [Bool.and_self, if_true]
    rw [show format_value (.s v) = .ok (fmtStr v) from rfl, fmtStr_eq_escC hws]
    unfold subfTok
    simp only
    rw [if_pos ⟨hcode, hvne⟩]
    rfl

theorem format_subfields_safe {kvs : List (Str × Py)} (h : occSafe (.d kvs)) :
    format_subfields kvs = .ok (occContent (.d kvs)) := by
  obtain ⟨hnd, hne, hall⟩ := h
  have hvals : kvs.mapM (fun kv => format_subfield kv.1 kv.2)
      = .ok (kvs.map subfTok) :=
    mapM_ok_of (fun kv hkv => format_subfield_spec (hall kv hkv))
  unfold format_subfields
  cases hlk : pyLookup (strL "_") kvs with
  | none =>
    simp only [hlk]
    rw [show format_value (.s []) = .ok (fmtStr []) from rfl, fmtStr_nil, hvals]
    simp [occContent, mainOf, hlk]
  | some x =>
    have hx := pyLookup_mem hlk
    rcases hall _ hx with ⟨_, v, hv, hsafe⟩ | ⟨_, hne2, v, hv, hsafe⟩
    · simp only at hv
      subst hv
      have hvne : v ≠ [] := by
        unfold mainSafe valSafe at hsafe
        simp only [Bool.and_eq_true] at hsafe
        simpa using hsafe.1.1.1.1
      have hws : wsNormal v = true := by
        unfold mainSafe valSafe at hsafe
        simp only [Bool.and_eq_true] at hsafe
        exact hsafe.1.1.1.2
      simp only [hlk]
      rw [truthy_s_of_ne hvne]
      simp only [if_true]
      rw [show format_value (.s v) = .ok (fmtStr v) from rfl, fmtStr_eq_escC hws,
        hvals]
      simp [occContent, mainOf, hlk]
    · exact absurd rfl hne2

theorem valSafe_ne_nil {v : Str} (h : valSafe v = true) : v ≠ [] := by
  unfold valSafe at h
  simp only [Bool.and_eq_true] at h
  simpa using h.1.1.1

theorem valSafe_ws {v : Str} (h : valSafe v = true) : wsNormal v = true := by
  unfold valSafe at h
  simp only [Bool.and_eq_true] at h
  exact h.1.1.2

theorem mainSafe_val {v : Str} (h : mainSafe v = true) : valSafe v = true := by
  unfold mainSafe at h
  simp only [Bool.and_eq_true] at h
  exact h.1

theorem occContent_ne_nil {o : Py} (h : occSafe o) : occContent o ≠ [] := by
  match o, h with
  | .s v, h =>
    exact escC_ne_nil (valSafe_ne_nil (mainSafe_val h))
  | .d kvs, h =>
    obtain ⟨hnd, ⟨kv, hkv, hkvne⟩, hall⟩ := h
    have htok : subfTok kv ≠ [] := by
      obtain ⟨k1, k2⟩ := kv
      rcases hall _ hkv with ⟨hk, _⟩ | ⟨hcode, _, v, hv, hsafe⟩
      · exact absurd hk hkvne
      · simp only at hv hcode
        subst hv
        show (if validCode k1 = true ∧ v ≠ [] then '^' :: (k1 ++ escC v) else []) ≠ []
        rw [if_pos ⟨hcode, valSafe_ne_nil hsafe⟩]
        simp
    have hmem : subfTok kv ∈ insSort lexLe (kvs.map subfTok) :=
      (insSort_perm lexLe _).mem_iff.mpr (List.mem_map_of_mem subfTok hkv)
    intro hcon
    unfold occContent at hcon
    rcases List.append_eq_nil.mp hcon with ⟨_, hjoin⟩
    exact htok (joinL_eq_nil_iff.mp hjoin _ hmem)

theorem tag_content_ok {t : Nat} {value : Str} (h1 : 1 ≤ t) (h2 : t ≤ 999)
    (hv : value ≠ []) :
    tag_content (natToStr t) value =
      .ok (strL "!v" ++ zfill 3 (natToStr t) ++ ['!'] ++ value ++ ['\n']) := by
  unfold tag_content
  rw [parseNatDigits_natToStr]
  split
  · rename_i heq
    cases heq
  · rename_i t' heq
    injection heq with h3
    subst h3
    rw [if_pos ⟨h1, h2⟩, if_neg hv]

theorem format_subfield_underscore (v : Py) :
    format_subfield (strL "_") v = .ok [] := by
  unfold format_subfield
  rw [isSubstrOf_underscore]
  simp

theorem format_subfields_single {v : Str} (hv : v ≠ [])
    (hws : wsNormal v = true) :
    format_subfields [(strL "_", .s v)] = .ok (escC v) := by
  unfold format_subfields
  rw [show pyLookup (strL "_") [(strL "_", Py.s v)] = some (.s v) from by
    simp [pyLookup]]
  simp only
  rw [truthy_s_of_ne hv]
  simp only [if_true]
  rw [show format_value (.s v) = .ok (fmtStr v) from rfl, fmtStr_eq_escC hws]
  have hmapm : [(strL "_", Py.s v)].mapM (fun kv => format_subfield kv.1 kv.2)
      = .ok [([] : Str)] := by
    rw [List.mapM_cons]
    rw [show format_subfield (strL "_", Py.s v).1 (strL "_", Py.s v).2
        = format_subfield (strL "_") (Py.s v) from rfl]
    rw [format_subfield_underscore]
    rfl
  rw [hmapm]
  simp [insSort, ordInsert, joinL]

theorem occSafe_truthy {o : Py} (h : occSafe o) : truthy o = true := by
  match o, h with
  | .s v, h => exact truthy_s_of_ne (valSafe_ne_nil (mainSafe_val h))
  | .d kvs, h =>
    obtain ⟨_, ⟨kv, hkv, _⟩, _⟩ := h
    unfold truthy
    match kvs, hkv with
    | k :: r, _ => simp

/-- `_tag_occ` on a safe occurrence produces exactly one rendered line. -/
theorem tag_occ_safe {t : Nat} {o : Py} (h1 : 1 ≤ t) (h2 : t ≤ 999)
    (h : occSafe o) :
    tag_occ (natToStr t) o = .ok (occLineFor (natToStr t) o) := by
  match o, h with
  | .s v, h =>
    have hvs := mainSafe_val h
    unfold tag_occ
    rw [if_pos (occSafe_truthy (o := .s v) h)]
    simp only
    rw [format_subfields_single (valSafe_ne_nil hvs) (valSafe_ws hvs)]
    simp only
    rw [tag_content_ok h1 h2 (escC_ne_nil (valSafe_ne_nil hvs))]
    unfold occLineFor occContent
    simp
  | .d kvs, h =>
    unfold tag_occ
    rw [if_pos (occSafe_truthy (o := .d kvs) h)]
    simp only
    rw [format_subfields_safe h]
    simp only
    rw [tag_content_ok h1 h2 (occContent_ne_nil h)]
    unfold occLineFor
    simp

/-- `_tag_data` on a safe field renders one line per occurrence. -/
theorem tag_data_safe {t : Nat} {f : Py} (h1 : 1 ≤ t) (h2 : t ≤ 999)
    (h : fieldSafe f) :
    tag_data (natToStr t) f =
      .ok ((fieldOccs f).map (occLineFor (natToStr t))) := by
  match f, h with
  | .s v, h =>
    unfold tag_data
    rw [if_pos (occSafe_truthy (o := .s v) h)]
    show [Py.s v].mapM (tag_occ (natToStr t)) = _
    rw [List.mapM_cons, tag_occ_safe h1 h2 (show occSafe (Py.s v) from h)]
    rfl
  | .d kvs, h =>
    unfold tag_data
    rw [if_pos (occSafe_truthy (o := .d kvs) h)]
    show [Py.d kvs].mapM (tag_occ (natToStr t)) = _
    rw [List.mapM_cons, tag_occ_safe h1 h2 (show occSafe (Py.d kvs) from h)]
    rfl
  | .l os, h =>
    obtain ⟨hne, hall⟩ := h
    unfold tag_data
    rw [if_pos (show truthy (.l os) = true from by
      unfold truthy
      simpa using hne)]
    show os.mapM (tag_occ (natToStr t)) = _
    exact mapM_ok_of (fun o ho => tag_occ_safe h1 h2 (hall o ho))

theorem joinL_flatten (ll : List (List Str)) :
    joinL ll.flatten = joinL (ll.map joinL) := by
  induction ll with
  | nil => rfl
  | cons l ls ih =>
    simp only [List.flatten_cons, List.map_cons, joinL_cons, joinL_append, ih]

/-- `_format_record` on a safe record renders the entries in ascending
numeric tag order: some permutation of the record's entries, each rendered
by `entryLines`. -/
theorem format_record_safe {kvs : List (Str × Py)} (h : recSafe (.d kvs)) :
    ∃ entries : List (Str × Py),
      entries.Perm kvs ∧
      (∀ kv ∈ entries, (∃ t, 1 ≤ t ∧ t ≤ 999 ∧ kv.1 = natToStr t) ∧
        fieldSafe kv.2) ∧
      format_record (.d kvs) = .ok (joinL (entries.map entryLines)) := by
  obtain ⟨kvs', heq, hnd, hall⟩ := h
  injection heq with heq'
  subst heq'
  by_cases hkn : kvs = []
  · subst hkn
    refine ⟨[], List.Perm.refl _, by simp, ?_⟩
    simp [format_record, truthy, joinL]
  · have htr : truthy (.d kvs) = true := by
      unfold truthy
      simpa using hkn
    have hmap1 : kvs.mapM (fun kv =>
        match parseNatDigits kv.1 with
        | some n => Except.ok n
        | none => Except.error SerErr.valueErr)
        = .ok (kvs.map (fun kv => digitsToNat kv.1)) := by
      refine mapM_ok_of ?_
      intro kv hkv
      obtain ⟨⟨t, ht1, ht2, htkv⟩, _⟩ := hall kv hkv
      rw [htkv, parseNatDigits_natToStr]
      simp only
      rw [digitsToNat_natToStr]
    have hfk : ∀ kv ∈ kvs,
        ((natToStr (digitsToNat kv.1),
          (pyLookup (natToStr (digitsToNat kv.1)) kvs).getD (Py.s []))
          : Str × Py) = kv := by
      intro kv hkv
      obtain ⟨⟨t, ht1, ht2, htkv⟩, _⟩ := hall kv hkv
      rw [htkv, digitsToNat_natToStr, ← htkv]
      rw [pyLookup_of_mem_nodup (show (kv.1, kv.2) ∈ kvs from by simpa using hkv)
        hnd]
      simp
  -- the sorted tag list and the entry list it induces
    refine ⟨(insSortN (kvs.map (fun kv => digitsToNat kv.1))).map
      (fun t => (natToStr t, (pyLookup (natToStr t) kvs).getD (Py.s []))),
      ?_, ?_, ?_⟩
    · have h1 := (insSortN_perm (kvs.map (fun kv => digitsToNat kv.1))).map
        (fun t => ((natToStr t,
          (pyLookup (natToStr t) kvs).getD (Py.s [])) : Str × Py))
      have h3 : (kvs.map (fun kv => digitsToNat kv.1)).map
          (fun t => ((natToStr t,
            (pyLookup (natToStr t) kvs).getD (Py.s [])) : Str × Py)) = kvs := by
        rw [List.map_map]
        have := List.map_congr_left (l := kvs)
          (f := (fun t => ((natToStr t,
            (pyLookup (natToStr t) kvs).getD (Py.s [])) : Str × Py)) ∘
            (fun kv => digitsToNat kv.1))
          (g := id) (fun kv hkv => hfk kv hkv)
        rw [this, List.map_id]
      rw [h3] at h1
      exact h1
    · intro kv hkv
      simp only [List.mem_map] at hkv
      obtain ⟨t, ht, hkveq⟩ := hkv
      have htmem : t ∈ kvs.map (fun kv => digitsToNat kv.1) :=
        (insSortN_perm _).mem_iff.mp ht
      simp only [List.mem_map] at htmem
      obtain ⟨kv0, hkv0, htq⟩ := htmem
      have := hfk kv0 hkv0
      rw [← htq] at hkveq
      rw [this] at hkveq
      subst hkveq
      exact hall kv0 hkv0
    · unfold format_record
      rw [if_pos htr]
      simp only
      rw [hmap1]
      simp only
      have hmap2 : (insSortN (kvs.map (fun kv => digitsToNat kv.1))).mapM
          (fun t =>
            match pyLookup (natToStr t) kvs with
            | some v => tag_data (natToStr t) v
            | none => Except.error SerErr.keyErr)
          = .ok ((insSortN (kvs.map (fun kv => digitsToNat kv.1))).map
            (fun t => (fieldOccs
              ((pyLookup (natToStr t) kvs).getD (Py.s []))).map
              (occLineFor (natToStr t)))) := by
        refine mapM_ok_of ?_
        intro t ht
        have htmem : t ∈ kvs.map (fun kv => digitsToNat kv.1) :=
          (insSortN_perm _).mem_iff.mp ht
        simp only [List.mem_map] at htmem
        obtain ⟨kv0, hkv0, htq⟩ := htmem
        obtain ⟨⟨t', ht'1, ht'2, ht'kv⟩, hfs⟩ := hall kv0 hkv0
        have htt : t = t' := by
          rw [← htq, ht'kv, digitsToNat_natToStr]
        subst htt
        have hkey : natToStr t = kv0.1 := ht'kv.symm
        have hlk : pyLookup (natToStr t) kvs = some kv0.2 := by
          rw [hkey]
          exact pyLookup_of_mem_nodup (show (kv0.1, kv0.2) ∈ kvs from by
            simpa using hkv0) hnd
        rw [hlk]
        simp only [Option.getD_some]
        exact tag_data_safe ht'1 ht'2 hfs
      rw [hmap2]
      simp only
      rw [joinL_flatten, List.map_map, List.map_map]
      refine congrArg (fun l => Except.ok (joinL l)) ?_
      refine List.map_congr_left ?_
      intro t _
      rfl

/-! ## File-level serializer shape -/

/-- `canonField` collapses a one-element occurrence list to its single
occurrence — the scalar-collapse behaviour of the parser. -/
def canonField : Py → Py
  | .l [o] => o
  | x => x

/-- The canonical form of a record under the parser's scalar collapse. -/
def canonRec : Py → Py
  | .d kvs => .d (kvs.map (fun kv => (kv.1, canonField kv.2)))
  | x => x

/-- The shape of `_format_file`'s per-record strings for safe input:
each record contributes its `!ID` line followed by its entry lines (in
ascending tag order, a permutation of the record's entries). -/
inductive FileSpec : Nat → List Py → List Str → Prop
  | nil (i : Nat) : FileSpec i [] []
  | cons (i : Nat) (r : Py) (rs : List Py) (s : Str) (rest : List Str)
      (entries : List (Str × Py)) (kvs : List (Str × Py)) :
      r = Py.d kvs →
      recSafe r →
      entries.Perm kvs →
      (∀ kv ∈ entries, (∃ t, 1 ≤ t ∧ t ≤ 999 ∧ kv.1 = natToStr t) ∧
        fieldSafe kv.2) →
      s = strL "!ID " ++ zfill 6 (natToStr i) ++ '\n' ::
        joinL (entries.map entryLines) →
      FileSpec (i + 1) rs rest →
      FileSpec i (r :: rs) (s :: rest)

theorem format_id_ok {i : Nat} (h1 : 1 ≤ i) (h2 : i ≤ 999999) :
    format_id i = .ok (strL "!ID " ++ zfill 6 (natToStr i) ++ ['\n']) := by
  unfold format_id
  rw [if_pos ⟨h1, by omega⟩]

theorem formatFileAux_safe :
    ∀ (records : List Py) (i : Nat), (∀ r ∈ records, recSafe r) →
      1 ≤ i → i + records.length ≤ 1000000 →
      ∃ strs : List Str, formatFileAux i records = .ok strs ∧
        FileSpec i records strs := by
  intro records
  induction records with
  | nil =>
    intro i _ _ _
    exact ⟨[], rfl, FileSpec.nil i⟩
  | cons r rs ih =>
    intro i hsafe h1 h2
    have hrec := hsafe r (by simp)
    obtain ⟨kvs, hkvs, _, _⟩ := hrec
    obtain ⟨entries, hperm, hprops, hfmt⟩ :=
      format_record_safe (hkvs ▸ hsafe r (by simp))
    obtain ⟨rest, hrest, hspec⟩ := ih (i + 1)
      (fun r' hr' => hsafe r' (by simp [hr'])) (by omega)
      (by simp at h2 ⊢; omega)
    refine ⟨(strL "!ID " ++ zfill 6 (natToStr i) ++ '\n' ::
      joinL (entries.map entryLines)) :: rest, ?_, ?_⟩
    · unfold formatFileAux
      rw [format_id_ok h1 (by simp at h2; omega)]
      rw [hkvs, hfmt, hrest]
      simp
    · exact FileSpec.cons i r rs _ rest entries kvs hkvs (hsafe r (by simp))
        hperm hprops (by simp) hspec

theorem format_file_safe {records : List Py} (h : inputSafe records) :
    ∃ strs : List Str, format_file records = .ok (joinL strs) ∧
      FileSpec 1 records strs := by
  obtain ⟨hlen, hsafe⟩ := h
  obtain ⟨strs, haux, hspec⟩ := formatFileAux_safe records 1 hsafe
    (by omega) (by omega)
  refine ⟨strs, ?_, hspec⟩
  unfold format_file
  rw [haux]
  rfl

/-! ## Atoms: pushing the placeholder replacement and the encoding detour
through the assembled stream -/

/-- A stream piece: a structural literal (ASCII, no `&`/`\`/`[`) or an
escaped value. -/
inductive Atom where
  | lit (s : Str)
  | val (v : Str)

/-- Placeholder-form text of an atom (as assembled by `_format_file`). -/
def atomP : Atom → Str
  | .lit s => s
  | .val v => escC v

/-- On-file text of an atom (after the placeholder became `\^`). -/
def atomW : Atom → Str
  | .lit s => s
  | .val v => esc2 v

def atomsP (l : List Atom) : Str := joinL (l.map atomP)

def atomsW (l : List Atom) : Str := joinL (l.map atomW)

def atomOk : Atom → Prop
  | .lit s => ∀ c ∈ s, c.val.toNat ≤ 127 ∧ c ≠ '&' ∧ c ≠ '\\' ∧ c ≠ '['
  | .val v => ∀ c ∈ v, c ≠ '&' ∧ c ≠ '\\' ∧ c ≠ '[' ∧
      (255 < c.val.toNat → invalidCodepoint c.val.toNat = false)

theorem atomsP_nil : atomsP [] = [] := rfl

theorem atomsP_cons (a : Atom) (l : List Atom) :
    atomsP (a :: l) = atomP a ++ atomsP l := rfl

theorem atomsP_append (l1 l2 : List Atom) :
    atomsP (l1 ++ l2) = atomsP l1 ++ atomsP l2 := by
  unfold atomsP
  rw [List.map_append, joinL_append]

theorem atomsW_append (l1 l2 : List Atom) :
    atomsW (l1 ++ l2) = atomsW l1 ++ atomsW l2 := by
  unfold atomsW
  rw [List.map_append, joinL_append]

theorem unP_atoms {l : List Atom} (h : ∀ a ∈ l, atomOk a) :
    ∀ t : Str, unP (atomsP l ++ t) = atomsW l ++ unP t := by
  induction l with
  | nil => intro t; simp [atomsP, atomsW, joinL]
  | cons a as ih =>
    intro t
    have ha := h a (by simp)
    have ih' := ih (fun x hx => h x (by simp [hx])) t
    rw [atomsP_cons, List.append_assoc]
    match a, ha with
    | .lit s, ha =>
      rw [show atomP (.lit s) = s from rfl]
      rw [unP_append_notin (fun c hc => (ha c hc).2.2.2)]
      rw [ih']
      rw [show atomsW (Atom.lit s :: as) = s ++ atomsW as from rfl]
      rw [List.append_assoc]
    | .val v, ha =>
      rw [show atomP (.val v) = escC v from rfl]
      rw [unP_escC (fun c hc => (ha c hc).2.2.1)]
      rw [ih']
      rw [show atomsW (Atom.val v :: as) = esc2 v ++ atomsW as from rfl]
      rw [List.append_assoc]

theorem rd_atoms {l : List Atom} (h : ∀ a ∈ l, atomOk a) :
    ∀ t : Str, rd (atomsW l ++ t) = atomsP l ++ rd t := by
  induction l with
  | nil => intro t; simp [atomsP, atomsW, joinL]
  | cons a as ih =>
    intro t
    have ha := h a (by simp)
    have ih' := ih (fun x hx => h x (by simp [hx])) t
    rw [show atomsW (a :: as) = atomW a ++ atomsW as from rfl, List.append_assoc]
    match a, ha with
    | .lit s, ha =>
      rw [show atomW (.lit s) = s from rfl]
      rw [rd_append_notin (fun c hc => (ha c hc).2.2.1)]
      rw [ih']
      rw [show atomsP (Atom.lit s :: as) = s ++ atomsP as from rfl]
      rw [List.append_assoc]
    | .val v, ha =>
      rw [show atomW (.val v) = esc2 v from rfl]
      rw [rd_esc2 (fun c hc => (ha c hc).2.1)]
      rw [ih']
      rw [show atomsP (Atom.val v :: as) = escC v ++ atomsP as from rfl]
      rw [List.append_assoc]

theorem mem_joinL {parts : List Str} {c : Char} (h : c ∈ joinL parts) :
    ∃ p ∈ parts, c ∈ p := by
  induction parts with
  | nil => simp [joinL] at h
  | cons p ps ih =>
    rw [joinL_cons] at h
    rw [List.mem_append] at h
    rcases h with h | h
    · exact ⟨p, by simp, h⟩
    · obtain ⟨q, hq, hcq⟩ := ih h
      exact ⟨q, by simp [hq], hcq⟩

theorem atomsW_chars {l : List Atom} (h : ∀ a ∈ l, atomOk a) :
    ∀ c ∈ atomsW l, c ≠ '&' ∧
      (255 < c.val.toNat → invalidCodepoint c.val.toNat = false) := by
  intro c hc
  obtain ⟨p, hp, hcp⟩ := mem_joinL hc
  rw [List.mem_map] at hp
  obtain ⟨a, ha, hpa⟩ := hp
  subst hpa
  match a, h a ha with
  | .lit s, ha' =>
    have := ha' c hcp
    exact ⟨this.2.1, fun hbig => absurd this.1 (by omega)⟩
  | .val v, ha' =>
    rcases mem_esc2 hcp with hv | hv | hv
    · have := ha' c hv
      exact ⟨this.1, this.2.2.2⟩
    · subst hv
      refine ⟨by decide, fun hbig => absurd hbig (by decide)⟩
    · subst hv
      refine ⟨by decide, fun hbig => absurd hbig (by decide)⟩

/-- Combined: on an atom stream, the write-side placeholder replacement,
the iso-8859-1 detour and the read-side unescape and placeholder
restoration cancel, returning the placeholder-form stream. -/
theorem wire_roundtrip {l : List Atom} (h : ∀ a ∈ l, atomOk a) :
    rd (htmlUnescape (isoDetour (unP (atomsP l)))) = atomsP l := by
  have h1 : unP (atomsP l) = atomsW l := by
    have := unP_atoms h []
    simpa [unP_nil] using this
  rw [h1]
  rw [htmlUnescape_isoDetour (fun c hc =>
    ⟨(atomsW_chars h c hc).1, (atomsW_chars h c hc).2⟩)]
  have := rd_atoms h []
  simpa [rd_nil] using this

theorem atomsP_single (a : Atom) : atomsP [a] = atomP a := by
  simp [atomsP, joinL]

theorem mem_CODES_ok :
    ∀ c ∈ CODES, c.val.toNat ≤ 127 ∧ c ≠ '&' ∧ c ≠ '\\' ∧ c ≠ '[' := by decide


/-! ## Decomposing the serializer output into an atom stream -/

theorem isDigitC_toNat {c : Char} (h : isDigitC c = true) :
    48 ≤ c.val.toNat ∧ c.val.toNat ≤ 57 := by
  simp only [isDigitC, decide_eq_true_eq] at h
  exact ⟨h.1, h.2⟩

/-- Any all-Prop form of `atomOk` on a literal. -/
theorem atomOk_lit_of_forall {s : Str}
    (h : ∀ c ∈ s, c.val.toNat ≤ 127 ∧ c ≠ '&' ∧ c ≠ '\\' ∧ c ≠ '[') :
    atomOk (.lit s) := h

theorem digits_atomOk {s : Str} (h : s.all isDigitC = true) :
    atomOk (.lit s) := by
  intro c hc
  obtain ⟨h1, h2⟩ := isDigitC_toNat (List.all_eq_true.mp h c hc)
  refine ⟨by omega, ?_, ?_, ?_⟩ <;> rintro rfl <;> revert h1 h2 <;> decide

theorem atomOk_lit_append {s1 s2 : Str} (h1 : atomOk (.lit s1))
    (h2 : atomOk (.lit s2)) : atomOk (.lit (s1 ++ s2)) := by
  intro c hc
  rcases List.mem_append.mp hc with h | h
  · exact h1 c h
  · exact h2 c h

theorem atomOk_val_of_all_charOk {v : Str} (h : v.all charOkC = true) :
    atomOk (.val v) := by
  intro c hc
  have hco := List.all_eq_true.mp h c hc
  simp only [charOkC, Bool.and_eq_true, Bool.or_eq_true, decide_eq_true_eq,
    Bool.not_eq_true'] at hco
  obtain ⟨⟨⟨ha, hb⟩, hc'⟩, hd⟩ := hco
  refine ⟨ha, hb, hc', ?_⟩
  intro hgt
  rcases hd with hd | hd
  · omega
  · exact hd

theorem valSafe_charOk {v : Str} (h : valSafe v = true) :
    v.all charOkC = true := by
  unfold valSafe at h
  simp only [Bool.and_eq_true] at h
  exact h.1.2

theorem zfill_all_digits {w : Nat} {s : Str} (h : s.all isDigitC = true) :
    (zfill w s).all isDigitC = true := by
  unfold zfill
  rw [List.all_append, h, Bool.and_true]
  rw [List.all_eq_true]
  intro c hc
  rw [List.eq_of_mem_replicate hc]
  decide

/-- Lifting atom decompositions of the parts to their concatenation. -/
theorem partsP_atoms {parts : List Str}
    (h : ∀ p ∈ parts, ∃ atoms, p = atomsP atoms ∧ ∀ a ∈ atoms, atomOk a) :
    ∃ atoms, joinL parts = atomsP atoms ∧ ∀ a ∈ atoms, atomOk a := by
  induction parts with
  | nil => exact ⟨[], rfl, by simp⟩
  | cons p ps ih =>
    obtain ⟨a1, hp, hok1⟩ := h p (by simp)
    obtain ⟨a2, hps, hok2⟩ := ih (fun q hq => h q (by simp [hq]))
    refine ⟨a1 ++ a2, ?_, ?_⟩
    · rw [joinL_cons, hp, hps, atomsP_append]
    · intro a ha
      rcases List.mem_append.mp ha with h' | h'
      · exact hok1 a h'
      · exact hok2 a h'

theorem validCode_exists {k : Str} (h : validCode k = true) :
    ∃ c, k = [c] ∧ c ∈ CODES := by
  match k with
  | [c] =>
    refine ⟨c, rfl, ?_⟩
    simp only [validCode] at h
    exact List.mem_of_elem_eq_true h
  | [] => simp [validCode] at h
  | a :: b :: r => simp [validCode] at h

theorem occContent_atoms {o : Py} (h : occSafe o) :
    ∃ atoms, occContent o = atomsP atoms ∧ ∀ a ∈ atoms, atomOk a := by
  match o, h with
  | .s v, h =>
    refine ⟨[.val v], ?_, ?_⟩
    · show escC v = atomsP [Atom.val v]
      rw [atomsP_single]
      simp only [atomP]
    · intro a ha
      simp only [List.mem_singleton] at ha
      subst ha
      exact atomOk_val_of_all_charOk (valSafe_charOk (mainSafe_val h))
  | .d kvs, h =>
    obtain ⟨hnd, hex, hall⟩ := h
    have hm0 : ∃ am, mainOf kvs = atomsP am ∧ ∀ a ∈ am, atomOk a := by
      cases hlk : pyLookup (strL "_") kvs with
      | none =>
        refine ⟨[], ?_, by simp⟩
        unfold mainOf
        rw [hlk]
        rfl
      | some x =>
        have hmem := pyLookup_mem hlk
        rcases hall _ hmem with ⟨_, v, hv, hms⟩ | ⟨_, hne, _⟩
        · simp only at hv
          subst hv
          refine ⟨[.val v], ?_, ?_⟩
          · unfold mainOf
            rw [hlk]
            simp only
            rw [atomsP_single]
            simp only [atomP]
          · intro a ha
            simp only [List.mem_singleton] at ha
            subst ha
            exact atomOk_val_of_all_charOk (valSafe_charOk (mainSafe_val hms))
        · exact absurd rfl hne
    obtain ⟨am, hm, hmok⟩ := hm0
    have htoks : ∀ p ∈ insSort lexLe (kvs.map subfTok),
        ∃ atoms, p = atomsP atoms ∧ ∀ a ∈ atoms, atomOk a := by
      intro p hp
      have hp' : p ∈ kvs.map subfTok :=
        ((insSort_perm lexLe _).mem_iff).mp hp
      obtain ⟨kv, hkv, hpeq⟩ := List.mem_map.mp hp'
      subst hpeq
      rcases hall kv hkv with ⟨hund, v, hv, hms⟩ | ⟨hvc, hne, v, hv, hvs⟩
      · refine ⟨[], ?_, by simp⟩
        unfold subfTok
        rw [hv]
        simp only
        rw [if_neg]
        · rfl
        · rintro ⟨hvc, -⟩
          rw [hund] at hvc
          exact absurd hvc (by decide)
      · refine ⟨[.lit ('^' :: kv.1), .val v], ?_, ?_⟩
        · unfold subfTok
          rw [hv]
          simp only
          rw [if_pos ⟨hvc, valSafe_ne_nil hvs⟩]
          rw [atomsP_cons, atomsP_single]
          simp only [atomP]
          rfl
        · intro a ha
          obtain ⟨c, hkc, hcm⟩ := validCode_exists hvc
          rcases List.mem_cons.mp ha with rfl | ha
          · refine atomOk_lit_of_forall ?_
            intro d hd
            rcases List.mem_cons.mp hd with rfl | hd
            · exact ⟨by decide, by decide, by decide, by decide⟩
            · rw [hkc] at hd
              simp only [List.mem_singleton] at hd
              subst hd
              exact mem_CODES_ok d hcm
          · simp only [List.mem_singleton] at ha
            subst ha
            exact atomOk_val_of_all_charOk (valSafe_charOk hvs)
    obtain ⟨ats, hats, hatsok⟩ := partsP_atoms htoks
    refine ⟨am ++ ats, ?_, ?_⟩
    · show mainOf kvs ++ joinL (insSort lexLe (kvs.map subfTok)) = _
      rw [hm, hats, atomsP_append]
    · intro a ha
      rcases List.mem_append.mp ha with h' | h'
      · exact hmok a h'
      · exact hatsok a h'

theorem fieldOccs_safe {f : Py} (h : fieldSafe f) :
    ∀ o ∈ fieldOccs f, occSafe o := by
  match f, h with
  | .l os, h => exact h.2
  | .s v, h =>
    intro o ho
    rw [show fieldOccs (Py.s v) = [Py.s v] from rfl] at ho
    simp only [List.mem_singleton] at ho
    subst ho
    exact h
  | .d kvs, h =>
    intro o ho
    rw [show fieldOccs (Py.d kvs) = [Py.d kvs] from rfl] at ho
    simp only [List.mem_singleton] at ho
    subst ho
    exact h

theorem occLineFor_atoms {k : Str} {o : Py}
    (hk : ∃ t, 1 ≤ t ∧ t ≤ 999 ∧ k = natToStr t) (ho : occSafe o) :
    ∃ atoms, occLineFor k o = atomsP atoms ∧ ∀ a ∈ atoms, atomOk a := by
  obtain ⟨t, _, _, hkt⟩ := hk
  obtain ⟨cats, hc, hcok⟩ := occContent_atoms ho
  refine ⟨.lit (strL "!v" ++ zfill 3 k ++ ['!']) :: (cats ++ [.lit ['\n']]),
    ?_, ?_⟩
  · rw [atomsP_cons, atomsP_append, atomsP_single, ← hc]
    show strL "!v" ++ (zfill 3 k ++ '!' :: (occContent o ++ ['\n'])) = _
    simp only [atomP]
    simp [List.append_assoc]
  · intro a ha
    rcases List.mem_cons.mp ha with rfl | ha
    · refine atomOk_lit_append (atomOk_lit_append ?_ ?_) ?_
      · exact atomOk_lit_of_forall (by decide)
      · subst hkt
        exact digits_atomOk (zfill_all_digits (natToStr_all_digits t))
      · exact atomOk_lit_of_forall (by decide)
    · rcases List.mem_append.mp ha with h' | h'
      · exact hcok a h'
      · simp only [List.mem_singleton] at h'
        subst h'
        exact atomOk_lit_of_forall (by decide)

theorem entryLines_atoms {kv : Str × Py}
    (hk : ∃ t, 1 ≤ t ∧ t ≤ 999 ∧ kv.1 = natToStr t) (hf : fieldSafe kv.2) :
    ∃ atoms, entryLines kv = atomsP atoms ∧ ∀ a ∈ atoms, atomOk a := by
  unfold entryLines
  apply partsP_atoms
  intro p hp
  obtain ⟨o, ho, hpeq⟩ := List.mem_map.mp hp
  subst hpeq
  exact occLineFor_atoms hk (fieldOccs_safe hf o ho)

/-- The per-record strings of a `FileSpec` stream concatenate to an atom
stream whose atoms are all well-behaved. -/
theorem fileSpec_atoms {i : Nat} {records : List Py} {strs : List Str}
    (h : FileSpec i records strs) :
    ∃ atoms, joinL strs = atomsP atoms ∧ ∀ a ∈ atoms, atomOk a := by
  induction h with
  | nil i => exact ⟨[], rfl, by simp⟩
  | cons i r rs s rest entries kvs hkvs hsafe hperm hprops hs hrest ih =>
    obtain ⟨ea, hea, heaok⟩ := @partsP_atoms
      (entries.map entryLines) (fun p hp => by
        obtain ⟨kv, hkv, hpeq⟩ := List.mem_map.mp hp
        subst hpeq
        exact entryLines_atoms (hprops kv hkv).1 (hprops kv hkv).2)
    obtain ⟨ra, hra, hraok⟩ := ih
    refine ⟨.lit (strL "!ID " ++ zfill 6 (natToStr i) ++ ['\n']) ::
      (ea ++ ra), ?_, ?_⟩
    · rw [joinL_cons, hs, atomsP_cons, atomsP_append, ← hea, ← hra]
      simp only [atomP]
      simp [List.append_assoc]
    · intro a ha
      rcases List.mem_cons.mp ha with rfl | ha
      · refine atomOk_lit_append (atomOk_lit_append ?_ ?_) ?_
        · exact atomOk_lit_of_forall (by decide)
        · exact digits_atomOk (zfill_all_digits (natToStr_all_digits i))
        · exact atomOk_lit_of_forall (by decide)
      · rcases List.mem_append.mp ha with h' | h'
        · exact heaok a h'
        · exact hraok a h'

/-! ## The wire bridge: write output vs. the placeholder-form stream -/

theorem atomsP_no_amp {l : List Atom} (h : ∀ a ∈ l, atomOk a) :
    ∀ c ∈ atomsP l, c ≠ '&' := by
  intro c hc
  unfold atomsP at hc
  obtain ⟨p, hp, hcp⟩ := mem_joinL hc
  obtain ⟨a, ha, hpa⟩ := List.mem_map.mp hp
  subst hpa
  have hok := h a ha
  cases a with
  | lit s =>
    simp only [atomP] at hcp
    exact (hok c hcp).2.1
  | val v =>
    simp only [atomP] at hcp
    rcases mem_escC hcp with h' | h'
    · exact (hok c h').1
    · exact (mem_PRESERVECIRC_facts c h').2.2.1

/-- For safe input `write_content` succeeds, and the parser's preprocessing
(unescape, then `\^` → placeholder) applied to the written file recovers
exactly the assembled placeholder-form stream. -/
theorem write_wire {records : List Py} (h : inputSafe records) :
    ∃ strs, FileSpec 1 records strs ∧
      ∃ wire, write_content records = .ok wire ∧
        rd (htmlUnescape wire) = joinL strs := by
  obtain ⟨strs, hff, hspec⟩ := format_file_safe h
  obtain ⟨atoms, hat, hatok⟩ := fileSpec_atoms hspec
  refine ⟨strs, hspec, isoDetour (unP (joinL strs)), ?_, ?_⟩
  · unfold write_content
    rw [hff]
    simp only
    rw [htmlUnescape_no_amp (by rw [hat]; exact atomsP_no_amp hatok)]
    rfl
  · rw [hat]
    exact wire_roundtrip hatok

/-! ## Read side, step 1: the per-segment placeholder restore -/

/-- The parser's per-subfield placeholder restore:
`subf.replace(PRESERVECIRC, "^")`. -/
def unesc (s : Str) : Str := replaceL '[' (strL "PRESERVECIRC]") ['^'] s

theorem unesc_placeholder (r : Str) :
    unesc (PRESERVECIRC ++ r) = '^' :: unesc r := by
  rw [PRESERVECIRC_eq]
  exact replaceL_match_self _ _ _ _

theorem unesc_cons_ne {c : Char} (h : c ≠ '[') (r : Str) :
    unesc (c :: r) = c :: unesc r := replaceL_cons_ne h

theorem unesc_append_notin {x : Str} (h : ∀ c ∈ x, c ≠ '[') (t : Str) :
    unesc (x ++ t) = x ++ unesc t := replaceL_append_notin h t

theorem unesc_nil : unesc [] = [] := replaceL_nil _ _ _

/-- Restoring the placeholder inverts the write-side escape on values
without a literal `[`. -/
theorem unesc_escC {v : Str} (h : ∀ c ∈ v, c ≠ '[') (t : Str) :
    unesc (escC v ++ t) = v ++ unesc t := by
  induction v with
  | nil => simp [escC]
  | cons c v' ih =>
    have ih' := ih (fun d hd => h d (by simp [hd]))
    by_cases hc : c = '^'
    · subst hc
      have hesc : escC ('^' :: v') = PRESERVECIRC ++ escC v' := by simp [escC]
      rw [hesc, List.append_assoc, unesc_placeholder, ih']
      rfl
    · have hesc : escC (c :: v') = c :: escC v' := by simp [escC, hc]
      rw [hesc, List.cons_append, unesc_cons_ne (h c (by simp)), ih',
        List.cons_append]

theorem unesc_escC_self {v : Str} (h : ∀ c ∈ v, c ≠ '[') :
    unesc (escC v) = v := by
  have := unesc_escC h []
  simpa [unesc_nil] using this

/-! ## Character facts for the safe stream pieces -/

theorem mem_CODES_extra :
    ∀ c ∈ CODES, c ≠ '!' ∧ c ≠ '^' ∧ c ≠ '\n' ∧ c ≠ '[' ∧ c ≠ '\\' ∧
      pyIsSpace c = false := by decide

theorem valSafe_no_bracket {v : Str} (h : valSafe v = true) :
    ∀ c ∈ v, c ≠ '[' := by
  intro c hc
  have hco := List.all_eq_true.mp (valSafe_charOk h) c hc
  simp only [charOkC, Bool.and_eq_true, decide_eq_true_eq] at hco
  exact hco.1.2

theorem escC_no_nl {v : Str} (hw : wsNormal v = true) :
    ∀ c ∈ escC v, c ≠ '\n' := by
  intro c hc
  rcases mem_escC hc with h' | h'
  · intro hcn
    subst hcn
    have := wsNormal_no_ws hw h' (by decide)
    exact absurd this (by decide)
  · exact (mem_PRESERVECIRC_facts c h').2.1

theorem valSafe_escC_no_nl {v : Str} (h : valSafe v = true) :
    ∀ c ∈ escC v, c ≠ '\n' :=
  escC_no_nl (valSafe_ws h)

theorem subfTok_shape (kv : Str × Py) :
    subfTok kv = [] ∨ ∃ b, subfTok kv = '^' :: b := by
  unfold subfTok
  match kv.2 with
  | .s v =>
    simp only
    split
    · exact Or.inr ⟨_, rfl⟩
    · exact Or.inl rfl
  | .l vs => exact Or.inl rfl
  | .d kvs => exact Or.inl rfl

/-- The rendered token of a genuine (non-`_`) safe entry. -/
theorem subfTok_valid {kv : Str × Py} {v : Str} (hvc : validCode kv.1 = true)
    (hv : kv.2 = Py.s v) (hvs : valSafe v = true) :
    subfTok kv = '^' :: (kv.1 ++ escC v) := by
  unfold subfTok
  rw [hv]
  simp only
  rw [if_pos ⟨hvc, valSafe_ne_nil hvs⟩]

/-- The rendered token of the `_` entry is empty. -/
theorem subfTok_underscore {kv : Str × Py} (hk : kv.1 = strL "_") :
    subfTok kv = [] := by
  unfold subfTok
  match hv : kv.2 with
  | .s v =>
    simp only
    rw [if_neg]
    rintro ⟨hvc, -⟩
    rw [hk] at hvc
    exact absurd hvc (by decide)
  | .l vs => simp only
  | .d kvs => simp only

/-! ## Structure of a safe occurrence's rendered content -/

theorem occContent_d (kvs : List (Str × Py)) :
    occContent (.d kvs) =
      mainOf kvs ++ joinL (insSort lexLe (kvs.map subfTok)) := rfl

theorem tok_mem_cases {kvs : List (Str × Py)} (h : occSafe (Py.d kvs))
    {tok : Str} (htok : tok ∈ insSort lexLe (kvs.map subfTok)) :
    tok = [] ∨ ∃ kv ∈ kvs, ∃ v, validCode kv.1 = true ∧ kv.2 = Py.s v ∧
      valSafe v = true ∧ tok = '^' :: (kv.1 ++ escC v) := by
  have htok' : tok ∈ kvs.map subfTok := ((insSort_perm lexLe _).mem_iff).mp htok
  obtain ⟨kv, hkv, hpeq⟩ := List.mem_map.mp htok'
  subst hpeq
  rcases h.2.2 kv hkv with ⟨hk, v, hv, hms⟩ | ⟨hvc, hne, v, hv, hvs⟩
  · exact Or.inl (subfTok_underscore hk)
  · exact Or.inr ⟨kv, hkv, v, hvc, hv, hvs, subfTok_valid hvc hv hvs⟩

theorem toks_shape {kvs : List (Str × Py)} :
    ∀ tok ∈ insSort lexLe (kvs.map subfTok), tok = [] ∨ ∃ b, tok = '^' :: b := by
  intro tok htok
  obtain ⟨kv, hkv, hpeq⟩ :=
    List.mem_map.mp (((insSort_perm lexLe _).mem_iff).mp htok)
  subst hpeq
  exact subfTok_shape kv

theorem joinL_tok_shape {toks : List Str}
    (h : ∀ tok ∈ toks, tok = [] ∨ ∃ b, tok = '^' :: b) :
    joinL toks = [] ∨ ∃ r, joinL toks = '^' :: r := by
  induction toks with
  | nil => exact Or.inl rfl
  | cons t ts ih =>
    rw [joinL_cons]
    rcases h t (by simp) with ht | ⟨b, hb⟩
    · rw [ht, List.nil_append]
      exact ih (fun tok htok => h tok (by simp [htok]))
    · rw [hb]
      exact Or.inr ⟨_, rfl⟩

theorem mainOf_cases {kvs : List (Str × Py)} (h : occSafe (Py.d kvs)) :
    mainOf kvs = [] ∨ ∃ v, mainSafe v = true ∧ mainOf kvs = escC v ∧
      (strL "_", Py.s v) ∈ kvs := by
  cases hlk : pyLookup (strL "_") kvs with
  | none =>
    left
    unfold mainOf
    rw [hlk]
  | some x =>
    have hmem := pyLookup_mem hlk
    rcases h.2.2 _ hmem with ⟨_, v, hv, hms⟩ | ⟨_, hne, _⟩
    · simp only at hv
      subst hv
      right
      exact ⟨v, hms, by unfold mainOf; rw [hlk], hmem⟩
    · exact absurd rfl hne

theorem occContent_no_nl {o : Py} (h : occSafe o) :
    ∀ c ∈ occContent o, c ≠ '\n' := by
  match o, h with
  | .s v, h => exact fun c hc => valSafe_escC_no_nl (mainSafe_val h) c hc
  | .d kvs, h =>
    intro c hc
    rw [occContent_d] at hc
    rcases List.mem_append.mp hc with hm | ht
    · rcases mainOf_cases h with he | ⟨v, hms, heq, -⟩
      · rw [he] at hm
        simp at hm
      · rw [heq] at hm
        exact valSafe_escC_no_nl (mainSafe_val hms) c hm
    · obtain ⟨tok, htok, hctok⟩ := mem_joinL ht
      rcases tok_mem_cases h htok with rfl | ⟨kv, hkv, v, hvc, hv, hvs, htokeq⟩
      · simp at hctok
      · rw [htokeq] at hctok
        rcases List.mem_cons.mp hctok with rfl | hctok'
        · decide
        · rcases List.mem_append.mp hctok' with hk | hesc
          · obtain ⟨cc, hkc, hcm⟩ := validCode_exists hvc
            rw [hkc] at hk
            simp only [List.mem_singleton] at hk
            subst hk
            exact (mem_CODES_extra c hcm).2.2.1
          · exact valSafe_escC_no_nl hvs c hesc

theorem joinL_getLast_not_ws {toks : List Str}
    (h : ∀ tok ∈ toks, ∀ c, tok.getLast? = some c → pyIsSpace c = false) :
    ∀ c, (joinL toks).getLast? = some c → pyIsSpace c = false := by
  induction toks with
  | nil =>
    intro c hc
    simp [joinL] at hc
  | cons t ts ih =>
    intro c hc
    rw [joinL_cons, List.getLast?_append] at hc
    cases hj : (joinL ts).getLast? with
    | some d =>
      rw [hj] at hc
      simp only [Option.or] at hc
      injection hc with h1
      subst h1
      exact ih (fun tok htok => h tok (by simp [htok])) d hj
    | none =>
      rw [hj, Option.none_or] at hc
      exact h t (by simp) c hc

theorem occContent_head_not_ws {o : Py} (h : occSafe o) :
    ∀ c, (occContent o).head? = some c → pyIsSpace c = false := by
  match o, h with
  | .s v, h => exact escC_head_not_ws (valSafe_ws (mainSafe_val h))
  | .d kvs, h =>
    intro c hc
    rw [occContent_d] at hc
    rcases mainOf_cases h with he | ⟨v, hms, heq, -⟩
    · rw [he, List.nil_append] at hc
      rcases joinL_tok_shape (@toks_shape kvs) with hj | ⟨r, hj⟩
      · rw [hj] at hc
        cases hc
      · rw [hj] at hc
        simp only [List.head?_cons] at hc
        injection hc with h1
        subst h1
        decide
    · rw [heq] at hc
      have hne := escC_ne_nil (valSafe_ne_nil (mainSafe_val hms))
      obtain ⟨d, dd, hdd⟩ := List.exists_cons_of_ne_nil hne
      rw [hdd, List.cons_append, List.head?_cons] at hc
      injection hc with h1
      refine escC_head_not_ws (valSafe_ws (mainSafe_val hms)) c ?_
      rw [hdd, List.head?_cons, h1]

theorem occContent_last_not_ws {o : Py} (h : occSafe o) :
    ∀ c, (occContent o).getLast? = some c → pyIsSpace c = false := by
  match o, h with
  | .s v, h => exact escC_getLast_not_ws (valSafe_ws (mainSafe_val h))
  | .d kvs, h =>
    have htoklast : ∀ tok ∈ insSort lexLe (kvs.map subfTok),
        ∀ c, tok.getLast? = some c → pyIsSpace c = false := by
      intro tok htok c hc
      rcases tok_mem_cases h htok with rfl | ⟨kv, hkv, v, hvc, hv, hvs, htokeq⟩
      · cases hc
      · rw [htokeq] at hc
        have hne := escC_ne_nil (valSafe_ne_nil hvs)
        have hrw : ('^' :: (kv.1 ++ escC v)) = ('^' :: kv.1) ++ escC v := rfl
        rw [hrw, List.getLast?_append] at hc
        cases hj : (escC v).getLast? with
        | some d =>
          rw [hj] at hc
          simp only [Option.or] at hc
          injection hc with h1
          subst h1
          exact escC_getLast_not_ws (valSafe_ws hvs) d hj
        | none =>
          exact absurd (List.getLast?_eq_none_iff.mp hj) hne
    intro c hc
    rw [occContent_d, List.getLast?_append] at hc
    cases hj : (joinL (insSort lexLe (kvs.map subfTok))).getLast? with
    | some d =>
      rw [hj] at hc
      simp only [Option.or] at hc
      injection hc with h1
      subst h1
      exact joinL_getLast_not_ws htoklast d hj
    | none =>
      rw [hj, Option.none_or] at hc
      rcases mainOf_cases h with he | ⟨v, hms, heq, -⟩
      · rw [he] at hc
        cases hc
      · rw [heq] at hc
        exact escC_getLast_not_ws (valSafe_ws (mainSafe_val hms)) c hc

theorem occContent_stripWs {o : Py} (h : occSafe o) :
    stripWs (occContent o) = occContent o :=
  stripWs_eq_self (occContent_head_not_ws h) (occContent_last_not_ws h)

theorem occContent_stripWs_nl {o : Py} (h : occSafe o) :
    stripWs (occContent o ++ ['\n']) = occContent o :=
  stripWs_append_newline (occContent_head_not_ws h) (occContent_last_not_ws h)
    (occContent_ne_nil h)

/-! ## Read side, step 2: parsing one occurrence's content -/

/-- The body of a rendered subfield token (text after the `^`). -/
def tokBody : Str → Option Str
  | '^' :: b => some b
  | _ => none

/-- `_get_field_data`'s per-subfield pair construction on a non-empty
segment. -/
def pairFn : Str → (Str × Py)
  | [] => (([] : Str), Py.s [])
  | k :: v => (([k] : Str), Py.s v)

/-- What the parser recovers from one rendered occurrence. -/
def parsedOcc (o : Py) : Py := (get_field_data (occContent o)).getD (Py.s [])

theorem mapM_some_of {α β : Type} {f : α → Option β} {g : α → β} :
    ∀ {l : List α}, (∀ x ∈ l, f x = some (g x)) → l.mapM f = some (l.map g) := by
  intro l
  induction l with
  | nil => intro _; rfl
  | cons a as ih =>
    intro h
    rw [List.mapM_cons, h a (by simp), ih (fun x hx => h x (by simp [hx]))]
    rfl

/-- Splitting a circumflex-free prefix followed by rendered tokens at `^`. -/
theorem splitOnL_circ :
    ∀ {toks : List Str} {m : Str}, (∀ c ∈ m, c ≠ '^') →
      (∀ tok ∈ toks, tok = [] ∨ ∃ b, tok = '^' :: b ∧ ∀ c ∈ b, c ≠ '^') →
      splitOnL '^' [] (m ++ joinL toks) = m :: toks.filterMap tokBody := by
  intro toks
  induction toks with
  | nil =>
    intro m hm _
    rw [joinL_nil, List.append_nil, List.filterMap_nil]
    exact splitOnL_eq_single (cleanBefore_of_head_notin hm [])
  | cons t ts ih =>
    intro m hm hsh
    rcases hsh t (by simp) with rfl | ⟨b, rfl, hb⟩
    · rw [joinL_cons, List.nil_append, List.filterMap_cons]
      rw [show tokBody [] = none from rfl]
      exact ih hm (fun tok htok => hsh tok (by simp [htok]))
    · rw [joinL_cons, List.cons_append]
      rw [@splitOnL_append_general '^' [] m ('^' :: (b ++ joinL ts))
        (b ++ joinL ts) rfl (cleanBefore_of_head_notin hm _)]
      rw [ih hb (fun tok htok => hsh tok (by simp [htok]))]
      rw [List.filterMap_cons]
      rw [show tokBody ('^' :: b) = some b from rfl]

/-- `mainOf` with the matching `dict.get` result. -/
theorem mainOf_cases' {kvs : List (Str × Py)} (h : occSafe (Py.d kvs)) :
    (pyLookup (strL "_") kvs = none ∧ mainOf kvs = []) ∨
    ∃ v, mainSafe v = true ∧ mainOf kvs = escC v ∧
      pyLookup (strL "_") kvs = some (Py.s v) := by
  cases hlk : pyLookup (strL "_") kvs with
  | none =>
    left
    refine ⟨rfl, ?_⟩
    unfold mainOf
    rw [hlk]
  | some x =>
    have hmem := pyLookup_mem hlk
    rcases h.2.2 _ hmem with ⟨_, v, hv, hms⟩ | ⟨_, hne, _⟩
    · simp only at hv
      subst hv
      right
      exact ⟨v, hms, by unfold mainOf; rw [hlk], rfl⟩
    · exact absurd rfl hne

/-- Restoring placeholders and rebuilding pairs on the write-order token
list recovers exactly the non-`_` entries. -/
theorem pairs_of_unsorted {kvs : List (Str × Py)}
    (hall : ∀ kv ∈ kvs,
      (kv.1 = strL "_" ∧ ∃ v, kv.2 = Py.s v ∧ mainSafe v = true) ∨
      (validCode kv.1 = true ∧ kv.1 ≠ strL "_" ∧
        ∃ v, kv.2 = Py.s v ∧ valSafe v = true)) :
    ((kvs.map subfTok).filterMap tokBody).map (fun b => pairFn (unesc b))
      = kvs.filter (fun kv => !(kv.1 == strL "_")) := by
  induction kvs with
  | nil => rfl
  | cons kv rest ih =>
    rw [List.map_cons, List.filterMap_cons, List.filter_cons]
    rcases hall kv (by simp) with ⟨hk, v, hv, hms⟩ | ⟨hvc, hne, v, hv, hvs⟩
    · rw [subfTok_underscore hk]
      rw [show tokBody [] = none from rfl]
      rw [if_neg (by rw [hk]; simp)]
      exact ih (fun kv' hkv' => hall kv' (by simp [hkv']))
    · rw [subfTok_valid hvc hv hvs]
      rw [show tokBody ('^' :: (kv.1 ++ escC v)) = some (kv.1 ++ escC v)
        from rfl]
      rw [List.map_cons]
      obtain ⟨c, hkc, hcm⟩ := validCode_exists hvc
      have hu : unesc (kv.1 ++ escC v) = kv.1 ++ v := by
        rw [hkc]
        rw [show (([c] : Str) ++ escC v) = c :: escC v from rfl]
        rw [unesc_cons_ne (mem_CODES_ok c hcm).2.2.2]
        rw [unesc_escC_self (valSafe_no_bracket hvs)]
        rfl
      rw [hu]
      rw [if_pos (by rw [beq_eq_false_iff_ne.mpr hne]; rfl)]
      have hpf : pairFn (kv.1 ++ v) = kv := by
        rw [hkc]
        rw [show (([c] : Str) ++ v) = c :: v from rfl]
        rw [show pairFn (c :: v) = (([c] : Str), Py.s v) from rfl]
        rw [← hkc, ← hv]
      rw [hpf]
      rw [ih (fun kv' hkv' => hall kv' (by simp [hkv']))]

/-- `pyDictUpdate`-folding fresh keys appends them in order. -/
theorem foldl_pyDictUpdate_append :
    ∀ {pairs : List (Str × Py)} {init : List (Str × Py)},
      (pairs.map (fun kv => kv.1)).Nodup →
      (∀ pr ∈ pairs, ∀ e ∈ init, e.1 ≠ pr.1) →
      pairs.foldl (fun d kv => pyDictUpdate d kv.1 kv.2) init = init ++ pairs := by
  intro pairs
  induction pairs with
  | nil =>
    intro init _ _
    simp
  | cons p ps ih =>
    intro init hnd hdisj
    rw [List.foldl_cons]
    have hupd : pyDictUpdate init p.1 p.2 = init ++ [p] := by
      unfold pyDictUpdate
      have hnone : ¬(init.any fun e => e.1 == p.1) = true := by
        intro hany
        rw [List.any_eq_true] at hany
        obtain ⟨e, he, heq⟩ := hany
        exact absurd (eq_of_beq heq) (hdisj p (by simp) e he)
      rw [if_neg hnone]
    rw [hupd]
    rw [List.map_cons, List.nodup_cons] at hnd
    rw [ih hnd.2 ?_]
    · rw [List.append_assoc]
      rfl
    · intro pr hpr e he
      rcases List.mem_append.mp he with he' | he'
      · exact hdisj pr (by simp [hpr]) e he'
      · simp only [List.mem_singleton] at he'
        subst he'
        intro hpe
        exact hnd.1 (hpe ▸ List.mem_map_of_mem (fun kv => kv.1) hpr)

/-- With unique keys, the `_`-filtered sublist is empty or the singleton
found by lookup. -/
theorem filter_underscore {kvs : List (Str × Py)}
    (hnd : (kvs.map (fun kv => kv.1)).Nodup) :
    kvs.filter (fun kv => kv.1 == strL "_")
      = match pyLookup (strL "_") kvs with
        | some x => [(strL "_", x)]
        | none => [] := by
  induction kvs with
  | nil => rfl
  | cons kv rest ih =>
    rw [List.map_cons, List.nodup_cons] at hnd
    rw [List.filter_cons]
    obtain ⟨k1, k2⟩ := kv
    by_cases hk : k1 = strL "_"
    · subst hk
      rw [if_pos (by simp)]
      rw [show pyLookup (strL "_") ((strL "_", k2) :: rest)
        = some k2 from rfl]
      have hrest : rest.filter (fun kv => kv.1 == strL "_") = [] := by
        rw [List.filter_eq_nil_iff]
        intro e he hbe
        exact hnd.1 ((eq_of_beq hbe) ▸ List.mem_map_of_mem (fun kv => kv.1) he)
      simp only
      rw [hrest]
    · rw [if_neg (by simpa using hk)]
      rw [show pyLookup (strL "_") ((k1, k2) :: rest)
        = pyLookup (strL "_") rest from by
          simp only [pyLookup]
          rw [if_neg hk]]
      exact ih hnd.2

/-! ## Python `==` helpers -/

theorem pyDictSub_of_forall {as bs : List (Str × Py)}
    (h : ∀ kv ∈ as, ∃ w, pyLookup kv.1 bs = some w ∧ pyEq kv.2 w = true) :
    pyDictSub as bs = true := by
  induction as with
  | nil => rfl
  | cons a rest ih =>
    obtain ⟨w, hw, he⟩ := h a (by simp)
    obtain ⟨k, v⟩ := a
    have hw' : pyLookup k bs = some w := hw
    have he' : pyEq v w = true := he
    rw [pyDictSub, hw']
    simp only [he', Bool.true_and]
    exact ih (fun kv hkv => h kv (by simp [hkv]))

theorem pyEq_d_intro {as bs : List (Str × Py)} (hlen : as.length = bs.length)
    (hsub : pyDictSub as bs = true) : pyEq (.d as) (.d bs) = true := by
  rw [pyEq, hlen, hsub]
  simp

theorem pyEq_s_refl (v : Str) : pyEq (.s v) (.s v) = true := by
  rw [pyEq]
  exact beq_self_eq_true v

theorem length_filter_key (kvs : List (Str × Py)) :
    (kvs.filter (fun kv => kv.1 == strL "_")).length +
      (kvs.filter (fun kv => !(kv.1 == strL "_"))).length = kvs.length := by
  induction kvs with
  | nil => rfl
  | cons kv rest ih =>
    rw [List.filter_cons, List.filter_cons]
    by_cases hk : (kv.1 == strL "_") = true
    · rw [if_pos hk, if_neg (by rw [hk]; simp)]
      simp only [List.length_cons]
      omega
    · rw [if_neg hk, if_pos (by rw [Bool.not_eq_true] at hk; rw [hk]; rfl)]
      simp only [List.length_cons]
      omega

/-! ## Parsing one safe occurrence -/

theorem occ_parse_d {kvs : List (Str × Py)} (h : occSafe (Py.d kvs)) :
    ∃ pd, get_field_data (occContent (Py.d kvs)) = some (Py.d pd) ∧
      pyEq (Py.d pd) (Py.d kvs) = true := by
  have hnd := h.1
  have hall := h.2.2
  have hshape : ∀ tok ∈ insSort lexLe (kvs.map subfTok),
      tok = [] ∨ ∃ b, tok = '^' :: b ∧ ∀ c ∈ b, c ≠ '^' := by
    intro tok htok
    rcases tok_mem_cases h htok with rfl | ⟨kv, hkv, v, hvc, hv, hvs, htokeq⟩
    · exact Or.inl rfl
    · right
      refine ⟨kv.1 ++ escC v, htokeq, ?_⟩
      intro c hc
      rcases List.mem_append.mp hc with hk | he
      · obtain ⟨cc, hkc, hcm⟩ := validCode_exists hvc
        rw [hkc] at hk
        simp only [List.mem_singleton] at hk
        subst hk
        exact (mem_CODES_extra c hcm).2.1
      · exact escC_no_circ c he
  have hm : ∀ c ∈ mainOf kvs, c ≠ '^' := by
    intro c hc
    rcases mainOf_cases h with he | ⟨v, _, heq, -⟩
    · rw [he] at hc
      simp at hc
    · rw [heq] at hc
      exact escC_no_circ c hc
  have hsplit := splitOnL_circ hm hshape
  obtain ⟨kv0, hkv0, hne0⟩ := h.2.1
  obtain ⟨hvc0, v0, hv0, hvs0⟩ :
      validCode kv0.1 = true ∧ ∃ v, kv0.2 = Py.s v ∧ valSafe v = true := by
    rcases hall kv0 hkv0 with ⟨hk, -⟩ | ⟨hvc, -, v, hv, hvs⟩
    · exact absurd hk hne0
    · exact ⟨hvc, v, hv, hvs⟩
  have hbody0 : (kv0.1 ++ escC v0) ∈
      (insSort lexLe (kvs.map subfTok)).filterMap tokBody := by
    rw [List.mem_filterMap]
    refine ⟨subfTok kv0, ((insSort_perm lexLe _).mem_iff).mpr
      (List.mem_map_of_mem subfTok hkv0), ?_⟩
    rw [subfTok_valid hvc0 hv0 hvs0]
    rfl
  have hbne : (insSort lexLe (kvs.map subfTok)).filterMap tokBody ≠ [] := by
    intro hnil
    rw [hnil] at hbody0
    cases hbody0
  obtain ⟨b0, brest, hb⟩ := List.exists_cons_of_ne_nil hbne
  have hbody_shape : ∀ b ∈ (insSort lexLe (kvs.map subfTok)).filterMap tokBody,
      ∃ kv ∈ kvs, ∃ v, validCode kv.1 = true ∧ kv.2 = Py.s v ∧
        valSafe v = true ∧ b = kv.1 ++ escC v := by
    intro b hbmem
    rw [List.mem_filterMap] at hbmem
    obtain ⟨tok, htok, htb⟩ := hbmem
    rcases tok_mem_cases h htok with rfl | ⟨kv, hkv, v, hvc, hv, hvs, htokeq⟩
    · rw [show tokBody [] = none from rfl] at htb
      cases htb
    · rw [htokeq] at htb
      rw [show tokBody ('^' :: (kv.1 ++ escC v)) = some (kv.1 ++ escC v)
        from rfl] at htb
      injection htb with hb'
      exact ⟨kv, hkv, v, hvc, hv, hvs, hb'.symm⟩
  have hmapM : ∀ x ∈ (unesc b0 :: brest.map unesc),
      (fun subf => match subf with
        | [] => none
        | k :: v => some (([k] : Str), Py.s v)) x = some (pairFn x) := by
    intro x hx
    have hx' : ∃ b ∈ (b0 :: brest), x = unesc b := by
      rcases List.mem_cons.mp hx with rfl | hx'
      · exact ⟨b0, by simp, rfl⟩
      · obtain ⟨b, hbm, hbx⟩ := List.mem_map.mp hx'
        exact ⟨b, by simp [hbm], hbx.symm⟩
    obtain ⟨b, hbm, rfl⟩ := hx'
    obtain ⟨kv, hkv, v, hvc, hv, hvs, hbeq⟩ := hbody_shape b (hb ▸ hbm)
    obtain ⟨c, hkc, hcm⟩ := validCode_exists hvc
    rw [hbeq, hkc]
    rw [show (([c] : Str) ++ escC v) = c :: escC v from rfl]
    rw [unesc_cons_ne (mem_CODES_ok c hcm).2.2.2]
    rfl
  have hprs_perm : ((unesc b0 :: brest.map unesc).map pairFn).Perm
      (kvs.filter (fun kv => !(kv.1 == strL "_"))) := by
    have h1 : (unesc b0 :: brest.map unesc) = (b0 :: brest).map unesc := by
      rw [List.map_cons]
    rw [h1, List.map_map, ← hb]
    have h2 := (List.Perm.filterMap tokBody (insSort_perm lexLe
      (kvs.map subfTok))).map (pairFn ∘ unesc)
    refine h2.trans ?_
    rw [show (pairFn ∘ unesc) = (fun b => pairFn (unesc b)) from rfl]
    rw [pairs_of_unsorted hall]
  have hprs_nodup : (((unesc b0 :: brest.map unesc).map pairFn).map
      (fun kv => kv.1)).Nodup := by
    refine ((hprs_perm.map (fun kv => kv.1)).nodup_iff).mpr ?_
    exact List.Nodup.sublist
      ((List.filter_sublist kvs).map (fun kv => kv.1)) hnd
  have hprs_mem : ∀ pr ∈ (unesc b0 :: brest.map unesc).map pairFn,
      pr ∈ kvs ∧ pr.1 ≠ strL "_" := by
    intro pr hpr
    have hpr' := hprs_perm.mem_iff.mp hpr
    refine ⟨List.mem_of_mem_filter hpr', ?_⟩
    have hf := List.of_mem_filter hpr'
    simp only [Bool.not_eq_true'] at hf
    intro hEq
    rw [hEq] at hf
    simp at hf
  have hprs_sub : ∀ pr ∈ (unesc b0 :: brest.map unesc).map pairFn,
      ∃ w, pyLookup pr.1 kvs = some w ∧ pyEq pr.2 w = true := by
    intro pr hpr
    obtain ⟨hmem, -⟩ := hprs_mem pr hpr
    refine ⟨pr.2, pyLookup_of_mem_nodup hmem hnd, ?_⟩
    rcases hall pr hmem with ⟨-, v, hv, -⟩ | ⟨-, -, v, hv, -⟩ <;>
      (rw [hv]; exact pyEq_s_refl v)
  rcases mainOf_cases' h with ⟨hlk, heqm⟩ | ⟨vmain, hmsv, heqm, hlk⟩
  · -- no `_` entry
    refine ⟨(unesc b0 :: brest.map unesc).map pairFn, ?_, ?_⟩
    · unfold get_field_data
      rw [show replaceL '[' (strL "PRESERVECIRC]") ['^'] = unesc from rfl]
      rw [occContent_d, hsplit, hb, heqm]
      rw [List.map_cons, List.map_cons, unesc_nil]
      simp only
      rw [mapM_some_of hmapM]
      simp only
      rw [if_neg (fun hne => hne rfl)]
      rw [foldl_pyDictUpdate_append hprs_nodup (fun pr _ e he => by cases he)]
      rw [List.nil_append]
    · refine pyEq_d_intro ?_ (pyDictSub_of_forall hprs_sub)
      have hlen1 := hprs_perm.length_eq
      have hlen2 := length_filter_key kvs
      have hlen3 : (kvs.filter (fun kv => kv.1 == strL "_")).length = 0 := by
        rw [filter_underscore hnd, hlk]
        rfl
      omega
  · -- with a `_` entry carrying the main value
    refine ⟨(strL "_", Py.s vmain) :: (unesc b0 :: brest.map unesc).map pairFn,
      ?_, ?_⟩
    · unfold get_field_data
      rw [show replaceL '[' (strL "PRESERVECIRC]") ['^'] = unesc from rfl]
      rw [occContent_d, hsplit, hb, heqm]
      rw [List.map_cons, List.map_cons]
      rw [unesc_escC_self (valSafe_no_bracket (mainSafe_val hmsv))]
      simp only
      rw [mapM_some_of hmapM]
      simp only
      rw [if_pos (valSafe_ne_nil (mainSafe_val hmsv))]
      rw [foldl_pyDictUpdate_append hprs_nodup ?_]
      · rfl
      · intro pr hpr e he
        simp only [List.mem_singleton] at he
        subst he
        exact fun hEq => (hprs_mem pr hpr).2 hEq.symm
    · refine pyEq_d_intro ?_ (pyDictSub_of_forall ?_)
      · have hlen1 := hprs_perm.length_eq
        have hlen2 := length_filter_key kvs
        have hlen3 : (kvs.filter (fun kv => kv.1 == strL "_")).length = 1 := by
          rw [filter_underscore hnd, hlk]
          rfl
        simp only [List.length_cons]
        omega
      · intro kv hkv
        rcases List.mem_cons.mp hkv with rfl | hkv'
        · exact ⟨Py.s vmain, hlk, pyEq_s_refl vmain⟩
        · exact hprs_sub kv hkv'

/-- Parsing one rendered safe occurrence recovers a Python-equal value. -/
theorem occ_parse {o : Py} (h : occSafe o) :
    get_field_data (occContent o) = some (parsedOcc o) ∧
      pyEq (parsedOcc o) o = true := by
  match o, h with
  | .s v, h =>
    have hgfd : get_field_data (occContent (Py.s v)) = some (Py.s v) := by
      have hsplit : splitOnL '^' [] (escC v) = [escC v] :=
        splitOnL_eq_single (cleanBefore_of_head_notin escC_no_circ [])
      unfold get_field_data
      rw [show replaceL '[' (strL "PRESERVECIRC]") ['^'] = unesc from rfl]
      rw [show occContent (Py.s v) = escC v from rfl]
      rw [hsplit]
      rw [List.map_cons]
      rw [unesc_escC_self (valSafe_no_bracket (mainSafe_val h))]
      rfl
    have hpo : parsedOcc (Py.s v) = Py.s v := by
      unfold parsedOcc
      rw [hgfd]
      rfl
    rw [hpo]
    exact ⟨hgfd, pyEq_s_refl v⟩
  | .d kvs, h =>
    obtain ⟨pd, hgfd, hpe⟩ := occ_parse_d h
    have hpo : parsedOcc (Py.d kvs) = Py.d pd := by
      unfold parsedOcc
      rw [hgfd]
      rfl
    rw [hpo]
    exact ⟨hgfd, hpe⟩

/-! ## Read side, step 3: splitting a record segment into field lines -/

/-- One tag/occurrence pair as it appears in the stream. -/
def pOk (q : Str × Py) : Prop :=
  (∃ t, 1 ≤ t ∧ t ≤ 999 ∧ q.1 = natToStr t) ∧ occSafe q.2

/-- A field line without its leading `!v` and trailing newline. -/
def lineBody (p : Str × Py) : Str := zfill 3 p.1 ++ '!' :: occContent p.2

/-- The record body after the first `!v`. -/
def occStream : List (Str × Py) → Str
  | [] => []
  | [p] => lineBody p ++ ['\n']
  | p :: ps => lineBody p ++ '\n' :: (strL "!v" ++ occStream ps)

/-- The segments `\n!v`-splitting cuts the body into. -/
def lineParts : List (Str × Py) → List Str
  | [] => []
  | [p] => [lineBody p ++ ['\n']]
  | p :: ps => lineBody p :: lineParts ps

/-- All (tag, occurrence) pairs of a record, in stream order. -/
def linePairs (entries : List (Str × Py)) : List (Str × Py) :=
  entries.flatMap (fun kv => (fieldOccs kv.2).map (fun o => (kv.1, o)))

theorem occStream_one (p : Str × Py) :
    occStream [p] = lineBody p ++ ['\n'] := rfl

theorem occStream_cons2 (p q : Str × Py) (ps : List (Str × Py)) :
    occStream (p :: q :: ps)
      = lineBody p ++ '\n' :: (strL "!v" ++ occStream (q :: ps)) := rfl

theorem lineParts_one (p : Str × Py) :
    lineParts [p] = [lineBody p ++ ['\n']] := rfl

theorem lineParts_cons2 (p q : Str × Py) (ps : List (Str × Py)) :
    lineParts (p :: q :: ps) = lineBody p :: lineParts (q :: ps) := rfl

theorem isDigitC_ne {c : Char} (h : isDigitC c = true) :
    c ≠ '\n' ∧ c ≠ '!' ∧ c ≠ '^' ∧ c ≠ 'v' ∧ c ≠ 'I' ∧ c ≠ 'D' ∧ c ≠ ' ' := by
  obtain ⟨h1, h2⟩ := isDigitC_toNat h
  refine ⟨?_, ?_, ?_, ?_, ?_, ?_, ?_⟩ <;> rintro rfl <;> revert h1 h2 <;> decide

theorem lineBody_clean {p : Str × Py} (hk : (zfill 3 p.1).all isDigitC = true)
    (ho : occSafe p.2) (t : Str) :
    cleanBefore '\n' (strL "!v") (lineBody p) t := by
  apply cleanBefore_of_head_notin
  intro c hc
  unfold lineBody at hc
  rcases List.mem_append.mp hc with hz | hrest
  · exact (isDigitC_ne (List.all_eq_true.mp hk c hz)).1
  · rcases List.mem_cons.mp hrest with rfl | hcon
    · decide
    · exact occContent_no_nl ho c hcon

theorem cleanBefore_nl_nil : cleanBefore '\n' (strL "!v") ['\n'] [] := by
  intro i hi
  match i, hi with
  | 0, _ => decide

theorem occStream_split :
    ∀ {P : List (Str × Py)} {p : Str × Py}, (∀ q ∈ p :: P, pOk q) →
      splitOnL '\n' (strL "!v") (occStream (p :: P)) = lineParts (p :: P) := by
  intro P
  induction P with
  | nil =>
    intro p hP
    obtain ⟨⟨t, -, h2, hkt⟩, ho⟩ := hP p (by simp)
    have hdig : (zfill 3 p.1).all isDigitC = true := by
      rw [hkt]
      exact zfill_all_digits (natToStr_all_digits t)
    rw [occStream_one, lineParts_one]
    exact splitOnL_eq_single
      (cleanBefore_append (lineBody_clean hdig ho _) cleanBefore_nl_nil)
  | cons q ps ih =>
    intro p hP
    obtain ⟨⟨t, -, h2, hkt⟩, ho⟩ := hP p (by simp)
    have hdig : (zfill 3 p.1).all isDigitC = true := by
      rw [hkt]
      exact zfill_all_digits (natToStr_all_digits t)
    rw [occStream_cons2, lineParts_cons2]
    rw [@splitOnL_append_general '\n' (strL "!v") (lineBody p)
      ('\n' :: (strL "!v" ++ occStream (q :: ps))) (occStream (q :: ps)) rfl
      (lineBody_clean hdig ho _)]
    rw [ih (fun r hr => hP r (by simp at hr ⊢; tauto))]

theorem joinL_lines_eq :
    ∀ {P : List (Str × Py)} {p : Str × Py},
      joinL ((p :: P).map (fun q => occLineFor q.1 q.2))
        = strL "!v" ++ occStream (p :: P) := by
  intro P
  induction P with
  | nil =>
    intro p
    rw [List.map_cons, List.map_nil, joinL_cons, joinL_nil, occStream_one]
    unfold occLineFor lineBody
    simp [List.append_assoc]
  | cons q ps ih =>
    intro p
    rw [List.map_cons, joinL_cons]
    rw [show ((q :: ps).map (fun r => occLineFor r.1 r.2))
      = List.map (fun r => occLineFor r.1 r.2) (q :: ps) from rfl]
    rw [ih, occStream_cons2]
    unfold occLineFor lineBody
    simp [List.append_assoc]

/-- Splitting a rendered record segment on `\n!v` and dropping the index
part yields exactly the field-line bodies. -/
theorem seg_split {i : Nat} {P : List (Str × Py)} (hP : ∀ q ∈ P, pOk q) :
    (splitOnL '\n' (strL "!v") (zfill 6 (natToStr i) ++ '\n' ::
      joinL (P.map (fun q => occLineFor q.1 q.2)))).drop 1 = lineParts P := by
  have hdig6 : ∀ c ∈ zfill 6 (natToStr i), c ≠ '\n' := by
    intro c hc
    exact (isDigitC_ne (List.all_eq_true.mp
      (zfill_all_digits (natToStr_all_digits i)) c hc)).1
  match P, hP with
  | [], _ =>
    rw [List.map_nil, joinL_nil]
    have : splitOnL '\n' (strL "!v") (zfill 6 (natToStr i) ++ ['\n'])
        = [zfill 6 (natToStr i) ++ ['\n']] :=
      splitOnL_eq_single
        (cleanBefore_append (cleanBefore_of_head_notin hdig6 _)
          cleanBefore_nl_nil)
    rw [show (zfill 6 (natToStr i) ++ '\n' :: ([] : Str))
      = zfill 6 (natToStr i) ++ ['\n'] from rfl]
    rw [this]
    rfl
  | p :: ps, hP =>
    rw [joinL_lines_eq]
    rw [show (zfill 6 (natToStr i) ++ '\n' :: (strL "!v" ++ occStream (p :: ps)))
      = zfill 6 (natToStr i) ++ ('\n' :: (strL "!v" ++ occStream (p :: ps)))
      from rfl]
    rw [@splitOnL_append_general '\n' (strL "!v") (zfill 6 (natToStr i))
      ('\n' :: (strL "!v" ++ occStream (p :: ps))) (occStream (p :: ps)) rfl
      (cleanBefore_of_head_notin hdig6 _)]
    rw [occStream_split hP]
    rfl

theorem linePairs_pOk {entries : List (Str × Py)}
    (hprops : ∀ kv ∈ entries, (∃ t, 1 ≤ t ∧ t ≤ 999 ∧ kv.1 = natToStr t) ∧
      fieldSafe kv.2) :
    ∀ q ∈ linePairs entries, pOk q := by
  intro q hq
  unfold linePairs at hq
  rw [List.mem_flatMap] at hq
  obtain ⟨kv, hkv, hq'⟩ := hq
  obtain ⟨o, ho, hqe⟩ := List.mem_map.mp hq'
  subst hqe
  exact ⟨(hprops kv hkv).1, fieldOccs_safe (hprops kv hkv).2 o ho⟩

theorem body_eq_linePairs (entries : List (Str × Py)) :
    joinL (entries.map entryLines) =
      joinL ((linePairs entries).map (fun q => occLineFor q.1 q.2)) := by
  induction entries with
  | nil => rfl
  | cons kv es ih =>
    rw [List.map_cons, joinL_cons, ih]
    unfold linePairs
    rw [List.flatMap_cons, List.map_append, joinL_append]
    congr 1
    unfold entryLines
    rw [List.map_map]
    rfl

/-! ## Read side, step 4: parsing the field lines and grouping -/

theorem parseField_parts {p : Str × Py} {t : Nat}
    (h1 : 1 ≤ t) (h2 : t ≤ 999) (hk : p.1 = natToStr t) (ho : occSafe p.2) :
    parseField (lineBody p) = some (p.1, parsedOcc p.2) ∧
    parseField (lineBody p ++ ['\n']) = some (p.1, parsedOcc p.2) := by
  have hlen3 : (zfill 3 p.1).length = 3 := by
    rw [hk]
    exact zfill_three_length h2
  have hA : (zfill 3 p.1 ++ ['!']).length = 4 := by
    rw [List.length_append, hlen3]
    rfl
  have hlb1 : lineBody p = zfill 3 p.1 ++ ('!' :: occContent p.2) := rfl
  have hlb2 : lineBody p = (zfill 3 p.1 ++ ['!']) ++ occContent p.2 := by
    rw [hlb1, List.append_assoc]
    rfl
  have hlb1x : lineBody p ++ ['\n']
      = zfill 3 p.1 ++ ('!' :: (occContent p.2 ++ ['\n'])) := by
    rw [hlb1, List.append_assoc]
    rfl
  have hlb2x : lineBody p ++ ['\n']
      = (zfill 3 p.1 ++ ['!']) ++ (occContent p.2 ++ ['\n']) := by
    rw [hlb2, List.append_assoc]
  have htake1 : (lineBody p).take 3 = zfill 3 p.1 := by
    have h := List.take_left (zfill 3 p.1) ('!' :: occContent p.2)
    rw [hlen3] at h
    rw [hlb1]
    exact h
  have htake2 : (lineBody p ++ ['\n']).take 3 = zfill 3 p.1 := by
    have h := List.take_left (zfill 3 p.1) ('!' :: (occContent p.2 ++ ['\n']))
    rw [hlen3] at h
    rw [hlb1x]
    exact h
  have hdrop1 : (lineBody p).drop 4 = occContent p.2 := by
    have h := List.drop_left (zfill 3 p.1 ++ ['!']) (occContent p.2)
    rw [hA] at h
    rw [hlb2]
    exact h
  have hdrop2 : (lineBody p ++ ['\n']).drop 4 = occContent p.2 ++ ['\n'] := by
    have h := List.drop_left (zfill 3 p.1 ++ ['!']) (occContent p.2 ++ ['\n'])
    rw [hA] at h
    rw [hlb2x]
    exact h
  have hparse : parseNatDigits (zfill 3 p.1) = some t := by
    rw [hk]
    exact parseNatDigits_zfill t
  have hgfd := (occ_parse ho).1
  constructor
  · unfold parseField
    rw [htake1, hparse]
    simp only
    rw [hdrop1, occContent_stripWs ho, hgfd]
    simp only
    rw [hk]
  · unfold parseField
    rw [htake2, hparse]
    simp only
    rw [hdrop2, occContent_stripWs_nl ho, hgfd]
    simp only
    rw [hk]

theorem mapM_lineParts :
    ∀ {P : List (Str × Py)}, (∀ q ∈ P, pOk q) →
      (lineParts P).mapM parseField
        = some (P.map (fun q => (q.1, parsedOcc q.2))) := by
  intro P
  induction P with
  | nil =>
    intro _
    rfl
  | cons p ps ih =>
    intro hP
    obtain ⟨⟨t, h1, h2, hkt⟩, ho⟩ := hP p (by simp)
    cases ps with
    | nil =>
      rw [lineParts_one, List.mapM_cons]
      rw [(parseField_parts h1 h2 hkt ho).2]
      rfl
    | cons q ps' =>
      rw [lineParts_cons2, List.mapM_cons]
      rw [(parseField_parts h1 h2 hkt ho).1]
      rw [ih (fun r hr => hP r (by simp at hr ⊢; tauto))]
      rfl

theorem dictAppendOcc_extend {pre : List (Str × List Py)} {tag : Str}
    {b : List Py} (hpre : ∀ e ∈ pre, e.1 ≠ tag) (o : Py) :
    dictAppendOcc (pre ++ [(tag, b)]) tag o = pre ++ [(tag, b ++ [o])] := by
  unfold dictAppendOcc
  rw [if_pos]
  · rw [List.map_append]
    have hm : ∀ (l : List (Str × List Py)), (∀ e ∈ l, e.1 ≠ tag) →
        l.map (fun e => if e.1 == tag then (e.1, e.2 ++ [o]) else e) = l := by
      intro l hl
      induction l with
      | nil => rfl
      | cons e es ihe =>
        rw [List.map_cons, if_neg (by simp [hl e (by simp)]),
          ihe (fun e' he' => hl e' (by simp [he']))]
    rw [hm pre hpre]
    rw [List.map_cons, List.map_nil]
    rw [if_pos (by simp)]
  · rw [List.any_eq_true]
    exact ⟨(tag, b), by simp, by simp⟩

theorem foldl_occ_run2 {tag : Str} :
    ∀ (os : List Py) (pre : List (Str × List Py)) (b : List Py),
      (∀ e ∈ pre, e.1 ≠ tag) →
      (os.map (fun o => (tag, o))).foldl
          (fun d kv => dictAppendOcc d kv.1 kv.2) (pre ++ [(tag, b)])
        = pre ++ [(tag, b ++ os)] := by
  intro os
  induction os with
  | nil =>
    intro pre b _
    rw [List.map_nil, List.foldl_nil, List.append_nil]
  | cons o os' ih =>
    intro pre b hpre
    rw [List.map_cons, List.foldl_cons]
    simp only
    rw [dictAppendOcc_extend hpre o]
    rw [ih pre (b ++ [o]) hpre, List.append_assoc]
    rfl

theorem foldl_occ_run {tag : Str} {os : List Py} {acc : List (Str × List Py)}
    (hne : os ≠ []) (hacc : ∀ e ∈ acc, e.1 ≠ tag) :
    (os.map (fun o => (tag, o))).foldl
        (fun d kv => dictAppendOcc d kv.1 kv.2) acc
      = acc ++ [(tag, os)] := by
  match os, hne with
  | o :: os', _ =>
    rw [List.map_cons, List.foldl_cons]
    simp only
    have hnone : ¬(acc.any fun e => e.1 == tag) = true := by
      intro hany
      rw [List.any_eq_true] at hany
      obtain ⟨e, he, hbe⟩ := hany
      exact hacc e he (eq_of_beq hbe)
    have hstep : dictAppendOcc acc tag o = acc ++ [(tag, [o])] := by
      unfold dictAppendOcc
      rw [if_neg hnone]
    rw [hstep, foldl_occ_run2 os' acc [o] hacc]
    rfl

theorem foldl_group :
    ∀ {gs : List (Str × List Py)} {acc : List (Str × List Py)},
      ((acc ++ gs).map (fun g => g.1)).Nodup →
      (∀ g ∈ gs, g.2 ≠ []) →
      (gs.flatMap (fun g => g.2.map (fun o => (g.1, o)))).foldl
          (fun d kv => dictAppendOcc d kv.1 kv.2) acc
        = acc ++ gs := by
  intro gs
  induction gs with
  | nil =>
    intro acc _ _
    rw [List.flatMap_nil, List.foldl_nil, List.append_nil]
  | cons g gs' ih =>
    intro acc hnd hne
    rw [List.flatMap_cons, List.foldl_append]
    have hacc : ∀ e ∈ acc, e.1 ≠ g.1 := by
      intro e he hEq
      rw [List.map_append, List.nodup_append] at hnd
      refine hnd.2.2 (List.mem_map_of_mem (fun g => g.1) he) ?_
      rw [hEq, List.map_cons]
      simp
    rw [foldl_occ_run (hne g (by simp)) hacc]
    have hnd' : (((acc ++ [(g.1, g.2)]) ++ gs').map (fun g => g.1)).Nodup := by
      have hre : (acc ++ [(g.1, g.2)]) ++ gs' = acc ++ (g :: gs') := by
        rw [List.append_assoc, Prod.mk.eta]
        rfl
      rw [hre]
      exact hnd
    rw [ih hnd' (fun g' hg' => hne g' (by simp [hg']))]
    rw [List.append_assoc, Prod.mk.eta]
    rfl

/-- The parser's scalar collapse on a list of occurrence values. -/
def collapseOccs : List Py → Py
  | [o] => o
  | os => Py.l os

theorem fieldOccs_ne_nil {f : Py} (hf : fieldSafe f) : fieldOccs f ≠ [] := by
  match f, hf with
  | .l os, hf => exact hf.1
  | .s v, _ =>
    intro h
    rw [show fieldOccs (Py.s v) = [Py.s v] from rfl] at h
    cases h
  | .d kvs, _ =>
    intro h
    rw [show fieldOccs (Py.d kvs) = [Py.d kvs] from rfl] at h
    cases h

theorem pyListEq_map_parsed {os : List Py}
    (h : ∀ o ∈ os, pyEq (parsedOcc o) o = true) :
    pyListEq (os.map parsedOcc) os = true := by
  induction os with
  | nil => rfl
  | cons o os' ihe =>
    rw [List.map_cons, pyListEq]
    rw [h o (by simp), ihe (fun o' ho' => h o' (by simp [ho']))]
    rfl

/-- The collapsed parsed occurrences of a safe field equal (as Python
values) the canonical form of the field. -/
theorem parsed_field_pyEq {f : Py} (hf : fieldSafe f) :
    pyEq (collapseOccs ((fieldOccs f).map parsedOcc)) (canonField f) = true := by
  match f, hf with
  | .s v, hf =>
    rw [show fieldOccs (Py.s v) = [Py.s v] from rfl]
    rw [List.map_cons, List.map_nil]
    rw [show collapseOccs [parsedOcc (Py.s v)] = parsedOcc (Py.s v) from rfl]
    rw [show canonField (Py.s v) = Py.s v from rfl]
    exact (occ_parse (o := Py.s v) hf).2
  | .d kvs, hf =>
    rw [show fieldOccs (Py.d kvs) = [Py.d kvs] from rfl]
    rw [List.map_cons, List.map_nil]
    rw [show collapseOccs [parsedOcc (Py.d kvs)] = parsedOcc (Py.d kvs) from rfl]
    rw [show canonField (Py.d kvs) = Py.d kvs from rfl]
    exact (occ_parse (o := Py.d kvs) hf).2
  | .l os, hf =>
    obtain ⟨hne, hos⟩ := hf
    match os, hne with
    | [o], _ =>
      rw [show fieldOccs (Py.l [o]) = [o] from rfl, List.map_cons, List.map_nil]
      rw [show collapseOccs [parsedOcc o] = parsedOcc o from rfl]
      rw [show canonField (Py.l [o]) = o from rfl]
      exact (occ_parse (hos o (by simp))).2
    | o1 :: o2 :: os', _ =>
      rw [show fieldOccs (Py.l (o1 :: o2 :: os')) = o1 :: o2 :: os' from rfl]
      rw [show canonField (Py.l (o1 :: o2 :: os')) = Py.l (o1 :: o2 :: os')
        from rfl]
      rw [show collapseOccs ((o1 :: o2 :: os').map parsedOcc)
        = Py.l ((o1 :: o2 :: os').map parsedOcc) from rfl]
      rw [pyEq]
      exact pyListEq_map_parsed (fun o hoo => (occ_parse (hos o hoo)).2)

/-- Parsing one rendered record segment: structural form of the result
(the parsed dict lists each entry's tag with its occurrences collapsed). -/
theorem seg_parse_eq {i : Nat} {entries : List (Str × Py)}
    (hnde : (entries.map (fun kv => kv.1)).Nodup)
    (hprops : ∀ kv ∈ entries, (∃ t, 1 ≤ t ∧ t ≤ 999 ∧ kv.1 = natToStr t) ∧
      fieldSafe kv.2) :
    get_record_data (zfill 6 (natToStr i) ++ '\n' ::
        joinL (entries.map entryLines))
      = some (Py.d (entries.map (fun kv =>
          (kv.1, collapseOccs ((fieldOccs kv.2).map parsedOcc))))) := by
  have hPok := linePairs_pOk hprops
  have hsplit : (splitOnL '\n' (strL "!v") (zfill 6 (natToStr i) ++ '\n' ::
      joinL (entries.map entryLines))).drop 1
      = lineParts (linePairs entries) := by
    rw [body_eq_linePairs]
    exact seg_split hPok
  have hmapM := mapM_lineParts hPok
  have hpairs : ∀ (es : List (Str × Py)),
      (linePairs es).map (fun q => (q.1, parsedOcc q.2))
        = (es.map (fun kv => (kv.1, (fieldOccs kv.2).map parsedOcc))).flatMap
            (fun g => g.2.map (fun o => (g.1, o))) := by
    intro es
    induction es with
    | nil => rfl
    | cons kv es' ihe =>
      unfold linePairs at ihe ⊢
      rw [List.flatMap_cons, List.map_append, ihe, List.map_cons,
        List.flatMap_cons]
      congr 1
      rw [List.map_map, List.map_map]
      rfl
  have hgs_nodup : ((([] : List (Str × List Py)) ++
      (entries.map (fun kv => (kv.1, (fieldOccs kv.2).map parsedOcc)))).map
        (fun g => g.1)).Nodup := by
    rw [List.nil_append, List.map_map]
    exact hnde
  have hgs_ne : ∀ g ∈ entries.map
      (fun kv => (kv.1, (fieldOccs kv.2).map parsedOcc)), g.2 ≠ [] := by
    intro g hg
    obtain ⟨kv, hkv, hge⟩ := List.mem_map.mp hg
    subst hge
    simp only
    intro hmnil
    exact fieldOccs_ne_nil (hprops kv hkv).2 (List.map_eq_nil_iff.mp hmnil)
  unfold get_record_data
  rw [hsplit, hmapM]
  simp only
  rw [hpairs entries]
  rw [foldl_group hgs_nodup hgs_ne]
  rw [List.nil_append, List.map_map]
  refine congrArg (fun l => some (Py.d l)) ?_
  refine List.map_congr_left ?_
  intro kv _
  rcases hsh : (fieldOccs kv.2).map parsedOcc with - | ⟨o1, - | ⟨o2, os⟩⟩ <;>
    simp only [Function.comp, hsh] <;> rfl

/-- Parsing one rendered record segment recovers a dict Python-equal to
the record's canonical (scalar-collapsed) form. -/
theorem seg_parse {i : Nat} {entries kvs : List (Str × Py)}
    (hperm : entries.Perm kvs)
    (hnd : (kvs.map (fun kv => kv.1)).Nodup)
    (hprops : ∀ kv ∈ entries, (∃ t, 1 ≤ t ∧ t ≤ 999 ∧ kv.1 = natToStr t) ∧
      fieldSafe kv.2) :
    ∃ prec, get_record_data (zfill 6 (natToStr i) ++ '\n' ::
        joinL (entries.map entryLines)) = some prec ∧
      pyEq prec (canonRec (Py.d kvs)) = true := by
  have hnde : (entries.map (fun kv => kv.1)).Nodup :=
    ((hperm.map (fun kv => kv.1)).nodup_iff).mpr hnd
  refine ⟨Py.d (entries.map (fun kv =>
    (kv.1, collapseOccs ((fieldOccs kv.2).map parsedOcc)))), ?_, ?_⟩
  · exact seg_parse_eq hnde hprops
  · rw [show canonRec (Py.d kvs)
      = Py.d (kvs.map (fun kv => (kv.1, canonField kv.2))) from rfl]
    refine pyEq_d_intro ?_ ?_
    · rw [List.length_map, List.length_map]
      exact hperm.length_eq
    · refine pyDictSub_of_forall ?_
      intro x hx
      obtain ⟨kv, hkv, hxe⟩ := List.mem_map.mp hx
      subst hxe
      refine ⟨canonField kv.2, ?_, ?_⟩
      · refine pyLookup_of_mem_nodup ?_ ?_
        · exact List.mem_map_of_mem (fun kv => (kv.1, canonField kv.2))
            (hperm.mem_iff.mp hkv)
        · rw [List.map_map]
          exact hnd
      · exact parsed_field_pyEq (hprops kv hkv).2

/-! ## Read side, step 5: splitting the whole stream on `!ID ` -/

theorem isPrefixL_cons_same (c : Char) (cs xs : Str) :
    isPrefixL (c :: cs) (c :: xs) = isPrefixL cs xs := by
  unfold isPrefixL
  rw [show dropPrefixQ (c :: cs) (c :: xs) = dropPrefixQ cs xs from by
    simp [dropPrefixQ]]

/-- A main-safe escaped value followed by a non-separator character is
never a place where `ID ` starts. -/
theorem not_prefix_ID_escC {v : Str} (hm : mainSafe v = true) {c : Char}
    (hc : c ∉ strL "ID ") (T : Str) :
    isPrefixL (strL "ID ") (escC v ++ c :: T) = false := by
  have hID : strL "ID " = 'I' :: strL "D " := by decide
  cases hcase : isPrefixL (strL "ID ") (escC v ++ c :: T) with
  | false => rfl
  | true =>
    rw [hID] at hcase hc
    have h2 := isPrefixL_confine hc hcase
    unfold mainSafe at hm
    rw [Bool.and_eq_true] at hm
    have h3 := hm.2
    rw [hID, h2] at h3
    simp at h3

theorem bang_content_false {o : Py} (h : occSafe o) (T : Str) :
    isPrefixL (strL "ID ") (occContent o ++ '\n' :: T) = false := by
  have hID : strL "ID " = 'I' :: strL "D " := by decide
  match o, h with
  | .s v, h => exact not_prefix_ID_escC h (by decide) T
  | .d kvs, h =>
    rw [occContent_d]
    rcases mainOf_cases h with he | ⟨v, hms, heq, -⟩
    · rw [he, List.nil_append]
      rcases joinL_tok_shape (@toks_shape kvs) with hj | ⟨r, hj⟩
      · rw [hj, List.nil_append, hID]
        exact isPrefixL_cons_ne (by decide)
      · rw [hj, List.cons_append, hID]
        exact isPrefixL_cons_ne (by decide)
    · rw [heq, List.append_assoc]
      rcases joinL_tok_shape (@toks_shape kvs) with hj | ⟨r, hj⟩
      · rw [hj, List.nil_append]
        exact not_prefix_ID_escC hms (by decide) T
      · rw [hj, List.cons_append]
        exact not_prefix_ID_escC hms (by decide) (r ++ '\n' :: T)

theorem toks_nl_clean_aux :
    ∀ {toks : List Str} {t : Str},
      (∀ tok ∈ toks, tok = [] ∨ ∃ k v, (∀ c ∈ k, c ∈ CODES) ∧
        valSafe v = true ∧ tok = '^' :: (k ++ escC v)) →
      cleanBefore '!' (strL "ID ") (joinL toks ++ ['\n']) t := by
  intro toks
  induction toks with
  | nil =>
    intro t _
    rw [joinL_nil, List.nil_append]
    apply cleanBefore_of_head_notin
    intro c hc
    simp only [List.mem_singleton] at hc
    subst hc
    decide
  | cons tok toks' ih =>
    intro t hsh
    rw [joinL_cons, List.append_assoc]
    refine cleanBefore_append ?_
      (ih (fun tok' htok' => hsh tok' (by simp [htok'])))
    rcases hsh tok (by simp) with rfl | ⟨k, v, hk, hvs, rfl⟩
    · exact cleanBefore_nil _ _ _
    · rw [show ('^' :: (k ++ escC v)) = ('^' :: k) ++ escC v from rfl]
      refine cleanBefore_append ?_ ?_
      · apply cleanBefore_of_head_notin
        intro c hc
        rcases List.mem_cons.mp hc with rfl | hck
        · decide
        · exact (mem_CODES_extra c (hk c hck)).1
      · refine cleanBefore_of_occursIn_false ?_ ?_
        · unfold valSafe at hvs
          simp only [Bool.and_eq_true, Bool.not_eq_true'] at hvs
          exact hvs.2
        · have hsh' : ∀ tok' ∈ toks', tok' = [] ∨ ∃ b, tok' = '^' :: b := by
            intro tok' htok'
            rcases hsh tok' (by simp [htok']) with rfl | ⟨k', v', -, -, rfl⟩
            · exact Or.inl rfl
            · exact Or.inr ⟨_, rfl⟩
          rcases joinL_tok_shape hsh' with hj | ⟨r, hj⟩
          · rw [hj]
            exact Or.inr ⟨'\n', t, rfl, by decide⟩
          · rw [hj]
            exact Or.inr ⟨'^', (r ++ ['\n']) ++ t, rfl, by decide⟩

theorem toks_nl_clean {kvs : List (Str × Py)} (h : occSafe (Py.d kvs))
    (t : Str) :
    cleanBefore '!' (strL "ID ")
      (joinL (insSort lexLe (kvs.map subfTok)) ++ ['\n']) t := by
  have hsh : ∀ tok ∈ insSort lexLe (kvs.map subfTok),
      tok = [] ∨ ∃ k v, (∀ c ∈ k, c ∈ CODES) ∧ valSafe v = true ∧
        tok = '^' :: (k ++ escC v) := by
    intro tok htok
    rcases tok_mem_cases h htok with rfl | ⟨kv, hkv, v, hvc, hv, hvs, htokeq⟩
    · exact Or.inl rfl
    · right
      obtain ⟨c, hkc, hcm⟩ := validCode_exists hvc
      refine ⟨kv.1, v, ?_, hvs, htokeq⟩
      intro d hd
      rw [hkc] at hd
      simp only [List.mem_singleton] at hd
      subst hd
      exact hcm
  exact toks_nl_clean_aux hsh

theorem content_nl_clean {o : Py} (h : occSafe o) (t : Str) :
    cleanBefore '!' (strL "ID ") (occContent o ++ ['\n']) t := by
  match o, h with
  | .s v, h =>
    refine cleanBefore_append ?_ ?_
    · refine cleanBefore_of_occursIn_false ?_ ?_
      · have hvs := mainSafe_val h
        unfold valSafe at hvs
        simp only [Bool.and_eq_true, Bool.not_eq_true'] at hvs
        exact hvs.2
      · exact Or.inr ⟨'\n', t, rfl, by decide⟩
    · apply cleanBefore_of_head_notin
      intro c hc
      simp only [List.mem_singleton] at hc
      subst hc
      decide
  | .d kvs, h =>
    rw [occContent_d, List.append_assoc]
    refine cleanBefore_append ?_ (toks_nl_clean h t)
    rcases mainOf_cases h with he | ⟨v, hms, heq, -⟩
    · rw [he]
      exact cleanBefore_nil _ _ _
    · rw [heq]
      refine cleanBefore_of_occursIn_false ?_ ?_
      · have hvs := mainSafe_val hms
        unfold valSafe at hvs
        simp only [Bool.and_eq_true, Bool.not_eq_true'] at hvs
        exact hvs.2
      · have hsh' := @toks_shape kvs
        rcases joinL_tok_shape hsh' with hj | ⟨r, hj⟩
        · rw [hj]
          exact Or.inr ⟨'\n', t, rfl, by decide⟩
        · rw [hj]
          exact Or.inr ⟨'^', (r ++ ['\n']) ++ t, rfl, by decide⟩

theorem bang_clean {o : Py} (h : occSafe o) (u : Str) :
    cleanBefore '!' (strL "ID ") ('!' :: (occContent o ++ ['\n'])) u := by
  intro i hi
  match i with
  | 0 =>
    simp only [List.cons_append, List.drop_zero]
    rw [isPrefixL_cons_same, List.append_assoc]
    exact bang_content_false h u
  | j + 1 =>
    simp only [List.cons_append, List.drop_succ_cons]
    refine content_nl_clean h u j ?_
    simp only [List.length_cons] at hi
    omega

theorem bangv_clean (w : Str) : cleanBefore '!' (strL "ID ") (strL "!v") w := by
  have hbv : strL "!v" = '!' :: 'v' :: [] := by decide
  rw [hbv]
  intro i hi
  match i with
  | 0 =>
    simp only [List.cons_append, List.drop_zero, List.nil_append]
    rw [isPrefixL_cons_same]
    rw [show strL "ID " = 'I' :: strL "D " from by decide]
    exact isPrefixL_cons_ne (by decide)
  | 1 =>
    simp only [List.cons_append, List.drop_succ_cons, List.drop_zero,
      List.nil_append]
    exact isPrefixL_cons_ne (by decide)
  | j + 2 =>
    simp only [List.length_cons, List.length_nil] at hi
    omega

theorem occLine_clean {k : Str} {o : Py}
    (hk : (zfill 3 k).all isDigitC = true) (ho : occSafe o) (u : Str) :
    cleanBefore '!' (strL "ID ") (occLineFor k o) u := by
  unfold occLineFor
  refine cleanBefore_append (cleanBefore_append (bangv_clean _) ?_)
    (bang_clean ho u)
  apply cleanBefore_of_head_notin
  intro c hc
  exact (isDigitC_ne (List.all_eq_true.mp hk c hc)).2.1

theorem joinL_clean_of_all {parts : List Str}
    (h : ∀ p ∈ parts, ∀ u, cleanBefore '!' (strL "ID ") p u) :
    ∀ u, cleanBefore '!' (strL "ID ") (joinL parts) u := by
  induction parts with
  | nil =>
    intro u
    rw [joinL_nil]
    exact cleanBefore_nil _ _ _
  | cons p ps ih =>
    intro u
    rw [joinL_cons]
    exact cleanBefore_append (h p (by simp) _)
      (ih (fun q hq => h q (by simp [hq])) u)

theorem seg_clean {i : Nat} {entries : List (Str × Py)}
    (hprops : ∀ kv ∈ entries, (∃ t, 1 ≤ t ∧ t ≤ 999 ∧ kv.1 = natToStr t) ∧
      fieldSafe kv.2) (u : Str) :
    cleanBefore '!' (strL "ID ")
      (zfill 6 (natToStr i) ++ '\n' :: joinL (entries.map entryLines)) u := by
  refine cleanBefore_append ?_ ?_
  · apply cleanBefore_of_head_notin
    intro c hc
    exact (isDigitC_ne (List.all_eq_true.mp
      (zfill_all_digits (natToStr_all_digits i)) c hc)).2.1
  · rw [show ('\n' :: joinL (entries.map entryLines))
      = ['\n'] ++ joinL (entries.map entryLines) from rfl]
    refine cleanBefore_append ?_ ?_
    · apply cleanBefore_of_head_notin
      intro c hc
      simp only [List.mem_singleton] at hc
      subst hc
      decide
    · refine joinL_clean_of_all ?_ u
      intro p hp w
      obtain ⟨kv, hkv, hpe⟩ := List.mem_map.mp hp
      subst hpe
      obtain ⟨⟨t, -, h2, hkt⟩, hfs⟩ := hprops kv hkv
      unfold entryLines
      refine joinL_clean_of_all ?_ w
      intro q hq w'
      obtain ⟨o, ho, hqe⟩ := List.mem_map.mp hq
      subst hqe
      refine occLine_clean ?_ (fieldOccs_safe hfs o ho) w'
      rw [hkt]
      exact zfill_all_digits (natToStr_all_digits t)

theorem fileSpec_shape {j : Nat} {rs : List Py} {rest : List Str}
    (h : FileSpec j rs rest) :
    rest = [] ∨ ∃ x rest', rest = (strL "!ID " ++ x) :: rest' := by
  cases h with
  | nil => exact Or.inl rfl
  | cons j r rs' s rest' entries kvs hkvs hsafe hperm hprops hs hrest =>
    right
    exact ⟨zfill 6 (natToStr j) ++ '\n' :: joinL (entries.map entryLines),
      rest', by rw [hs, List.append_assoc]⟩

/-- Parsing the assembled placeholder-form stream of a safe record list
recovers the records (canonicalized) up to Python equality. -/
theorem read_of_fileSpec :
    ∀ {i : Nat} {records : List Py} {strs : List Str}, FileSpec i records strs →
      ∃ out, ((splitOnL '!' (strL "ID ") (joinL strs)).drop 1).mapM
          get_record_data = some out ∧
        pyListEq out (records.map canonRec) = true := by
  intro i records strs h
  induction h with
  | nil i =>
    refine ⟨[], ?_, rfl⟩
    rw [show joinL ([] : List Str) = [] from rfl, splitOnL_nil]
    rfl
  | cons i r rs s rest entries kvs hkvs hsafe hperm hprops hs hrest ih =>
    obtain ⟨out', hout', hpe'⟩ := ih
    obtain ⟨kvs2, hkvs2, hnd2, hall2⟩ := hsafe
    have hkk : kvs2 = kvs := by
      rw [hkvs] at hkvs2
      injection hkvs2 with h'
      exact h'.symm
    subst hkk
    obtain ⟨prec, hprec, hpeq⟩ := seg_parse hperm hnd2 hprops
    have hstream : joinL (s :: rest) = ('!' :: strL "ID ") ++
        ((zfill 6 (natToStr i) ++ '\n' :: joinL (entries.map entryLines)) ++
          joinL rest) := by
      rw [joinL_cons, hs]
      rw [show strL "!ID " = '!' :: strL "ID " from by decide]
      simp [List.append_assoc]
    rw [hstream]
    rw [splitOnL_match_self]
    simp only [List.drop_succ_cons, List.drop_zero]
    rcases fileSpec_shape hrest with hrnil | ⟨x, rest', hrsh⟩
    · subst hrnil
      rw [show joinL ([] : List Str) = [] from rfl, List.append_nil]
      rw [splitOnL_eq_single (seg_clean hprops [])]
      refine ⟨[prec], ?_, ?_⟩
      · rw [List.mapM_cons, hprec]
        rfl
      · rw [List.map_cons, pyListEq, hkvs, hpeq]
        have hrs : rs = [] := by
          cases hrest
          rfl
        subst hrs
        rfl
    · have hjrest : joinL rest = ('!' :: strL "ID ") ++ (x ++ joinL rest') := by
        rw [hrsh, joinL_cons]
        rw [show strL "!ID " = '!' :: strL "ID " from by decide]
        rw [List.append_assoc]
      rw [@splitOnL_append_general '!' (strL "ID ")
        (zfill 6 (natToStr i) ++ '\n' :: joinL (entries.map entryLines))
        (joinL rest) (x ++ joinL rest') hjrest (seg_clean hprops _)]
      have hrsplit : splitOnL '!' (strL "ID ") (joinL rest)
          = [] :: splitOnL '!' (strL "ID ") (x ++ joinL rest') := by
        rw [hjrest]
        exact splitOnL_match_self _ _ _
      rw [hrsplit] at hout'
      simp only [List.drop_succ_cons, List.drop_zero] at hout'
      refine ⟨prec :: out', ?_, ?_⟩
      · rw [List.mapM_cons, hprec, hout']
        rfl
      · rw [List.map_cons, pyListEq, hkvs, hpeq, hpe']
        rfl

/-- Master round-trip: for safe input, `write` succeeds and `read` of the
written file returns the records with single-occurrence lists collapsed,
up to Python `==`. -/
theorem write_read_roundtrip {records : List Py} (h : inputSafe records) :
    ∃ wire out, write_content records = .ok wire ∧
      read_content wire = some out ∧
      pyListEq out (records.map canonRec) = true := by
  obtain ⟨strs, hspec, wire, hw, hrd⟩ := write_wire h
  obtain ⟨out, hout, hpe⟩ := read_of_fileSpec hspec
  refine ⟨wire, out, hw, ?_, hpe⟩
  show ((splitOnL '!' (strL "ID ") (rd (htmlUnescape wire))).drop 1).mapM
      get_record_data = some out
  rw [hrd]
  exact hout

/-! ## Fuelled twins of the well-founded string functions

The splitting, replacing and unescaping functions recurse on a
well-founded measure and therefore do not reduce inside the kernel; each
gets a structurally recursive twin (falling back to the original when the
fuel runs out, so the two agree for every fuel) used to evaluate the codec
on concrete inputs. -/

theorem htmlUnescape_amp_none {r : Str} (h : tryCharref r = none) :
    htmlUnescape ('&' :: r) = '&' :: htmlUnescape r := by
  rw [htmlUnescape.eq_def]
  split
  · rename_i heq
    exact absurd heq (by simp)
  · rename_i c' r' heq
    injection heq with h1 h2
    subst h1
    subst h2
    rw [if_pos rfl]
    split
    · rename_i rep rest' heq2
      rw [h] at heq2
      cases heq2
    · rfl

def splitOnLF : Nat → Char → Str → Str → List Str
  | 0, p0, ps, l => splitOnL p0 ps l
  | fuel + 1, p0, ps, l =>
    match l with
    | [] => [[]]
    | c :: rest =>
      match dropPrefixQ (p0 :: ps) (c :: rest) with
      | some t => [] :: splitOnLF fuel p0 ps t
      | none =>
        match splitOnLF fuel p0 ps rest with
        | [] => [[c]]
        | w :: ws => (c :: w) :: ws

theorem splitOnLF_eq :
    ∀ (fuel : Nat) (p0 : Char) (ps l : Str),
      splitOnLF fuel p0 ps l = splitOnL p0 ps l := by
  intro fuel
  induction fuel with
  | zero => intro p0 ps l; rfl
  | succ f ih =>
    intro p0 ps l
    match l with
    | [] => rw [splitOnL_nil]; rfl
    | c :: rest =>
      rw [splitOnLF]
      cases hd : dropPrefixQ (p0 :: ps) (c :: rest) with
      | some t =>
        rw [splitOnL_cons_match hd]
        simp only
        rw [ih]
      | none =>
        have hne := splitOnL_ne_nil p0 ps rest
        cases hs : splitOnL p0 ps rest with
        | nil => exact absurd hs hne
        | cons w ws =>
          rw [splitOnL_cons_nomatch hd hs, ih, hs]

def replaceLF : Nat → Char → Str → Str → Str → Str
  | 0, p0, ps, rep, l => replaceL p0 ps rep l
  | fuel + 1, p0, ps, rep, l =>
    match l with
    | [] => []
    | c :: rest =>
      match dropPrefixQ (p0 :: ps) (c :: rest) with
      | some t => rep ++ replaceLF fuel p0 ps rep t
      | none => c :: replaceLF fuel p0 ps rep rest

theorem replaceLF_eq :
    ∀ (fuel : Nat) (p0 : Char) (ps rep l : Str),
      replaceLF fuel p0 ps rep l = replaceL p0 ps rep l := by
  intro fuel
  induction fuel with
  | zero => intro p0 ps rep l; rfl
  | succ f ih =>
    intro p0 ps rep l
    match l with
    | [] => rw [replaceL_nil]; rfl
    | c :: rest =>
      rw [replaceLF]
      cases hd : dropPrefixQ (p0 :: ps) (c :: rest) with
      | some t =>
        rw [replaceL_cons_match hd]
        simp only
        rw [ih]
      | none => rw [replaceL_cons_nomatch hd, ih]

def htmlUnescapeF : Nat → Str → Str
  | 0, l => htmlUnescape l
  | fuel + 1, l =>
    match l with
    | [] => []
    | c :: rest =>
      if c = '&' then
        match tryCharref rest with
        | some (rep, rest') => rep ++ htmlUnescapeF fuel rest'
        | none => '&' :: htmlUnescapeF fuel rest
      else c :: htmlUnescapeF fuel rest

theorem htmlUnescapeF_eq :
    ∀ (fuel : Nat) (l : Str), htmlUnescapeF fuel l = htmlUnescape l := by
  intro fuel
  induction fuel with
  | zero => intro l; rfl
  | succ f ih =>
    intro l
    match l with
    | [] => rw [htmlUnescape_nil]; rfl
    | c :: rest =>
      rw [htmlUnescapeF]
      by_cases hc : c = '&'
      · subst hc
        rw [if_pos rfl]
        cases ht : tryCharref rest with
        | some pr =>
          obtain ⟨rep, rest'⟩ := pr
          rw [htmlUnescape_amp_match ht]
          simp only
          rw [ih]
        | none =>
          rw [htmlUnescape_amp_none ht, ih]
      · rw [if_neg hc, htmlUnescape_cons_ne hc, ih]

def get_field_dataF (fuel : Nat) (field_content : Str) : Option Py :=
  let subfields := (splitOnLF fuel '^' [] field_content).map
    (replaceLF fuel '[' (strL "PRESERVECIRC]") ['^'])
  match subfields with
  | [] => none
  | [single] => some (.s single)
  | first :: rest =>
    match rest.mapM (fun subf =>
      match subf with
      | [] => none
      | k :: v => some (([k] : Str), Py.s v)) with
    | none => none
    | some pairs =>
      some (.d (pairs.foldl (fun d kv => pyDictUpdate d kv.1 kv.2)
        (if first ≠ [] then [(strL "_", .s first)] else [])))

theorem get_field_dataF_eq (fuel : Nat) (s : Str) :
    get_field_dataF fuel s = get_field_data s := by
  unfold get_field_dataF get_field_data
  rw [show splitOnLF fuel '^' [] s = splitOnL '^' [] s from splitOnLF_eq _ _ _ _]
  rw [show replaceLF fuel '[' (strL "PRESERVECIRC]") ['^']
    = replaceL '[' (strL "PRESERVECIRC]") ['^'] from
    funext (fun x => replaceLF_eq _ _ _ _ _)]

def parseFieldF (fuel : Nat) (field : Str) : Option (Str × Py) :=
  match parseNatDigits (field.take 3) with
  | none => none
  | some t =>
    match get_field_dataF fuel (stripWs (field.drop 4)) with
    | none => none
    | some fd => some (natToStr t, fd)

theorem parseFieldF_eq (fuel : Nat) (s : Str) :
    parseFieldF fuel s = parseField s := by
  unfold parseFieldF parseField
  rw [get_field_dataF_eq]

def get_record_dataF (fuel : Nat) (record : Str) : Option Py :=
  match ((splitOnLF fuel '\n' (strL "!v") record).drop 1).mapM
      (parseFieldF fuel) with
  | none => none
  | some pairs =>
    some (Py.d ((pairs.foldl (fun d kv => dictAppendOcc d kv.1 kv.2) []).map
      (fun te => (te.1, match te.2 with | [o] => o | os => Py.l os))))

theorem get_record_dataF_eq (fuel : Nat) (s : Str) :
    get_record_dataF fuel s = get_record_data s := by
  unfold get_record_dataF get_record_data
  rw [show splitOnLF fuel '\n' (strL "!v") s = splitOnL '\n' (strL "!v") s
    from splitOnLF_eq _ _ _ _]
  rw [show parseFieldF fuel = parseField from funext (parseFieldF_eq fuel)]

def read_contentF (fuel : Nat) (iso_content : Str) : Option (List Py) :=
  (splitOnLF fuel '!' (strL "ID ")
    (replaceLF fuel '\\' ['^'] PRESERVECIRC
      (htmlUnescapeF fuel iso_content))).drop 1
    |>.mapM (get_record_dataF fuel)

theorem read_contentF_eq (fuel : Nat) (s : Str) :
    read_contentF fuel s = read_content s := by
  unfold read_contentF read_content
  rw [htmlUnescapeF_eq]
  rw [show replaceLF fuel '\\' ['^'] PRESERVECIRC = replaceL '\\' ['^']
    PRESERVECIRC from funext (fun x => replaceLF_eq _ _ _ _ _)]
  rw [show splitOnLF fuel '!' (strL "ID ") = splitOnL '!' (strL "ID ")
    from funext (fun x => splitOnLF_eq _ _ _ _)]
  rw [show get_record_dataF fuel = get_record_data
    from funext (get_record_dataF_eq fuel)]

def fmtStrF (fuel : Nat) (content : Str) : Str :=
  replaceLF fuel '^' [] PRESERVECIRC
    (stripWs (remove_break_lines_characters content))

theorem fmtStrF_eq (fuel : Nat) : fmtStrF fuel = fmtStr :=
  funext (fun c => replaceLF_eq _ _ _ _ _)

def format_valueF (fuel : Nat) : Py → Except SerErr Str
  | .s v => .ok (fmtStrF fuel v)
  | .l vs =>
    match asStrs vs with
    | some ss => .ok (fmtStrF fuel (joinSepL (strL ", ") ss))
    | none => .error .typeErr
  | .d kvs => .ok (fmtStrF fuel (joinSepL (strL ", ") (kvs.map (fun kv => kv.1))))

theorem format_valueF_eq (fuel : Nat) : format_valueF fuel = format_value := by
  funext p
  cases p <;> unfold format_valueF format_value <;> rw [fmtStrF_eq]

def format_subfieldF (fuel : Nat) (subf : Str) (subf_value : Py) :
    Except SerErr Str :=
  if truthy subf_value && isSubstrOf subf CODES then
    (format_valueF fuel subf_value).map (fun fv => '^' :: (subf ++ fv))
  else .ok []

theorem format_subfieldF_eq (fuel : Nat) :
    format_subfieldF fuel = format_subfield := by
  funext s v
  unfold format_subfieldF format_subfield
  rw [format_valueF_eq]

def format_subfieldsF (fuel : Nat) (kvs : List (Str × Py)) :
    Except SerErr Str :=
  match format_valueF fuel (match pyLookup (strL "_") kvs with
    | some v => if truthy v then v else .s []
    | none => .s []) with
  | .error e => .error e
  | .ok first =>
    match kvs.mapM (fun kv => format_subfieldF fuel kv.1 kv.2) with
    | .error e => .error e
    | .ok values => .ok (first ++ joinL (insSort lexLe values))

theorem format_subfieldsF_eq (fuel : Nat) :
    format_subfieldsF fuel = format_subfields := by
  funext kvs
  unfold format_subfieldsF format_subfields
  rw [format_valueF_eq, format_subfieldF_eq]

def tag_occF (fuel : Nat) (tag : Str) (data : Py) : Except SerErr Str :=
  if truthy data then
    match data with
    | .s v =>
      (match format_subfieldsF fuel [(strL "_", .s v)] with
       | .error e => .error e
       | .ok subf => tag_content tag subf)
    | .d kvs =>
      (match format_subfieldsF fuel kvs with
       | .error e => .error e
       | .ok subf => tag_content tag subf)
    | .l _ => .error .typeErr

  else .ok []

theorem tag_occF_eq (fuel : Nat) : tag_occF fuel = tag_occ := by
  funext tag data
  unfold tag_occF tag_occ
  rw [format_subfieldsF_eq]

def tag_dataF (fuel : Nat) (tag : Str) (data : Py) :
    Except SerErr (List Str) :=
  if truthy data then
    (match data with | .l vs => vs | x => [x]).mapM (tag_occF fuel tag)
  else .ok []

theorem tag_dataF_eq (fuel : Nat) : tag_dataF fuel = tag_data := by
  funext tag data
  unfold tag_dataF tag_data
  rw [show tag_occF fuel tag = tag_occ tag from by rw [tag_occF_eq]]

def format_recordF (fuel : Nat) (record : Py) : Except SerErr Str :=
  if truthy record then
    match record with
    | .d kvs =>
      (match kvs.mapM (fun kv =>
        match parseNatDigits kv.1 with
        | some n => Except.ok n
        | none => Except.error SerErr.valueErr) with
      | .error e => .error e
      | .ok ints =>
        match (insSortN ints).mapM (fun t =>
          match pyLookup (natToStr t) kvs with
          | some v => tag_dataF fuel (natToStr t) v
          | none => Except.error SerErr.keyErr) with
        | .error e => .error e
        | .ok items => .ok (joinL items.flatten))
    | _ => .error .attrErr
  else .ok []

theorem format_recordF_eq (fuel : Nat) : format_recordF fuel = format_record := by
  funext record
  unfold format_recordF format_record
  rw [tag_dataF_eq]

def formatFileAuxF (fuel : Nat) : Nat → List Py → Except SerErr (List Str)
  | _, [] => .ok []
  | i, r :: rs =>
    match format_id i with
    | .error e => .error e
    | .ok idp =>
      match format_recordF fuel r with
      | .error e => .error e
      | .ok rp =>
        match formatFileAuxF fuel (i + 1) rs with
        | .error e => .error e
        | .ok rest => .ok ((idp ++ rp) :: rest)

theorem formatFileAuxF_eq (fuel : Nat) :
    ∀ (rs : List Py) (i : Nat), formatFileAuxF fuel i rs = formatFileAux i rs := by
  intro rs
  induction rs with
  | nil => intro i; rfl
  | cons r rs ih =>
    intro i
    unfold formatFileAuxF formatFileAux
    rw [format_recordF_eq, ih]

def format_fileF (fuel : Nat) (records : List Py) : Except SerErr Str :=
  (formatFileAuxF fuel 1 records).map joinL

theorem format_fileF_eq (fuel : Nat) (records : List Py) :
    format_fileF fuel records = format_file records := by
  unfold format_fileF format_file
  rw [formatFileAuxF_eq]

def write_contentF (fuel : Nat) (records : List Py) : Except SerErr Str :=
  match format_fileF fuel records with
  | .error e => .error e
  | .ok content =>
    .ok (isoDetour (replaceLF fuel '[' (strL "PRESERVECIRC]") (strL "\\^")
      (htmlUnescapeF fuel content)))

theorem write_contentF_eq (fuel : Nat) (records : List Py) :
    write_contentF fuel records = write_content records := by
  unfold write_contentF write_content
  rw [format_fileF_eq]
  rw [show replaceLF fuel '[' (strL "PRESERVECIRC]") (strL "\\^")
    = replaceL '[' (strL "PRESERVECIRC]") (strL "\\^") from
    funext (fun x => replaceLF_eq _ _ _ _ _)]
  rw [show htmlUnescapeF fuel = htmlUnescape from
    funext (htmlUnescapeF_eq fuel)]

/-! ## Serializer facts for the range, ordering and empty-drop claims -/

theorem tag_content_bad {t : Nat} (ht : ¬(1 ≤ t ∧ t ≤ 999)) (value : Str) :
    tag_content (natToStr t) value = .error SerErr.valueErr := by
  unfold tag_content
  rw [parseNatDigits_natToStr]
  exact if_neg (show ¬(0 < t ∧ t ≤ 999) from by omega)

theorem format_subfield_underscore_s (v : Str) :
    format_subfield (strL "_") (Py.s v) = Except.ok [] := by
  unfold format_subfield
  rw [isSubstrOf_underscore, Bool.and_false]
  rw [if_neg (by simp)]

theorem format_subfields_underscore_ok (v : Str) (hv : v ≠ []) :
    format_subfields [(strL "_", Py.s v)] = .ok (fmtStr v) := by
  unfold format_subfields
  rw [show pyLookup (strL "_") [(strL "_", Py.s v)] = some (Py.s v) from rfl]
  simp only
  rw [if_pos (truthy_s_of_ne hv)]
  rw [show format_value (Py.s v) = Except.ok (fmtStr v) from rfl]
  simp only
  rw [List.mapM_cons]
  rw [format_subfield_underscore_s]
  rw [show ([] : List (Str × Py)).mapM (fun kv => format_subfield kv.1 kv.2)
    = Except.ok [] from rfl]
  show Except.ok (fmtStr v ++ joinL (insSort lexLe [[]])) = Except.ok (fmtStr v)
  rw [show joinL (insSort lexLe [[]]) = [] from rfl, List.append_nil]

theorem tag_occ_bad {t : Nat} {v : Str} (ht : ¬(1 ≤ t ∧ t ≤ 999))
    (hv : v ≠ []) :
    tag_occ (natToStr t) (Py.s v) = .error SerErr.valueErr := by
  unfold tag_occ
  rw [if_pos (truthy_s_of_ne hv)]
  simp only
  rw [format_subfields_underscore_ok v hv]
  simp only
  exact tag_content_bad ht _

theorem format_record_bad_tag {t : Nat} {v : Str}
    (ht : ¬(1 ≤ t ∧ t ≤ 999)) (hv : v ≠ []) :
    format_record (Py.d [(natToStr t, Py.s v)]) = .error SerErr.valueErr := by
  unfold format_record
  rw [if_pos (by simp [truthy])]
  simp only
  rw [show [(natToStr t, Py.s v)].mapM (fun kv =>
      match parseNatDigits kv.1 with
      | some n => Except.ok n
      | none => Except.error SerErr.valueErr) = Except.ok [t] from by
    rw [List.mapM_cons]
    simp only [parseNatDigits_natToStr]
    rfl]
  simp only
  rw [show insSortN [t] = [t] from rfl]
  rw [List.mapM_cons]
  rw [show pyLookup (natToStr t) [(natToStr t, Py.s v)] = some (Py.s v)
    from by simp [pyLookup]]
  simp only
  rw [show tag_data (natToStr t) (Py.s v)
      = .error SerErr.valueErr from by
    unfold tag_data
    rw [if_pos (truthy_s_of_ne hv)]
    simp only
    rw [List.mapM_cons, tag_occ_bad ht hv]
    rfl]
  rfl

theorem formatFileAux_overflow :
    ∀ {records : List Py} {i : Nat}, (∀ r ∈ records, recSafe r) →
      1 ≤ i → i ≤ 1000000 → 1000000 < i + records.length →
      formatFileAux i records = .error (SerErr.indexErr 1000000) := by
  intro records
  induction records with
  | nil =>
    intro i _ _ h2 h3
    simp only [List.length_nil] at h3
    omega
  | cons r rs ih =>
    intro i hsafe h1 h2 h3
    by_cases hi : i ≤ 999999
    · obtain ⟨kvs, hkvs, -, -⟩ := hsafe r (by simp)
      subst hkvs
      obtain ⟨entries, hperm, hprops, hfmt⟩ :=
        format_record_safe (hsafe (Py.d kvs) (by simp))
      unfold formatFileAux
      rw [format_id_ok h1 hi]
      simp only
      rw [hfmt]
      simp only
      rw [ih (fun r' hr' => hsafe r' (by simp [hr'])) (by omega) (by omega)
        (by simp only [List.length_cons] at h3; omega)]
    · have hieq : i = 1000000 := by omega
      subst hieq
      unfold formatFileAux
      rw [show format_id 1000000 = .error (SerErr.indexErr 1000000) from rfl]

/-! ## Ordering invariance of `format_subfields` -/

theorem pyLookup_perm {kvs kvs' : List (Str × Py)} (hperm : kvs.Perm kvs')
    (hnd : (kvs.map (fun kv => kv.1)).Nodup) (k : Str) :
    pyLookup k kvs = pyLookup k kvs' := by
  have hnd' : (kvs'.map (fun kv => kv.1)).Nodup :=
    ((hperm.map (fun kv => kv.1)).nodup_iff).mp hnd
  cases hlk : pyLookup k kvs with
  | some x =>
    rw [pyLookup_of_mem_nodup (hperm.mem_iff.mp (pyLookup_mem hlk)) hnd']
  | none =>
    cases hlk' : pyLookup k kvs' with
    | none => rfl
    | some y =>
      rw [pyLookup_of_mem_nodup (hperm.mem_iff.mpr (pyLookup_mem hlk')) hnd]
        at hlk
      cases hlk

theorem format_value_error {x : Py} {e : SerErr}
    (h : format_value x = .error e) : e = SerErr.typeErr := by
  match x, h with
  | .s v, h => simp [format_value] at h
  | .d kvs, h => simp [format_value] at h
  | .l vs, h =>
    rw [show format_value (Py.l vs) = (match asStrs vs with
      | some ss => Except.ok (fmtStr (joinSepL (strL ", ") ss))
      | none => Except.error SerErr.typeErr) from rfl] at h
    cases has : asStrs vs with
    | some ss =>
      rw [has] at h
      cases h
    | none =>
      rw [has] at h
      injection h with h'
      exact h'.symm

theorem format_subfield_error {a : Str} {b : Py} {e : SerErr}
    (h : format_subfield a b = .error e) : e = SerErr.typeErr := by
  unfold format_subfield at h
  split at h
  · cases hfv : format_value b with
    | error e' =>
      rw [hfv] at h
      injection h with h'
      subst h'
      exact format_value_error hfv
    | ok fv =>
      rw [hfv] at h
      cases h
  · cases h

/-- The token a subfield entry renders to (`[]` when dropped or on error). -/
def tokOf (kv : Str × Py) : Str :=
  match format_subfield kv.1 kv.2 with
  | .ok s => s
  | .error _ => []

theorem mapM_subfields_cases (kvs : List (Str × Py)) :
    (kvs.mapM (fun kv => format_subfield kv.1 kv.2) = .error SerErr.typeErr ∧
      ∃ kv ∈ kvs, format_subfield kv.1 kv.2 = .error SerErr.typeErr) ∨
    kvs.mapM (fun kv => format_subfield kv.1 kv.2) = .ok (kvs.map tokOf) ∧
      ∀ kv ∈ kvs, format_subfield kv.1 kv.2 = .ok (tokOf kv) := by
  induction kvs with
  | nil => right; exact ⟨rfl, by simp⟩
  | cons kv rest ih =>
    cases hf : format_subfield kv.1 kv.2 with
    | error e =>
      have he := format_subfield_error hf
      subst he
      left
      refine ⟨?_, kv, by simp, hf⟩
      rw [List.mapM_cons, hf]
      rfl
    | ok tok =>
      rcases ih with ⟨herr, kv', hkv', hf'⟩ | ⟨hok, hall⟩
      · left
        refine ⟨?_, kv', by simp [hkv'], hf'⟩
        rw [List.mapM_cons, hf, herr]
        rfl
      · right
        have htok : tokOf kv = tok := by
          unfold tokOf
          rw [hf]
        constructor
        · rw [List.mapM_cons, hf, hok, List.map_cons, htok]
          rfl
        · intro kv2 hkv2
          rcases List.mem_cons.mp hkv2 with rfl | hkv2'
          · rw [hf, htok]
          · exact hall kv2 hkv2'

theorem mapM_subfields_error_of_mem {kvs : List (Str × Py)} {kv : Str × Py}
    (hmem : kv ∈ kvs)
    (herr : format_subfield kv.1 kv.2 = .error SerErr.typeErr) :
    kvs.mapM (fun kv => format_subfield kv.1 kv.2)
      = .error SerErr.typeErr := by
  rcases mapM_subfields_cases kvs with ⟨h, -⟩ | ⟨-, hall⟩
  · exact h
  · rw [hall kv hmem] at herr
    cases herr

/-- `_format_subfields` is insensitive to the dict's insertion order (for
unique keys): the main value is found by key and the tokens are re-sorted. -/
theorem format_subfields_perm {kvs kvs' : List (Str × Py)}
    (hperm : kvs.Perm kvs')
    (hnd : (kvs.map (fun kv => kv.1)).Nodup) :
    format_subfields kvs = format_subfields kvs' := by
  unfold format_subfields
  rw [pyLookup_perm hperm hnd (strL "_")]
  rcases mapM_subfields_cases kvs with ⟨herr, kv, hkv, hf⟩ | ⟨hok, -⟩
  · rw [herr, mapM_subfields_error_of_mem (hperm.mem_iff.mp hkv) hf]
  · rcases mapM_subfields_cases kvs' with ⟨herr', kv', hkv', hf'⟩ | ⟨hok', -⟩
    · rw [mapM_subfields_error_of_mem (hperm.mem_iff.mpr hkv') hf'] at hok
      cases hok
    · rw [hok, hok']
      simp only
      rw [insSort_eq_of_perm (hperm.map tokOf)]

/-! ## Empty values and invalid subfields are dropped silently -/

theorem ordInsert_nil (l : List Str) : ordInsert lexLe [] l = [] :: l := by
  cases l <;> rfl

theorem except_bind_ok {α β : Type} (a : α) (f : α → Except SerErr β) :
    (Except.ok a >>= f) = f a := rfl

theorem format_subfield_invalid {k : Str} {v : Py}
    (h : isSubstrOf k CODES = false ∨ truthy v = false) :
    format_subfield k v = .ok [] := by
  unfold format_subfield
  rcases h with h | h <;> rw [if_neg (by simp [h])]

theorem format_subfield_valid {k v : Str}
    (h2 : isSubstrOf k CODES = true) (hv : v ≠ []) :
    format_subfield k (Py.s v) = .ok ('^' :: (k ++ fmtStr v)) := by
  unfold format_subfield
  rw [if_pos (by rw [truthy_s_of_ne hv, h2]; rfl)]
  rfl

/-- A subfield entry that renders to nothing does not change the output of
`_format_subfields` at all (its empty token sorts to the front and
disappears in the concatenation). -/
theorem format_subfields_drop {k : Str} {v : Py} {kvs : List (Str × Py)}
    (hk : k ≠ strL "_") (hf : format_subfield k v = .ok []) :
    format_subfields ((k, v) :: kvs) = format_subfields kvs := by
  unfold format_subfields
  rw [show pyLookup (strL "_") ((k, v) :: kvs) = pyLookup (strL "_") kvs from by
    show (if k = strL "_" then some v else pyLookup (strL "_") kvs)
      = pyLookup (strL "_") kvs
    rw [if_neg hk]]
  cases hfv : format_value (match pyLookup (strL "_") kvs with
    | some w => if truthy w then w else Py.s []
    | none => Py.s []) with
  | error e => rfl
  | ok first =>
    simp only
    rw [List.mapM_cons, hf, except_bind_ok]
    cases hm : kvs.mapM (fun kv => format_subfield kv.1 kv.2) with
    | error e => rfl
    | ok vs =>
      show Except.ok (first ++ joinL (insSort lexLe ([] :: vs)))
        = Except.ok (first ++ joinL (insSort lexLe vs))
      rw [show insSort lexLe ([] :: vs) = [] :: insSort lexLe vs from by
        unfold insSort
        rw [List.foldr_cons, ordInsert_nil]]
      rfl

theorem tag_occ_s_nil (tag : Str) : tag_occ tag (Py.s []) = .ok [] := rfl

theorem tag_data_s_nil (tag : Str) : tag_data tag (Py.s []) = .ok [] := rfl

theorem tag_data_l_nil (tag : Str) : tag_data tag (Py.l []) = .ok [] := rfl

theorem tag_data_d_nil (tag : Str) : tag_data tag (Py.d []) = .ok [] := rfl

/-- A subfield dict whose every value is the empty string renders to the
empty content string. -/
theorem format_subfields_empty {kvs : List (Str × Py)}
    (h : ∀ kv ∈ kvs, kv.2 = Py.s []) :
    format_subfields kvs = .ok [] := by
  unfold format_subfields
  have hmain : (match pyLookup (strL "_") kvs with
      | some w => if truthy w then w else Py.s []
      | none => Py.s []) = Py.s [] := by
    cases hlk : pyLookup (strL "_") kvs with
    | none => rfl
    | some w =>
      have hw : w = Py.s [] := h _ (pyLookup_mem hlk)
      subst hw
      rfl
  rw [hmain]
  rw [show format_value (Py.s []) = .ok (fmtStr []) from rfl, fmtStr_nil]
  simp only
  have hvals : kvs.mapM (fun kv => format_subfield kv.1 kv.2)
      = .ok (kvs.map (fun _ => [])) :=
    mapM_ok_of (fun kv hkv => by
      rw [h kv hkv]
      exact format_subfield_invalid (Or.inr rfl))
  rw [hvals]
  simp only
  have hjoin : joinL (insSort lexLe (kvs.map fun _ => [])) = [] := by
    rw [joinL_eq_nil_iff]
    intro x hx
    have hx' := (insSort_perm lexLe _).mem_iff.mp hx
    rcases List.mem_map.mp hx' with ⟨-, -, hx''⟩
    exact hx''.symm
  rw [hjoin]
  rfl

/-- An occurrence given as a non-empty subfield dict whose every value is
empty yields no `!v` line when the tag is in range. -/
theorem tag_occ_empty_dict {tag : Str} {t : Nat} {kvs : List (Str × Py)}
    (htag : parseNatDigits tag = some t) (h1 : 0 < t) (h2 : t ≤ 999)
    (h : ∀ kv ∈ kvs, kv.2 = Py.s []) (hne : kvs ≠ []) :
    tag_occ tag (Py.d kvs) = .ok [] := by
  unfold tag_occ
  rw [if_pos (show truthy (Py.d kvs) = true from by
    cases kvs with
    | nil => exact absurd rfl hne
    | cons a l => rfl)]
  simp only
  rw [format_subfields_empty h]
  simp only
  unfold tag_content
  rw [htag]
  simp only
  rw [if_pos ⟨h1, h2⟩]
  rfl

/-- A list of all-empty occurrence strings renders with no range check at
all: every element is dropped before `_tag_content` runs. -/
theorem tag_data_all_empty {tag : Str} {vs : List Py}
    (h : ∀ o ∈ vs, o = Py.s []) :
    tag_data tag (Py.l vs) = .ok (vs.map (fun _ => [])) := by
  unfold tag_data
  cases vs with
  | nil => rfl
  | cons o os =>
    rw [if_pos (show truthy (Py.l (o :: os)) = true from rfl)]
    simp only
    exact mapM_ok_of (fun o ho => by rw [h o ho]; rfl)

/-- `format_record` of a single-tag record whose field is the empty string
succeeds with empty output, whatever the tag's numeric value. -/
theorem format_record_single_empty (t : Nat) :
    format_record (Py.d [(natToStr t, Py.s [])]) = .ok [] := by
  unfold format_record
  rw [if_pos (show truthy (Py.d [(natToStr t, Py.s [])]) = true from rfl)]
  simp only
  rw [show [(natToStr t, Py.s [])].mapM (fun kv =>
      match parseNatDigits kv.1 with
      | some n => Except.ok n
      | none => Except.error SerErr.valueErr) = Except.ok [t] from by
    rw [List.mapM_cons]
    simp only [parseNatDigits_natToStr]
    rfl]
  simp only
  rw [show insSortN [t] = [t] from rfl]
  rw [List.mapM_cons]
  rw [show pyLookup (natToStr t) [(natToStr t, Py.s [])] = some (Py.s [])
    from by simp [pyLookup]]
  simp only
  rw [show tag_data (natToStr t) (Py.s []) = Except.ok ([] : List Str)
    from rfl]
  rfl

set_option maxRecDepth 8000 in
/-- `write` of one record mapping any tag string to the empty value
succeeds, emitting only the ID line. -/
theorem write_single_empty (t : Nat) :
    write_content [Py.d [(natToStr t, Py.s [])]]
      = .ok (strL "!ID 000001\n") := by
  have hff : format_file [Py.d [(natToStr t, Py.s [])]]
      = .ok (strL "!ID 000001\n") := by
    unfold format_file formatFileAux
    rw [show format_id 1 = .ok (strL "!ID " ++ zfill 6 (natToStr 1) ++ ['\n'])
      from rfl]
    simp only
    rw [format_record_single_empty]
    simp only
    rfl
  unfold write_content
  rw [hff]
  simp only
  rw [show htmlUnescape (strL "!ID 000001\n") = strL "!ID 000001\n" from by
    rw [← htmlUnescapeF_eq 32]
    rfl]
  rw [show replaceL '[' (strL "PRESERVECIRC]") (strL "\\^")
      (strL "!ID 000001\n") = strL "!ID 000001\n" from by
    rw [← replaceLF_eq 32]
    rfl]
  rfl

/-! ## Shape of `_format_subfields` output -/

/-- `_format_subfields` either raises `TypeError` or emits the main value
followed by the rendered subfield tokens in sorted order. -/
theorem format_subfields_shape (kvs : List (Str × Py)) :
    format_subfields kvs = .error SerErr.typeErr ∨
    ∃ first, format_subfields kvs
      = .ok (first ++ joinL (insSort lexLe (kvs.map tokOf))) := by
  unfold format_subfields
  cases hlk : pyLookup (strL "_") kvs with
  | none =>
    simp only
    rw [show format_value (Py.s []) = Except.ok (fmtStr []) from rfl]
    simp only
    rcases mapM_subfields_cases kvs with ⟨herr, -⟩ | ⟨hok, -⟩
    · rw [herr]
      exact Or.inl rfl
    · rw [hok]
      exact Or.inr ⟨fmtStr [], rfl⟩
  | some w =>
    simp only
    by_cases ht : truthy w = true
    · rw [if_pos ht]
      cases hfv : format_value w with
      | error e =>
        have he := format_value_error hfv
        subst he
        exact Or.inl rfl
      | ok first =>
        simp only
        rcases mapM_subfields_cases kvs with ⟨herr, -⟩ | ⟨hok, -⟩
        · rw [herr]
          exact Or.inl rfl
        · rw [hok]
          exact Or.inr ⟨first, rfl⟩
    · rw [if_neg ht]
      rw [show format_value (Py.s []) = Except.ok (fmtStr []) from rfl]
      simp only
      rcases mapM_subfields_cases kvs with ⟨herr, -⟩ | ⟨hok, -⟩
      · rw [herr]
        exact Or.inl rfl
      · rw [hok]
        exact Or.inr ⟨fmtStr [], rfl⟩

/-! ## The claims -/

set_option maxRecDepth 8000 in
/-- Claim C1, counterexample to the literal statement: the record
`{"1": "a  b"}` has a valid tag and a non-empty ASCII value, yet the
serializer collapses the double space and the round trip returns
`{"1": "a b"}`, not the original record. -/
theorem C1_counterexample :
    (∀ c ∈ strL "a  b", c.val.toNat < 128) ∧ strL "a  b" ≠ [] ∧
    ∃ wire out,
      write_content [Py.d [(natToStr 1, Py.s (strL "a  b"))]] = .ok wire ∧
      read_content wire = some out ∧
      pyListEq out [Py.d [(natToStr 1, Py.s (strL "a  b"))]] = false := by
  refine ⟨by decide, by decide, strL "!ID 000001\n!v001!a b\n",
    [Py.d [(strL "1", Py.s (strL "a b"))]], ?_, ?_, by decide⟩
  · rw [← write_contentF_eq 64]
    rfl
  · rw [← read_contentF_eq 64]
    rfl

/-- Claim C1 (amended): for safe input — valid non-repeating tags and
non-empty, whitespace-normal values free of `&`, `\`, `[`, stray `!ID `
markers and forbidden codepoints — parse after serialize returns the
records up to the parser's scalar collapse of one-element occurrence
lists (`canonRec`). -/
theorem C1_roundtrip {records : List Py} (h : inputSafe records) :
    ∃ wire out, write_content records = .ok wire ∧
      read_content wire = some out ∧
      pyListEq out (records.map canonRec) = true :=
  write_read_roundtrip h

/-- Claim C1 witness: the single safe record `{"1": "ab"}` round-trips. -/
theorem C1_witness :
    ∃ wire out,
      write_content [Py.d [(natToStr 1, Py.s (strL "ab"))]] = .ok wire ∧
      read_content wire = some out ∧
      pyListEq out ([Py.d [(natToStr 1, Py.s (strL "ab"))]].map canonRec)
        = true :=
  C1_roundtrip ⟨by decide, fun r hr => by
    rw [show r = Py.d [(natToStr 1, Py.s (strL "ab"))] from by simpa using hr]
    refine ⟨[(natToStr 1, Py.s (strL "ab"))], rfl, by decide, fun kv hkv => ?_⟩
    rw [show kv = (natToStr 1, Py.s (strL "ab")) from by simpa using hkv]
    refine ⟨⟨1, by decide, by decide, rfl⟩, ?_⟩
    show mainSafe (strL "ab") = true
    decide⟩

set_option maxRecDepth 8000 in
/-- Claim C2, counterexample to the literal statement: the value `"a  ^"`
contains a literal circumflex; the circumflex itself is escaped as `\^`
and survives, but the whitespace collapse still breaks
`parse(serialize(r)) == r`, so the claim's unconditional equality for
every circumflex-carrying record is false. -/
theorem C2_counterexample :
    ('^' ∈ strL "a  ^") ∧
    ∃ wire out,
      write_content [Py.d [(natToStr 1, Py.s (strL "a  ^"))]] = .ok wire ∧
      read_content wire = some out ∧
      pyListEq out [Py.d [(natToStr 1, Py.s (strL "a  ^"))]] = false := by
  refine ⟨by decide, strL "!ID 000001\n!v001!a \\^\n",
    [Py.d [(strL "1", Py.s (strL "a ^"))]], ?_, ?_, by decide⟩
  · rw [← write_contentF_eq 64]
    rfl
  · rw [← read_contentF_eq 64]
    rfl

/-- Claim C2 (amended): for safe input, records whose values contain a
literal `^` round-trip like any other safe record: the circumflex is
written as the placeholder, emitted as `\^`, and restored by the parser,
never read as a subfield delimiter. -/
theorem C2_circumflex {records : List Py} (h : inputSafe records)
    (hcirc : ∃ r ∈ records, ∃ kvs, r = Py.d kvs ∧ ∃ kv ∈ kvs,
      ∃ o ∈ fieldOccs kv.2, ∃ v, o = Py.s v ∧ '^' ∈ v) :
    ∃ wire out, write_content records = .ok wire ∧
      read_content wire = some out ∧
      pyListEq out (records.map canonRec) = true :=
  write_read_roundtrip h

/-- Claim C2 witness: the record `{"1": "a^b"}` round-trips with its
circumflex intact. -/
theorem C2_witness :
    ∃ wire out,
      write_content [Py.d [(natToStr 1, Py.s (strL "a^b"))]] = .ok wire ∧
      read_content wire = some out ∧
      pyListEq out ([Py.d [(natToStr 1, Py.s (strL "a^b"))]].map canonRec)
        = true :=
  C2_circumflex
    ⟨by decide, fun r hr => by
      rw [show r = Py.d [(natToStr 1, Py.s (strL "a^b"))] from by simpa using hr]
      refine ⟨[(natToStr 1, Py.s (strL "a^b"))], rfl, by decide,
        fun kv hkv => ?_⟩
      rw [show kv = (natToStr 1, Py.s (strL "a^b")) from by simpa using hkv]
      refine ⟨⟨1, by decide, by decide, rfl⟩, ?_⟩
      show mainSafe (strL "a^b") = true
      decide⟩
    ⟨Py.d [(natToStr 1, Py.s (strL "a^b"))],
      show Py.d [(natToStr 1, Py.s (strL "a^b"))]
          ∈ [Py.d [(natToStr 1, Py.s (strL "a^b"))]]
        from List.mem_singleton.mpr rfl,
      [(natToStr 1, Py.s (strL "a^b"))], rfl,
      (natToStr 1, Py.s (strL "a^b")),
      show (natToStr 1, Py.s (strL "a^b"))
          ∈ [(natToStr 1, Py.s (strL "a^b"))]
        from List.mem_singleton.mpr rfl,
      Py.s (strL "a^b"),
      show Py.s (strL "a^b") ∈ [Py.s (strL "a^b")]
        from List.mem_singleton.mpr rfl,
      strL "a^b", rfl, by decide⟩

set_option maxRecDepth 8000 in
/-- Claim C3, counterexample to the literal statement: the character
`U+FDD0` (64976) is outside iso-8859-1, so it is written as `&#64976;`,
but Python's `html.unescape` drops this noncharacter reference entirely,
so the value `"a\uFDD0"` comes back as `"a"`: not every non-Latin-1
character round-trips. -/
theorem C3_counterexample :
    255 < (Char.ofNat 64976).val.toNat ∧
    ∃ wire out,
      write_content [Py.d [(natToStr 1, Py.s ['a', Char.ofNat 64976])]]
        = .ok wire ∧
      read_content wire = some out ∧
      pyListEq out [Py.d [(natToStr 1, Py.s ['a', Char.ofNat 64976])]]
        = false := by
  refine ⟨by decide, strL "!ID 000001\n!v001!a&#64976;\n",
    [Py.d [(strL "1", Py.s ['a'])]], ?_, ?_, by decide⟩
  · rw [← write_contentF_eq 128]
    rfl
  · rw [← read_contentF_eq 128]
    rfl

/-- Claim C3 (amended): for safe input — which admits any codepoint above
255 except the references `html.unescape` rewrites or drops
(`invalidCodepoint`) — serialization never fails on the encoding step
(the numeric-reference detour is total) and such values round-trip. -/
theorem C3_unicode {records : List Py} (h : inputSafe records)
    (hbig : ∃ r ∈ records, ∃ kvs, r = Py.d kvs ∧ ∃ kv ∈ kvs,
      ∃ o ∈ fieldOccs kv.2, ∃ v, o = Py.s v ∧ ∃ c ∈ v, 255 < c.val.toNat) :
    ∃ wire out, write_content records = .ok wire ∧
      read_content wire = some out ∧
      pyListEq out (records.map canonRec) = true :=
  write_read_roundtrip h

/-- Claim C3 witness: the record `{"1": "aΩ"}` (Ω = U+03A9, outside
iso-8859-1) serializes without error and round-trips. -/
theorem C3_witness :
    ∃ wire out,
      write_content [Py.d [(natToStr 1, Py.s (strL "aΩ"))]] = .ok wire ∧
      read_content wire = some out ∧
      pyListEq out ([Py.d [(natToStr 1, Py.s (strL "aΩ"))]].map canonRec)
        = true :=
  C3_unicode
    ⟨by decide, fun r hr => by
      rw [show r = Py.d [(natToStr 1, Py.s (strL "aΩ"))] from by simpa using hr]
      refine ⟨[(natToStr 1, Py.s (strL "aΩ"))], rfl, by decide,
        fun kv hkv => ?_⟩
      rw [show kv = (natToStr 1, Py.s (strL "aΩ")) from by simpa using hkv]
      refine ⟨⟨1, by decide, by decide, rfl⟩, ?_⟩
      show mainSafe (strL "aΩ") = true
      decide⟩
    ⟨Py.d [(natToStr 1, Py.s (strL "aΩ"))],
      show Py.d [(natToStr 1, Py.s (strL "aΩ"))]
          ∈ [Py.d [(natToStr 1, Py.s (strL "aΩ"))]]
        from List.mem_singleton.mpr rfl,
      [(natToStr 1, Py.s (strL "aΩ"))], rfl,
      (natToStr 1, Py.s (strL "aΩ")),
      show (natToStr 1, Py.s (strL "aΩ"))
          ∈ [(natToStr 1, Py.s (strL "aΩ"))]
        from List.mem_singleton.mpr rfl,
      Py.s (strL "aΩ"),
      show Py.s (strL "aΩ") ∈ [Py.s (strL "aΩ")]
        from List.mem_singleton.mpr rfl,
      strL "aΩ", rfl, 'Ω', by decide, by decide⟩

/-- Claim C4: serializing a 1000000th record fails with the index
`RangeError` and serializing a tag outside `1..999` with a non-empty
value fails with the tag `RangeError`; in both cases `write` returns the
error and produces no output text at all. -/
theorem C4_range_error {records : List Py} {t : Nat} {v : Str}
    (hlen : records.length = 1000000) (hsafe : ∀ r ∈ records, recSafe r)
    (ht : ¬(1 ≤ t ∧ t ≤ 999)) (hv : v ≠ []) :
    write_content records = .error (SerErr.indexErr 1000000) ∧
    write_content [Py.d [(natToStr t, Py.s v)]] = .error SerErr.valueErr := by
  constructor
  · unfold write_content
    rw [show format_file records = .error (SerErr.indexErr 1000000) from by
      unfold format_file
      rw [formatFileAux_overflow hsafe (by omega) (by omega) (by omega)]
      rfl]
  · unfold write_content
    rw [show format_file [Py.d [(natToStr t, Py.s v)]]
        = .error SerErr.valueErr from by
      unfold format_file formatFileAux
      rw [show format_id 1
          = .ok (strL "!ID " ++ zfill 6 (natToStr 1) ++ ['\n']) from rfl]
      simp only
      rw [format_record_bad_tag ht hv]
      rfl]

/-- Claim C4 witness: one million empty records overflow the index range,
and the single record `{"1000": "x"}` trips the tag range check. -/
theorem C4_witness :
    write_content (List.replicate 1000000 (Py.d []))
      = .error (SerErr.indexErr 1000000) ∧
    write_content [Py.d [(natToStr 1000, Py.s ['x'])]]
      = .error SerErr.valueErr :=
  C4_range_error (List.length_replicate 1000000 (Py.d []))
    (fun r hr => by
      rw [List.eq_of_mem_replicate hr]
      exact ⟨[], rfl, List.nodup_nil,
        fun kv hkv => absurd hkv (List.not_mem_nil kv)⟩)
    (by omega) (by decide)

set_option maxRecDepth 8000 in
/-- Claim C5: subfields are ordered by lexicographic comparison of their
fully rendered `^code+value` tokens: the output is insertion-order
independent, always `first ++` the sorted token list (a sorted
permutation of the rendered tokens), and the two reference examples
serialize as `^a1^b2` and `^a9^b1`. -/
theorem C5_subfield_order :
    (∀ (kvs kvs' : List (Str × Py)), kvs.Perm kvs' →
      (kvs.map (fun kv => kv.1)).Nodup →
      format_subfields kvs = format_subfields kvs') ∧
    (∀ kvs : List (Str × Py),
      format_subfields kvs = .error SerErr.typeErr ∨
      ∃ first, format_subfields kvs
        = .ok (first ++ joinL (insSort lexLe (kvs.map tokOf)))) ∧
    (∀ toks : List Str, (insSort lexLe toks).Perm toks ∧
      (insSort lexLe toks).Pairwise (fun a b => lexLe a b = true)) ∧
    format_subfields [(strL "b", Py.s (strL "2")), (strL "a", Py.s (strL "1"))]
      = .ok (strL "^a1^b2") ∧
    format_subfields [(strL "a", Py.s (strL "9")), (strL "b", Py.s (strL "1"))]
      = .ok (strL "^a9^b1") := by
  refine ⟨fun kvs kvs' hperm hnd => format_subfields_perm hperm hnd,
    format_subfields_shape,
    fun toks => ⟨insSort_perm lexLe toks, insSort_sorted toks⟩, ?_, ?_⟩
  · rw [← format_subfieldsF_eq 32]
    rfl
  · rw [← format_subfieldsF_eq 32]
    rfl

set_option maxRecDepth 8000 in
/-- Claim C6, counterexample to the literal statement: for the record
`{"1": "a&#94;b"}` (whose value carries the entity reference `&#94;`),
the post-assembly unescape turns `&#94;` into a literal `^` which the
parser then reads as a subfield delimiter: the record comes back as
`{"1": {"_": "a", "b": ""}}`. -/
theorem C6_counterexample :
    ∃ wire out,
      write_content [Py.d [(natToStr 1, Py.s (strL "a&#94;b"))]] = .ok wire ∧
      read_content wire = some out ∧
      out = [Py.d [(strL "1",
        Py.d [(strL "_", Py.s (strL "a")), (strL "b", Py.s [])])]] ∧
      pyListEq out [Py.d [(natToStr 1, Py.s (strL "a&#94;b"))]] = false := by
  refine ⟨strL "!ID 000001\n!v001!a^b\n",
    [Py.d [(strL "1",
      Py.d [(strL "_", Py.s (strL "a")), (strL "b", Py.s [])])]],
    ?_, ?_, rfl, by decide⟩
  · rw [← write_contentF_eq 64]
    rfl
  · rw [← read_contentF_eq 64]
    rfl

/-- Claim C6 (amended): for safe input (values free of `&`, so the
assembled stream contains no entity reference at all), the post-assembly
unescape is the identity on the assembled content — it can introduce no
delimiter — and the stream round-trips. -/
theorem C6_unescape_safe {records : List Py} (h : inputSafe records) :
    (∃ content, format_file records = .ok content ∧
      htmlUnescape content = content) ∧
    ∃ wire out, write_content records = .ok wire ∧
      read_content wire = some out ∧
      pyListEq out (records.map canonRec) = true := by
  constructor
  · obtain ⟨strs, hff, hspec⟩ := format_file_safe h
    obtain ⟨atoms, hat, hatok⟩ := fileSpec_atoms hspec
    refine ⟨joinL strs, hff, ?_⟩
    rw [hat]
    exact htmlUnescape_no_amp (atomsP_no_amp hatok)
  · exact write_read_roundtrip h

/-- Claim C6 witness: the safe record `{"1": "xy"}` assembles to a stream
the unescape pass leaves unchanged, and it round-trips. -/
theorem C6_witness :
    (∃ content, format_file [Py.d [(natToStr 1, Py.s (strL "xy"))]]
        = .ok content ∧ htmlUnescape content = content) ∧
    ∃ wire out,
      write_content [Py.d [(natToStr 1, Py.s (strL "xy"))]] = .ok wire ∧
      read_content wire = some out ∧
      pyListEq out ([Py.d [(natToStr 1, Py.s (strL "xy"))]].map canonRec)
        = true :=
  C6_unescape_safe ⟨by decide, fun r hr => by
    rw [show r = Py.d [(natToStr 1, Py.s (strL "xy"))] from by simpa using hr]
    refine ⟨[(natToStr 1, Py.s (strL "xy"))], rfl, by decide,
      fun kv hkv => ?_⟩
    rw [show kv = (natToStr 1, Py.s (strL "xy")) from by simpa using hkv]
    refine ⟨⟨1, by decide, by decide, rfl⟩, ?_⟩
    show mainSafe (strL "xy") = true
    decide⟩

/-- Claim C7: parsing a serialized record segment stores each tag's
occurrences through `collapseOccs`: one occurrence is stored as the
occurrence itself (a scalar), two or more as the list of occurrences, so
the repeatable/non-repeatable distinction collapses to the number of
occurrences actually found. -/
theorem C7_scalar_collapse {i : Nat} {entries : List (Str × Py)}
    (hnde : (entries.map (fun kv => kv.1)).Nodup)
    (hprops : ∀ kv ∈ entries, (∃ t, 1 ≤ t ∧ t ≤ 999 ∧ kv.1 = natToStr t) ∧
      fieldSafe kv.2) :
    get_record_data (zfill 6 (natToStr i) ++ '\n' ::
        joinL (entries.map entryLines))
      = some (Py.d (entries.map (fun kv =>
          (kv.1, collapseOccs ((fieldOccs kv.2).map parsedOcc))))) ∧
    (∀ o : Py, collapseOccs [o] = o) ∧
    (∀ (o1 o2 : Py) (os : List Py),
      collapseOccs (o1 :: o2 :: os) = Py.l (o1 :: o2 :: os)) :=
  ⟨seg_parse_eq hnde hprops, fun o => rfl, fun o1 o2 os => rfl⟩

/-- Claim C7 witness: a record segment with a single-occurrence tag `1`
and a two-occurrence tag `2` parses with the first stored as a scalar and
the second as a list. -/
theorem C7_witness :
    get_record_data (zfill 6 (natToStr 1) ++ '\n' ::
        joinL (([(natToStr 1, Py.s (strL "a")),
          (natToStr 2, Py.l [Py.s (strL "b"), Py.s (strL "c")])]).map
            entryLines))
      = some (Py.d (([(natToStr 1, Py.s (strL "a")),
          (natToStr 2, Py.l [Py.s (strL "b"), Py.s (strL "c")])]).map
            (fun kv =>
              (kv.1, collapseOccs ((fieldOccs kv.2).map parsedOcc))))) ∧
    (∀ o : Py, collapseOccs [o] = o) ∧
    (∀ (o1 o2 : Py) (os : List Py),
      collapseOccs (o1 :: o2 :: os) = Py.l (o1 :: o2 :: os)) :=
  C7_scalar_collapse (by decide) (fun kv hkv => by
    rcases List.mem_cons.mp hkv with rfl | hkv'
    · exact ⟨⟨1, by decide, by decide, rfl⟩,
        show mainSafe (strL "a") = true from by decide⟩
    · rcases List.mem_cons.mp hkv' with rfl | hnil
      · refine ⟨⟨2, by decide, by decide, rfl⟩, ?_⟩
        show [Py.s (strL "b"), Py.s (strL "c")] ≠ [] ∧
          ∀ o ∈ [Py.s (strL "b"), Py.s (strL "c")], occSafe o
        refine ⟨by simp, fun o ho => ?_⟩
        rcases List.mem_cons.mp ho with rfl | ho'
        · show mainSafe (strL "b") = true
          decide
        · rcases List.mem_cons.mp ho' with rfl | hn
          · show mainSafe (strL "c") = true
            decide
          · exact absurd hn (List.not_mem_nil o)
      · exact absurd hnil (List.not_mem_nil kv))

/-- Claim C8: serialization silently drops empty values: the empty
string, the empty list and the empty dict yield no occurrence at all,
and an occurrence that is an empty string or a dict whose main and
subfield values are all empty yields no `!v` line — always `.ok`, never
an error. -/
theorem C8_empty_drop {tag : Str} {t : Nat} {kvs : List (Str × Py)}
    (htag : parseNatDigits tag = some t) (h1 : 0 < t) (h2 : t ≤ 999)
    (hempty : ∀ kv ∈ kvs, kv.2 = Py.s []) (hne : kvs ≠ []) :
    tag_data tag (Py.s []) = .ok [] ∧
    tag_data tag (Py.l []) = .ok [] ∧
    tag_data tag (Py.d []) = .ok [] ∧
    tag_occ tag (Py.s []) = .ok [] ∧
    tag_occ tag (Py.d kvs) = .ok [] :=
  ⟨tag_data_s_nil tag, tag_data_l_nil tag, tag_data_d_nil tag,
    tag_occ_s_nil tag, tag_occ_empty_dict htag h1 h2 hempty hne⟩

/-- Claim C8 witness: with tag `"001"` the empty string, list, dict and
the all-empty occurrence `{"a": ""}` all render to nothing. -/
theorem C8_witness :
    tag_data (strL "001") (Py.s []) = .ok [] ∧
    tag_data (strL "001") (Py.l []) = .ok [] ∧
    tag_data (strL "001") (Py.d []) = .ok [] ∧
    tag_occ (strL "001") (Py.s []) = .ok [] ∧
    tag_occ (strL "001") (Py.d [(strL "a", Py.s [])]) = .ok [] :=
  C8_empty_drop (show parseNatDigits (strL "001") = some 1 from by decide)
    (by decide) (by decide)
    (fun kv hkv => by
      rw [show kv = (strL "a", Py.s []) from by simpa using hkv])
    (by simp)

/-- Claim C9 (implicit): the tag range check runs only when a non-empty
occurrence is about to be emitted — an out-of-range tag mapped to an
empty string, list or dict, or to a list of empty strings, is dropped
before the check and serializes without `RangeError`. -/
theorem C9_empty_skips_range_check {t : Nat} {vs : List Py}
    (ht : ¬(1 ≤ t ∧ t ≤ 999)) (hvs : ∀ o ∈ vs, o = Py.s []) :
    tag_data (natToStr t) (Py.s []) = .ok [] ∧
    tag_data (natToStr t) (Py.l []) = .ok [] ∧
    tag_data (natToStr t) (Py.d []) = .ok [] ∧
    (∃ ls, tag_data (natToStr t) (Py.l vs) = .ok ls ∧ joinL ls = []) ∧
    write_content [Py.d [(natToStr t, Py.s [])]]
      = .ok (strL "!ID 000001\n") := by
  refine ⟨tag_data_s_nil _, tag_data_l_nil _, tag_data_d_nil _,
    ⟨vs.map (fun _ => []), tag_data_all_empty hvs, ?_⟩,
    write_single_empty t⟩
  rw [joinL_eq_nil_iff]
  intro x hx
  rcases List.mem_map.mp hx with ⟨-, -, hxx⟩
  exact hxx.symm

/-- Claim C9 witness: tag `1000` (out of range) with an empty value, and
with a list of one empty string, serializes without error; the whole
record writes just its ID line. -/
theorem C9_witness :
    tag_data (natToStr 1000) (Py.s []) = .ok [] ∧
    tag_data (natToStr 1000) (Py.l []) = .ok [] ∧
    tag_data (natToStr 1000) (Py.d []) = .ok [] ∧
    (∃ ls, tag_data (natToStr 1000) (Py.l [Py.s []]) = .ok ls ∧
      joinL ls = []) ∧
    write_content [Py.d [(natToStr 1000, Py.s [])]]
      = .ok (strL "!ID 000001\n") :=
  C9_empty_skips_range_check (show ¬(1 ≤ 1000 ∧ 1000 ≤ 999) from by omega)
    (show ∀ o ∈ [Py.s []], o = Py.s [] from fun o ho => by simpa using ho)

/-- Claim C10 (implicit): a subfield entry whose code is not in the valid
code set, or whose value is falsy, renders to nothing and contributes
nothing to the occurrence — silently, with no error — while an entry with
a valid code and non-empty value renders as `^` + code + value. -/
theorem C10_invalid_subfield {k : Str} {v : Py} {k2 v2 : Str}
    (h : isSubstrOf k CODES = false ∨ truthy v = false) (hk : k ≠ strL "_")
    (h2 : isSubstrOf k2 CODES = true) (hv2 : v2 ≠ []) :
    format_subfield k v = .ok [] ∧
    format_subfield k2 (Py.s v2) = .ok ('^' :: (k2 ++ fmtStr v2)) ∧
    ∀ kvs, format_subfields ((k, v) :: kvs) = format_subfields kvs :=
  ⟨format_subfield_invalid h, format_subfield_valid h2 hv2,
    fun kvs => format_subfields_drop hk (format_subfield_invalid h)⟩

/-- Claim C10 witness: the uppercase code `"A"` is dropped silently from
any occurrence dict, while the valid code `"a"` with value `"y"` renders
as `^ay`. -/
theorem C10_witness :
    format_subfield (strL "A") (Py.s (strL "x")) = .ok [] ∧
    format_subfield (strL "a") (Py.s (strL "y"))
      = .ok ('^' :: (strL "a" ++ fmtStr (strL "y"))) ∧
    ∀ kvs, format_subfields ((strL "A", Py.s (strL "x")) :: kvs)
      = format_subfields kvs :=
  C10_invalid_subfield (Or.inl (by decide)) (by decide) (by decide)
    (by decide)
